import Mathlib

/-!
# Configuration binding engine (`internal/config`)

A shallow embedding of `struct_reader.go` and `config.go`.

* Go values are trees (`Value`); a structure carries, for each field, the
  static information reflection exposes (`StructField`: name, package path,
  tag) next to the field's current value.
* A `reflect.Value` that denotes a field of the configuration structure is
  modelled by the path of field indices leading to it from the structure
  (`Path`), read with `Value.fieldAt` and written with `Value.setAt`.
* The process environment, the conversion routine `parseValue` and the
  optional `Updater` hook of the root are collected in `World`.
* A Go panic and a returned `error` are kept apart (`MetaResult`, `Exit`).
* The loop over the growing queue of `readStructMetadata` is given a number
  of iterations computed from the root; `readStructMetadata_total` shows it
  is never used up.
-/

namespace config

/-! ## Reflection model -/

/-- The kinds of `reflect.Kind`. -/
inductive Kind where
  | Invalid | Bool | Int | Int8 | Int16 | Int32 | Int64
  | Uint | Uint8 | Uint16 | Uint32 | Uint64 | Uintptr
  | Float32 | Float64 | Complex64 | Complex128
  | Array | Chan | Func | Interface | Map | Pointer | Slice
  | String | Struct | UnsafePointer
  deriving DecidableEq, Repr

/-- Kinds whose values are not inspected any further by the engine. -/
inductive OtherKind where
  | Int8 | Int16 | Int32 | Int64
  | Uint | Uint8 | Uint16 | Uint32 | Uint64 | Uintptr
  | Float32 | Float64 | Complex64 | Complex128
  | Array | Chan | Func | Interface | Map | Slice | UnsafePointer
  deriving DecidableEq, Repr

/-- The `reflect.Kind` of an uninspected kind. -/
def OtherKind.toKind : OtherKind → Kind
  | .Int8 => .Int8 | .Int16 => .Int16 | .Int32 => .Int32 | .Int64 => .Int64
  | .Uint => .Uint | .Uint8 => .Uint8 | .Uint16 => .Uint16 | .Uint32 => .Uint32
  | .Uint64 => .Uint64 | .Uintptr => .Uintptr
  | .Float32 => .Float32 | .Float64 => .Float64
  | .Complex64 => .Complex64 | .Complex128 => .Complex128
  | .Array => .Array | .Chan => .Chan | .Func => .Func | .Interface => .Interface
  | .Map => .Map | .Slice => .Slice | .UnsafePointer => .UnsafePointer

/-- The part of `reflect.StructField` the engine reads. `PkgPath` is empty
exactly for exported fields; `Tag` is the struct tag as parsed key/value
pairs, in the order they are written. -/
structure StructField where
  Name : String
  PkgPath : String
  Tag : List (String × String)
  deriving DecidableEq, Repr

/-- The call `Tag.Lookup(key)`: the value of the first pair with that key. -/
def StructField.Lookup (f : StructField) (key : String) : Option String :=
  f.Tag.lookup key

/-- The call `Tag.Get(key)`: as `Lookup`, the empty string when absent. -/
def StructField.Get (f : StructField) (key : String) : String :=
  (f.Lookup key).getD ""

/-- Go values. A structure value records its type's name (`typ`, such as
`"time.Time"`) and its fields in declaration order. A pointer is nil
(`none`) or holds its pointee. Values of the remaining kinds are opaque:
only their kind and whether they are the zero value are observed. -/
inductive Value where
  | bool (b : Bool)
  | int (n : Int)
  | string (s : String)
  | struct (typ : String) (fields : List (StructField × Value))
  | ptr (elem : Option Value)
  | other (k : OtherKind) (zero : Bool)
  deriving Repr

/-- The method `reflect.Value.Kind` on a valid value. -/
def Value.Kind : Value → Kind
  | .bool _ => .Bool
  | .int _ => .Int
  | .string _ => .String
  | .struct _ _ => .Struct
  | .ptr _ => .Pointer
  | .other k _ => k.toKind

mutual
/-- The number of value nodes of a tree, an upper bound on the number of
structures it contains. -/
def Value.nodes : Value → Nat
  | .bool _ => 1
  | .int _ => 1
  | .string _ => 1
  | .struct _ fs => 1 + Value.nodesList fs
  | .ptr none => 1
  | .ptr (some v) => 1 + v.nodes
  | .other _ _ => 1
/-- The number of value nodes in a field list. -/
def Value.nodesList : List (StructField × Value) → Nat
  | [] => 0
  | (_, v) :: fs => v.nodes + Value.nodesList fs
end

mutual
/-- The method `reflect.Value.IsZero`: false, 0, the empty string, a nil
pointer, a structure all of whose fields are zero. -/
def Value.IsZero : Value → Bool
  | .bool b => !b
  | .int n => n == 0
  | .string s => s.length == 0
  | .struct _ fs => Value.allZero fs
  | .ptr e => e.isNone
  | .other _ z => z
/-- Every field of the list is zero. -/
def Value.allZero : List (StructField × Value) → Bool
  | [] => true
  | (_, v) :: fs => v.IsZero && Value.allZero fs
end

/-- A field location: the field indices leading from the configuration
structure to the field. -/
abbrev Path := List Nat

/-- The value stored at a location (`none`: no such field). -/
def Value.fieldAt : Value → Path → Option Value
  | v, [] => some v
  | .struct _ fs, i :: p =>
    match fs[i]? with
    | some (_, v) => v.fieldAt p
    | none => none
  | _, _ :: _ => none

/-- Store `new` at a location; the tree is unchanged when the location
does not exist. -/
def Value.setAt : Value → Path → Value → Value
  | _, [], new => new
  | .struct t fs, i :: p, new =>
    match fs[i]? with
    | some (f, v) => .struct t (fs.set i (f, v.setAt p new))
    | none => .struct t fs
  | v, _ :: _, _ => v

/-! ## `struct_reader.go` -/

/-- The constant `DefaultSeparator`. -/
def DefaultSeparator : String := ","

/-- The tag key `TagEnv`. -/
def TagEnv : String := "env"

/-- The tag key `TagEnvLayout`. -/
def TagEnvLayout : String := "env-layout"

/-- The tag key `TagEnvDefault`. -/
def TagEnvDefault : String := "env-default"

/-- The tag key `TagEnvSeparator`. -/
def TagEnvSeparator : String := "env-separator"

/-- The tag key `TagEnvDescription`. -/
def TagEnvDescription : String := "env-description"

/-- The tag key `TagEnvUpd`. -/
def TagEnvUpd : String := "env-upd"

/-- The tag key `TagEnvRequired`. -/
def TagEnvRequired : String := "env-required"

/-- The tag key `TagEnvPrefix`. -/
def TagEnvPrefix : String := "env-prefix"

/-- The type `structMeta`. `fieldValue` is the location of the field. -/
structure structMeta where
  envList : List String
  fieldName : String
  fieldValue : Path
  defValue : Option String
  layout : Option String
  separator : String
  description : String
  updatable : Bool
  required : Bool
  deriving DecidableEq, Repr

/-- The errors the package returns. `foreign` stands for an error made by
a conversion or by an `Update` hook. -/
inductive Error where
  | wrongType (k : Kind)
  | requiredField (fieldName : String)
  | foreign (msg : String)
  deriving DecidableEq, Repr

/-- A `reflect.Type` as used for the keys of `validStructs`: a named type or
a pointer to one. -/
inductive TypeKey where
  | named (name : String)
  | pointerTo (name : String)
  deriving DecidableEq, Repr

/-- The keys of the map `validStructs`; the converters stored under them are
only run by `parseValue`. -/
def validStructs : List TypeKey :=
  [.named "time.Time", .named "url.URL", .pointerTo "time.Location"]

/-- The scan of `strings.Split` for a non-empty separator: `skip` counts the
characters of a separator occurrence still to be dropped, `acc` holds the
current segment reversed. -/
def splitScan (sep : List Char) : List Char → Nat → List Char → List String
  | [], _, acc => [String.mk acc.reverse]
  | _ :: cs, skip + 1, acc => splitScan sep cs skip acc
  | c :: cs, 0, acc =>
    if sep.isPrefixOf (c :: cs) then
      String.mk acc.reverse :: splitScan sep cs (sep.length - 1) []
    else splitScan sep cs 0 (c :: acc)

/-- The function `strings.Split`. -/
def stringsSplit (s sep : String) : List String :=
  if sep.data.isEmpty then s.data.map String.singleton
  else splitScan sep.data s.data 0 []

/-- The local type `cfgNode`. `Val` is the interface value (`none`: nil);
`loc` records which field of the root structure `Val` points to. -/
structure cfgNode where
  Val : Option Value
  Prefix : String
  loc : Path
  deriving Repr

/-- What `readStructMetadata` does: return descriptors, return an error,
panic inside `reflect`; `outOfFuel` marks an unfinished run of the model. -/
inductive MetaResult where
  | ok (metas : List structMeta)
  | error (e : Error)
  | panic (msg : String)
  | outOfFuel
  deriving DecidableEq, Repr

/-- The statements `s := reflect.ValueOf(v)` and `if s.Kind() == reflect.Ptr
{ s = s.Elem() }`: the resulting value (`none`: the zero `reflect.Value`)
and whether it is addressable. -/
def unwrap : Option Value → Option Value × Bool
  | some (.ptr e) => (e, e.isSome)
  | v => (v, false)

/-- The kind of a `reflect.Value`, `Invalid` for the zero one. -/
def kindOf : Option Value → Kind
  | none => .Invalid
  | some v => v.Kind

/-- The derivation of `envList` for a field: from `envList := make([]string, 0)`
to the end of the `if` that follows it. -/
def envNames (sPrefix : String) (fType : StructField) : List String :=
  match fType.Lookup TagEnv with
  | some envs =>
    if envs.length != 0 then
      if sPrefix != "" then
        (stringsSplit envs DefaultSeparator).map (fun env => sPrefix ++ env)
      else stringsSplit envs DefaultSeparator
    else []
  | none => []

/-- The descriptor appended for the field `idx` of the structure at `loc`: the
statements after the `CanSet` check, `layout` being the variable of that name. -/
def newMeta (sPrefix : String) (loc : Path) (idx : Nat) (fType : StructField)
    (layout : Option String) : structMeta :=
  { envList := envNames sPrefix fType
    fieldName := fType.Name
    fieldValue := loc ++ [idx]
    defValue := fType.Lookup TagEnvDefault
    layout := layout
    separator := (fType.Lookup TagEnvSeparator).getD DefaultSeparator
    description := fType.Get TagEnvDescription
    updatable := (fType.Lookup TagEnvUpd).isSome
    required := (fType.Lookup TagEnvRequired).isSome }

/-- The panic of `fld.Addr()` on a value that is not addressable. -/
def addrPanic : String := "reflect.Value.Addr of unaddressable value"

/-- The panic of `Interface()` on a value reached through an unexported field. -/
def interfacePanic : String :=
  "reflect.Value.Interface: cannot return value obtained from unexported field or method"

/-- The node pushed for the nested structure `fld`, field `idx` of the structure
at `loc`: `cfgNode{fld.Addr().Interface(), sPrefix + prefix}`. -/
def newNode (sPrefix : String) (loc : Path) (idx : Nat) (fType : StructField) (fld : Value) :
    cfgNode :=
  { Val := some (.ptr (some fld))
    Prefix := sPrefix ++ (fType.Lookup TagEnvPrefix).getD ""
    loc := loc ++ [idx] }

/-- The body of the loop over the fields of one structure (`idx` is the
index of the head of the list; `canAddr` tells whether the structure is
addressable, which with an exported field makes `CanSet` true): returns the
grown `cfgStack` and `metas`, or the message of a `reflect` panic. -/
def readFields (canAddr : Bool) (sPrefix : String) (loc : Path) :
    List (StructField × Value) → Nat → List cfgNode → List structMeta →
    Except String (List cfgNode × List structMeta)
  | [], _, cfgStack, metas => .ok (cfgStack, metas)
  | (fType, fld) :: rest, idx, cfgStack, metas =>
    match fld with
    | .struct typ _ =>
      -- process nested structure (except of supported ones)
      if !validStructs.contains (.named typ) then
        -- add structure to parsing stack
        if !canAddr then .error addrPanic
        else if !fType.PkgPath.isEmpty then .error interfacePanic
        else
          readFields canAddr sPrefix loc rest (idx + 1)
            (cfgStack ++ [newNode sPrefix loc idx fType fld]) metas
      -- check is the field value can be changed
      else if !(canAddr && fType.PkgPath.isEmpty) then
        readFields canAddr sPrefix loc rest (idx + 1) cfgStack metas
      else
        readFields canAddr sPrefix loc rest (idx + 1) cfgStack
          (metas ++ [newMeta sPrefix loc idx fType (fType.Lookup TagEnvLayout)])
    | _ =>
      -- check is the field value can be changed
      if !(canAddr && fType.PkgPath.isEmpty) then
        readFields canAddr sPrefix loc rest (idx + 1) cfgStack metas
      else
        readFields canAddr sPrefix loc rest (idx + 1) cfgStack
          (metas ++ [newMeta sPrefix loc idx fType none])

/-- The loop `for i := 0; i < len(cfgStack); i++` of `readStructMetadata`,
with a bound on the number of iterations. -/
def readLoop : Nat → List cfgNode → Nat → List structMeta → MetaResult
  | 0, _, _, _ => .outOfFuel
  | fuel + 1, cfgStack, i, metas =>
    match cfgStack[i]? with
    | none => .ok metas
    | some node =>
      match unwrap node.Val with
      | (some (.struct _ fields), canAddr) =>
        match readFields canAddr node.Prefix node.loc fields 0 cfgStack metas with
        | .ok (cfgStack', metas') => readLoop fuel cfgStack' (i + 1) metas'
        | .error msg => .panic msg
      | (s, _) => .error (.wrongType (kindOf s))

/-- The iterations the loop of `readStructMetadata` is given: one more than
the value nodes of the root. -/
def metaFuel : Option Value → Nat
  | none => 1
  | some v => v.nodes + 1

/-- The function `readStructMetadata`. -/
def readStructMetadata (cfgRoot : Option Value) : MetaResult :=
  readLoop (metaFuel cfgRoot) [{ Val := cfgRoot, Prefix := "", loc := [] }] 0 []

/-! ## `config.go` -/

/-- What `readEnvVars` depends on besides its arguments: the process
environment (`os.LookupEnv`); the conversion routine `parseValue` of the
package, kept abstract (any function from the field, the raw string, the
separator and the layout to the value it leaves in the field and the error
it returns may stand for it); and the method `Update` of the root when the
root implements `Updater` (from the structure to the structure it leaves
behind and the error it returns). -/
structure World where
  LookupEnv : String → Option String
  parseValue : Value → String → String → Option String → Value × Option Error
  Update : Option (Value → Value × Option Error)

/-- One invocation `parseValue(field, value, separator, layout)`. -/
structure Call where
  field : Path
  value : String
  separator : String
  layout : Option String
  deriving DecidableEq, Repr

/-- How a call ends: it returns nil, returns an error, or panics inside
`reflect`; `outOfFuel` is handed on from `readStructMetadata`. -/
inductive Exit where
  | nil
  | error (e : Error)
  | panic (msg : String)
  | outOfFuel
  deriving DecidableEq, Repr

/-- The observable effect of `readEnvVars`: the structure behind `cfg` as
the call leaves it (`none` when `cfg` holds no value), the invocations of
`parseValue` in the order they were made, and how the call ended. -/
structure Pass where
  cfg : Option Value
  calls : List Call
  exit : Exit

/-- The loop `for _, env := range meta.envList` with its `break`: the value
of the first name that is set. -/
def lookupEnvList (LookupEnv : String → Option String) : List String → Option String
  | [] => none
  | env :: rest =>
    match LookupEnv env with
    | some value => some value
    | none => lookupEnvList LookupEnv rest

/-- The method `isFieldValueZero` in the state `s` of the structure; `none`
stands for the panic of `IsZero` on the zero `reflect.Value`. -/
def structMeta.isFieldValueZero (sm : structMeta) (s : Value) : Option Bool :=
  (s.fieldAt sm.fieldValue).map Value.IsZero

/-- The message of the panic of a `reflect` method on the zero Value. -/
def invalidValue : String := "reflect: call of method on zero Value"

/-- Where the statements that settle `rawValue` lead: to the call of
`parseValue` with `*rawValue = raw`, to `continue` with `rawValue == nil`,
to the return of the required-field error, or to a panic in `IsZero`. -/
inductive Resolved where
  | value (raw : String)
  | skip
  | required
  | invalid
  deriving DecidableEq, Repr

/-- The statements of the loop body of `readEnvVars` that settle `rawValue`,
from `var rawValue *string` to `if rawValue == nil { continue }`. -/
def structMeta.resolve (LookupEnv : String → Option String) (sm : structMeta) (s : Value) :
    Resolved :=
  match lookupEnvList LookupEnv sm.envList with
  | some value => .value value
  | none =>
    match sm.isFieldValueZero s with
    | none => .invalid
    | some zero =>
      if sm.required && zero then .required
      else if zero then
        match sm.defValue with
        | some value => .value value
        | none => .skip
      else .skip

/-- How one iteration of the loop over the descriptors ends: the loop goes
on, or `readEnvVars` is left. -/
inductive Step where
  | next (s : Value) (calls : List Call)
  | stop (r : Pass)

/-- The body of the loop `for _, meta := range metaInfo` of `readEnvVars`, in
the state `s` of the structure and with the invocations `calls` made so
far. -/
def bindField (w : World) (update : Bool) (sm : structMeta) (s : Value) (calls : List Call) :
    Step :=
  -- update only updatable fields
  if update && !sm.updatable then .next s calls
  else
    match sm.resolve w.LookupEnv s with
    | .skip => .next s calls
    | .required => .stop ⟨some s, calls, .error (.requiredField sm.fieldName)⟩
    | .invalid => .stop ⟨some s, calls, .panic invalidValue⟩
    | .value raw =>
      match s.fieldAt sm.fieldValue with
      | none => .stop ⟨some s, calls, .panic invalidValue⟩
      | some field =>
        let r := w.parseValue field raw sm.separator sm.layout
        let s' := s.setAt sm.fieldValue r.1
        let calls' := calls ++ [⟨sm.fieldValue, raw, sm.separator, sm.layout⟩]
        match r.2 with
        | some err => .stop ⟨some s', calls', .error err⟩
        | none => .next s' calls'

/-- The loop `for _, meta := range metaInfo` of `readEnvVars`. -/
def bindFields (w : World) (update : Bool) : List structMeta → Value → List Call → Pass
  | [], s, calls => ⟨some s, calls, .nil⟩
  | sm :: rest, s, calls =>
    match bindField w update sm s calls with
    | .next s' calls' => bindFields w update rest s' calls'
    | .stop r => r

/-- The statement `if updater, ok := cfg.(Updater); ok { ... updater.Update() }`:
the structure it leaves behind and the error of `Update`, if any. -/
def World.runUpdate (w : World) (s : Value) : Value × Option Error :=
  match w.Update with
  | some upd => upd s
  | none => (s, none)

/-- The function `readEnvVars`. -/
def readEnvVars (w : World) (cfg : Option Value) (update : Bool) : Pass :=
  match readStructMetadata cfg with
  | .error err => ⟨(unwrap cfg).1, [], .error err⟩
  | .panic msg => ⟨(unwrap cfg).1, [], .panic msg⟩
  | .outOfFuel => ⟨(unwrap cfg).1, [], .outOfFuel⟩
  | .ok metaInfo =>
    match (unwrap cfg).1 with
    | none => ⟨none, [], .panic invalidValue⟩
    | some s =>
      match (w.runUpdate s).2 with
      | some err => ⟨some (w.runUpdate s).1, [], .error err⟩
      | none => bindFields w update metaInfo (w.runUpdate s).1 []

/-- The function `ReadEnv`. -/
def ReadEnv (w : World) (cfg : Option Value) : Pass :=
  readEnvVars w cfg false

/-- The function `UpdateEnv`. -/
def UpdateEnv (w : World) (cfg : Option Value) : Pass :=
  readEnvVars w cfg true

/-! ## Notions used in the statements -/

/-- Neither location lies on the way to the other. -/
def Indep (p q : Path) : Prop := ¬ p <+: q ∧ ¬ q <+: p

instance (p q : Path) : Decidable (Indep p q) := by unfold Indep; infer_instance

/-- The reader descends into the value: it is a structure whose type is no
key of `validStructs`. -/
def Value.nested : Value → Bool
  | .struct typ _ => !validStructs.contains (.named typ)
  | _ => false

/-- The layout recorded for a field the reader does not descend into: the
`env-layout` annotation of a structure-kind field, nothing for other kinds. -/
def leafLayout (fType : StructField) : Value → Option String
  | .struct _ _ => fType.Lookup TagEnvLayout
  | _ => none

/-- The nodes the fields `fs` (the first of index `idx`) of a structure add to
the queue. -/
def childNodes (sPrefix : String) (loc : Path) : List (StructField × Value) → Nat → List cfgNode
  | [], _ => []
  | (fType, fld) :: rest, idx =>
    if fld.nested then newNode sPrefix loc idx fType fld :: childNodes sPrefix loc rest (idx + 1)
    else childNodes sPrefix loc rest (idx + 1)

/-- The descriptors the fields `fs` (the first of index `idx`) of a structure
add to the list. -/
def leafMetas (canAddr : Bool) (sPrefix : String) (loc : Path) :
    List (StructField × Value) → Nat → List structMeta
  | [], _ => []
  | (fType, fld) :: rest, idx =>
    if !fld.nested && (canAddr && fType.PkgPath.isEmpty) then
      newMeta sPrefix loc idx fType (leafLayout fType fld) ::
        leafMetas canAddr sPrefix loc rest (idx + 1)
    else leafMetas canAddr sPrefix loc rest (idx + 1)

/-- Declaration order of two locations of the same depth: the first index in
which they differ is smaller in the first. -/
def lexBefore : Path → Path → Bool
  | a :: p, b :: q => decide (a < b) || (a == b && lexBefore p q)
  | _, _ => false

/-- Breadth-first order of locations: a shallower location comes first, and
locations of one depth come in declaration order. -/
def bfsBefore (p q : Path) : Bool :=
  decide (p.length < q.length) || (p.length == q.length && lexBefore p q)

/-- The prefix accumulated on the way from the structure `s` to the structure
at a location: the `env-prefix` annotations of the fields passed, in order. -/
def accPrefix : Value → Path → String
  | .struct _ fs, i :: p =>
    match fs[i]? with
    | some (f, v) => (f.Lookup TagEnvPrefix).getD "" ++ accPrefix v p
    | none => ""
  | _, _ => ""

/-- The location is reached from the structure `s` by passing only fields
the reader descends into. -/
def NodePos (s : Value) (q : Path) : Prop :=
  ∀ q', q' <+: q → q' ≠ [] → ∃ v, s.fieldAt q' = some v ∧ v.nested = true

/-- The queue entry stands for the structure at its location: it points to
it and carries the prefix accumulated on the way. -/
def NodeOK (s : Value) (n : cfgNode) : Prop :=
  (unwrap n.Val).1 = s.fieldAt n.loc ∧ n.Prefix = accPrefix s n.loc ∧ NodePos s n.loc

/-- The descriptor is the one of an exported field, not descended into, of a
structure the reader reaches in `s`. -/
def MetaOK (s : Value) (m : structMeta) : Prop :=
  ∃ parent idx t fs fType fld,
    s.fieldAt parent = some (.struct t fs) ∧ NodePos s parent ∧
    fs[idx]? = some (fType, fld) ∧ fld.nested = false ∧ fType.PkgPath.isEmpty = true ∧
    m = newMeta (accPrefix s parent) parent idx fType (leafLayout fType fld)

/-- The order invariant of the traversal. -/
def OrderInv (stack : List cfgNode) (i : Nat) (metas : List structMeta) : Prop :=
  (stack.map (fun n => n.loc)).Pairwise (fun p q => bfsBefore p q = true) ∧
  (metas.map (fun m => m.fieldValue)).Pairwise (fun p q => bfsBefore p q = true) ∧
  (∀ n ∈ stack.drop i, ∀ e ∈ stack, ∀ k, bfsBefore e.loc (n.loc ++ [k]) = true) ∧
  (∀ n ∈ stack.drop i, ∀ m ∈ metas, ∀ k, bfsBefore m.fieldValue (n.loc ++ [k]) = true)

/-- The invocation of `parseValue` the loop makes for a descriptor whose raw value is `raw`. -/
def structMeta.call (sm : structMeta) (raw : String) : Call :=
  ⟨sm.fieldValue, raw, sm.separator, sm.layout⟩

/-- The descriptor is one the loop does not pass over. -/
def structMeta.processed (sm : structMeta) (update : Bool) : Prop :=
  update = true → sm.updatable = true


/-- The value a call leaves at a location of the structure. -/
def Pass.field (r : Pass) (p : Path) : Option Value :=
  r.cfg.bind (fun s => s.fieldAt p)

/-- The field of the descriptor is required, has no name that is set in the
environment, and holds the zero value in the state `s`. -/
def Missing (w : World) (s : Value) (sm : structMeta) : Prop :=
  sm.required = true ∧ (∀ n ∈ sm.envList, w.LookupEnv n = none) ∧
    ∃ v, s.fieldAt sm.fieldValue = some v ∧ v.IsZero = true

/-- The names a field declares: the value of its `env` annotation split on
the standard separator, none when the annotation is absent or empty. -/
def declaredNames (fType : StructField) : List String :=
  match fType.Lookup TagEnv with
  | some envs => if envs.length != 0 then stringsSplit envs DefaultSeparator else []
  | none => []

/-- Depth-first order of a list of locations: of two listed locations, the
earlier one has the smaller index at the first place where they differ. -/
def DepthFirst (paths : List Path) : Prop :=
  paths.Pairwise (fun p q => lexBefore p q = true)

/-- Breadth-first order of a list of locations: of two listed locations, the
earlier one is shallower, or as deep and earlier in declaration order. -/
def BreadthFirst (paths : List Path) : Prop :=
  paths.Pairwise (fun p q => bfsBefore p q = true)

/-- The size of the structure a queue entry stands for. -/
def cfgNode.weight (n : cfgNode) : Nat :=
  match (unwrap n.Val).1 with
  | some v => v.nodes
  | none => 0

/-! ## Example configuration -/

/-- The value of a decimal numeral, digit by digit. -/
def decimalFrom (acc : Nat) : List Char → Option Nat
  | [] => some acc
  | c :: cs => if c.isDigit then decimalFrom (acc * 10 + (c.toNat - 48)) cs else none

/-- A conversion for the examples: a string field takes the raw string as it
is, an int field takes a non-empty decimal numeral and fails on anything
else, a field of another kind fails. -/
def exampleParse : Value → String → String → Option String → Value × Option Error
  | .string _, raw, _, _ => (.string raw, none)
  | .int n, raw, _, _ =>
    match raw.data with
    | [] => (.int n, some (.foreign "strconv.Atoi: invalid syntax"))
    | c :: cs =>
      match decimalFrom 0 (c :: cs) with
      | some k => (.int k, none)
      | none => (.int n, some (.foreign "strconv.Atoi: invalid syntax"))
  | v, _, _, _ => (v, some (.foreign "unsupported kind"))

/-- The nested structure of the example:
`struct { Host string (env HOST, default localhost); Port int (env PORT, updatable) }`. -/
def exampleDB : Value :=
  .struct "main.DB"
    [(⟨"Host", "", [("env", "HOST"), ("env-default", "localhost")]⟩, .string ""),
     (⟨"Port", "", [("env", "PORT"), ("env-upd", "")]⟩, .int 0)]

/-- The example structure: `DB` (nested, `env-prefix:"DB_"`), `A int` (env A,
default 10) holding 5, `Name string` (env NAME or APP_NAME, required) holding
the empty string. -/
def exampleConfig : Value :=
  .struct "main.Config"
    [(⟨"DB", "", [("env-prefix", "DB_")]⟩, exampleDB),
     (⟨"A", "", [("env", "A"), ("env-default", "10")]⟩, .int 5),
     (⟨"Name", "", [("env", "NAME,APP_NAME"), ("env-required", "true")]⟩, .string "")]

/-- The argument `&cfg` for the example structure. -/
def exampleRoot : Option Value := some (.ptr (some exampleConfig))

/-- The descriptor of `A`. -/
def metaA : structMeta :=
  ⟨["A"], "A", [1], some "10", none, ",", "", false, false⟩

/-- The descriptor of `Name`. -/
def metaName : structMeta :=
  ⟨["NAME", "APP_NAME"], "Name", [2], none, none, ",", "", false, true⟩

/-- The descriptor of `DB.Host`. -/
def metaHost : structMeta :=
  ⟨["DB_HOST"], "Host", [0, 0], some "localhost", none, ",", "", false, false⟩

/-- The descriptor of `DB.Port`. -/
def metaPort : structMeta :=
  ⟨["DB_PORT"], "Port", [0, 1], none, none, ",", "", true, false⟩

/-- An environment with `APP_NAME=svc` and `DB_PORT=5432`. -/
def exampleEnv (name : String) : Option String :=
  if name = "APP_NAME" then some "svc"
  else if name = "DB_PORT" then some "5432"
  else none

/-- The example environment, the example conversion, no `Update` method. -/
def exampleWorld : World := ⟨exampleEnv, exampleParse, none⟩

/-- An empty environment, the example conversion, no `Update` method. -/
def emptyWorld : World := ⟨fun _ => none, exampleParse, none⟩

/-- A flat structure: `Host string` (default localhost) empty,
`A int` (default 10) holding 5, `Port int` (no default) holding 0. -/
def defaultsConfig : Value :=
  .struct "main.Defaults"
    [(⟨"Host", "", [("env", "HOST"), ("env-default", "localhost")]⟩, .string ""),
     (⟨"A", "", [("env", "A"), ("env-default", "10")]⟩, .int 5),
     (⟨"Port", "", [("env", "PORT")]⟩, .int 0)]

/-- The argument `&cfg` for the flat structure. -/
def defaultsRoot : Option Value := some (.ptr (some defaultsConfig))

/-- The descriptors of the flat structure. -/
def defaultsMetas : List structMeta :=
  [⟨["HOST"], "Host", [0], some "localhost", none, ",", "", false, false⟩,
   ⟨["A"], "A", [1], some "10", none, ",", "", false, false⟩,
   ⟨["PORT"], "Port", [2], none, none, ",", "", false, false⟩]

/-- A structure with required fields: `Token string` (env TOKEN, required,
default secret) empty, `Mode string` (env MODE, required) holding `fast`. -/
def requiredConfig : Value :=
  .struct "main.Required"
    [(⟨"Token", "", [("env", "TOKEN"), ("env-required", "true"), ("env-default", "secret")]⟩,
        .string ""),
     (⟨"Mode", "", [("env", "MODE"), ("env-required", "true")]⟩, .string "fast")]

/-- The argument `&cfg` for the structure with required fields. -/
def requiredRoot : Option Value := some (.ptr (some requiredConfig))

/-- The descriptor of `Token`. -/
def metaToken : structMeta :=
  ⟨["TOKEN"], "Token", [0], some "secret", none, ",", "", false, true⟩

/-- The descriptor of `Mode`. -/
def metaMode : structMeta :=
  ⟨["MODE"], "Mode", [1], none, none, ",", "", false, true⟩

/-- An environment with `PORT=x1`, the example conversion, no `Update` method. -/
def badPortWorld : World :=
  ⟨fun name => if name = "PORT" then some "x1" else none, exampleParse, none⟩

/-- The flat structure after `Host` has taken its default. -/
def defaultsBound : Value :=
  .struct "main.Defaults"
    [(⟨"Host", "", [("env", "HOST"), ("env-default", "localhost")]⟩, .string "localhost"),
     (⟨"A", "", [("env", "A"), ("env-default", "10")]⟩, .int 5),
     (⟨"Port", "", [("env", "PORT")]⟩, .int 0)]

/-- An `Update` method that fails and leaves the structure as it is. -/
def failingUpdate (s : Value) : Value × Option Error :=
  (s, some (.foreign "update failed"))

/-- The example environment and conversion, with the failing `Update` method. -/
def hookWorld : World := ⟨exampleEnv, exampleParse, some failingUpdate⟩

/-- Two levels of nesting:
`struct { Mid struct { Inner struct { X string (env X,Y) } (env-prefix B_) } (env-prefix A_) }`. -/
def deepConfig : Value :=
  .struct "main.Outer"
    [(⟨"Mid", "", [("env-prefix", "A_")]⟩,
      .struct "main.Mid"
        [(⟨"Inner", "", [("env-prefix", "B_")]⟩,
          .struct "main.Inner" [(⟨"X", "", [("env", "X,Y")]⟩, .string "")])])]

/-- A prefix that makes a declared name reappear:
`struct { N struct { F string (env B,AB) } (env-prefix A) }`. -/
def clashConfig : Value :=
  .struct "main.Clash"
    [(⟨"N", "", [("env-prefix", "A")]⟩,
      .struct "main.N" [(⟨"F", "", [("env", "B,AB")]⟩, .string "")])]

/-- An unexported field of a structure type that is no key of `validStructs`:
`struct { inner struct { X int (env X) } }`. -/
def hiddenConfig : Value :=
  .struct "main.Hidden"
    [(⟨"inner", "main", []⟩, .struct "main.inner" [(⟨"X", "", [("env", "X")]⟩, .int 0)])]

/-! ## The queue of the metadata reader -/

/-- The loop of `readStructMetadata`, followed for its queue: the value of
`cfgStack` when the loop ends (`none` when the loop is left by the error
return or by a panic, or is not through within `fuel` iterations). -/
def queueLoop : Nat → List cfgNode → Nat → List structMeta → Option (List cfgNode)
  | 0, _, _, _ => none
  | fuel + 1, cfgStack, i, metas =>
    match cfgStack[i]? with
    | none => some cfgStack
    | some node =>
      match unwrap node.Val with
      | (some (.struct _ fields), canAddr) =>
        match readFields canAddr node.Prefix node.loc fields 0 cfgStack metas with
        | .ok (cfgStack', metas') => queueLoop fuel cfgStack' (i + 1) metas'
        | .error _ => none
      | _ => none

/-- The queue `cfgStack` of `readStructMetadata` when its loop has ended. -/
def readQueue (cfgRoot : Option Value) : Option (List cfgNode) :=
  queueLoop (metaFuel cfgRoot) [{ Val := cfgRoot, Prefix := "", loc := [] }] 0 []

/-- The entries the processing of a queue entry adds to the queue: one for
each field it descends into, in declaration order. -/
def cfgNode.children (n : cfgNode) : List cfgNode :=
  match unwrap n.Val with
  | (some (.struct _ fields), _) => childNodes n.Prefix n.loc fields 0
  | _ => []

/-- The descriptors the processing of a queue entry adds to the list: one for
each settable field it does not descend into, in declaration order. -/
def cfgNode.leaves (n : cfgNode) : List structMeta :=
  match unwrap n.Val with
  | (some (.struct _ fields), canAddr) => leafMetas canAddr n.Prefix n.loc fields 0
  | _ => []

mutual
/-- The number of structure-kind fields held by value below a value, at any
depth; pointers are not followed. -/
def Value.structFields : Value → Nat
  | .struct _ fs => Value.structFieldsList fs
  | _ => 0
/-- The number of structure-kind fields held by value in and below a field
list. -/
def Value.structFieldsList : List (StructField × Value) → Nat
  | [] => 0
  | (_, v) :: fs =>
    (if v.Kind = .Struct then 1 else 0) + v.structFields + Value.structFieldsList fs
end

/-- The number of structure-kind fields held by value below the structure a
queue entry stands for. -/
def cfgNode.structFields (n : cfgNode) : Nat :=
  match (unwrap n.Val).1 with
  | some v => v.structFields
  | none => 0

/-- The descriptor `m₁` stands before the descriptor `m₂` in the list. -/
def Precedes (metas : List structMeta) (m₁ m₂ : structMeta) : Prop :=
  ∃ i j : Nat, i < j ∧ metas[i]? = some m₁ ∧ metas[j]? = some m₂

/-! ## `config.go`: `Load` -/

/-- The value of a string of decimal digits read after `acc`; `none` when a
character is no digit. -/
def digitsValue (acc : Nat) : List Char → Option Nat
  | [] => some acc
  | c :: cs => if c.isDigit then digitsValue (acc * 10 + (c.toNat - 48)) cs else none

/-- The function `strconv.Atoi`, for an `int` of 64 bits: an optional sign, then
one or more decimal digits, the number within the range of `int`; `none`
stands for the returned error. -/
def Atoi (s : String) : Option Int :=
  match s.data with
  | [] => none
  | c :: cs =>
    match (if c == '-' || c == '+' then cs else c :: cs) with
    | [] => none
    | d :: ds =>
      match digitsValue 0 (d :: ds) with
      | none => none
      | some n =>
        if c == '-' then (if n ≤ 2 ^ 63 then some (-(n : Int)) else none)
        else (if n < 2 ^ 63 then some (n : Int) else none)

/-- The function `strconv.ParseBool`; `none` stands for the returned error. -/
def ParseBool (str : String) : Option Bool :=
  if str ∈ ["1", "t", "T", "TRUE", "true", "True"] then some true
  else if str ∈ ["0", "f", "F", "FALSE", "false", "False"] then some false
  else none

/-- The errors `Load` returns: the error of `strconv.Atoi`, the error of
`strconv.ParseBool`, and its own `none supported value type` error. -/
inductive LoadError where
  | atoi (s : String)
  | parseBool (str : String)
  | unsupported (kind : Kind) (name : String)
  deriving DecidableEq, Repr

/-- How a call of `Load` ends. -/
inductive LoadExit where
  | nil
  | error (e : LoadError)
  | panic (msg : String)
  deriving DecidableEq, Repr

/-- The effect of `Load`: the structure behind `des` as the call leaves it
(`none` when there is none) and how the call ended. -/
structure Loaded where
  des : Option Value
  exit : LoadExit

/-- The panic of a `Set` method of `reflect` on an unexported field. -/
def setPanic (method : String) : String :=
  "reflect: reflect.Value." ++ method ++ " using value obtained using unexported field"

/-- The loop `for i := 0; i < val.NumField(); i++` of `Load` over the fields
of an addressable structure, from the field at the head of the list on:
the fields as the loop leaves them and how it ends. `config` is the map,
by its lookup. -/
def loadFields (config : String → Option String) :
    List (StructField × Value) → List (StructField × Value) × LoadExit
  | [] => ([], .nil)
  | (typeField, valueField) :: rest =>
    match config typeField.Name with
    | none =>
      -- Ignore the property if the value is not provided
      ((typeField, valueField) :: (loadFields config rest).1, (loadFields config rest).2)
    | some val =>
      match valueField with
      | .int _ =>
        match Atoi val with
        | none => ((typeField, valueField) :: rest, .error (.atoi val))
        | some intVal =>
          if !typeField.PkgPath.isEmpty then
            ((typeField, valueField) :: rest, .panic (setPanic "SetInt"))
          else ((typeField, .int intVal) :: (loadFields config rest).1,
            (loadFields config rest).2)
      | .string _ =>
        if !typeField.PkgPath.isEmpty then
          ((typeField, valueField) :: rest, .panic (setPanic "SetString"))
        else ((typeField, .string val) :: (loadFields config rest).1,
          (loadFields config rest).2)
      | .bool _ =>
        match ParseBool val with
        | none => ((typeField, valueField) :: rest, .error (.parseBool val))
        | some boolVal =>
          if !typeField.PkgPath.isEmpty then
            ((typeField, valueField) :: rest, .panic (setPanic "SetBool"))
          else ((typeField, .bool boolVal) :: (loadFields config rest).1,
            (loadFields config rest).2)
      | _ =>
        ((typeField, valueField) :: rest,
          .error (.unsupported valueField.Kind typeField.Name))

/-- The function `Load`. `reflect.ValueOf(des).Elem()` panics unless `des` is
a pointer, and `NumField` panics unless it points to a structure. -/
def Load (config : String → Option String) (des : Option Value) : Loaded :=
  match des with
  | some (.ptr (some (.struct t fields))) =>
    ⟨some (.struct t (loadFields config fields).1), (loadFields config fields).2⟩
  | some (.ptr (some v)) =>
    ⟨some v, .panic "reflect: call of reflect.Value.NumField on non-struct Value"⟩
  | some (.ptr none) =>
    ⟨none, .panic "reflect: call of reflect.Value.NumField on zero Value"⟩
  | some v => ⟨some v, .panic "reflect: call of reflect.Value.Elem on non-pointer Value"⟩
  | none => ⟨none, .panic "reflect: call of reflect.Value.Elem on zero Value"⟩

/-- The names of the top-level fields of the structure `des` points to. -/
def topNames : Option Value → List String
  | some (.ptr (some (.struct _ fields))) => fields.map (fun x => x.1.Name)
  | _ => []

/-- The map restricted to the keys in `names`. -/
def restrictTo (config : String → Option String) (names : List String) :
    String → Option String :=
  fun key => if key ∈ names then config key else none

/-- The map has a value for the field that `Load` cannot store: the kind of
the field is not int, string or bool, or the value does not parse as the
int or bool the field takes. -/
def Unloadable (config : String → Option String) (x : StructField × Value) : Prop :=
  ∃ val, config x.1.Name = some val ∧
    ((x.2.Kind ≠ .Int ∧ x.2.Kind ≠ .String ∧ x.2.Kind ≠ .Bool) ∨
      (x.2.Kind = .Int ∧ Atoi val = none) ∨ (x.2.Kind = .Bool ∧ ParseBool val = none))

/-- The fields of `struct { Ratio float64; N int; On bool; S string }`, all zero. -/
def ratioFields : List (StructField × Value) :=
  [(⟨"Ratio", "", []⟩, .other .Float64 true),
   (⟨"N", "", []⟩, .int 0),
   (⟨"On", "", []⟩, .bool false),
   (⟨"S", "", []⟩, .string "")]

/-- A structure with a field of a kind `Load` does not support. -/
def ratioConfig : Value := .struct "main.Ratio" ratioFields

/-- The map `{"N": "42", "On": "T", "S": " x ", "Other": "1"}`. -/
def ratioMap (key : String) : Option String :=
  if key = "N" then some "42"
  else if key = "On" then some "T"
  else if key = "S" then some " x "
  else if key = "Other" then some "1"
  else none

/-- The map `{"N": "42", "On": "T", "S": " x "}`. -/
def ratioMapKnown (key : String) : Option String :=
  if key = "N" then some "42"
  else if key = "On" then some "T"
  else if key = "S" then some " x "
  else none

/-- The map `{"N": "7", "Ratio": "0.5"}`. -/
def floatMap (key : String) : Option String :=
  if key = "N" then some "7"
  else if key = "Ratio" then some "0.5"
  else none

/-- The map `{"N": "4x2"}`. -/
def badIntMap (key : String) : Option String :=
  if key = "N" then some "4x2" else none

/-! ## Further example structures -/

/-- Flags with values that do not say yes:
`struct { Debug bool (env DEBUG, env-upd "false", env-required ""); Plain string (env PLAIN) }`. -/
def flagsConfig : Value :=
  .struct "main.Flags"
    [(⟨"Debug", "", [("env", "DEBUG"), ("env-upd", "false"), ("env-required", "")]⟩,
        .bool false),
     (⟨"Plain", "", [("env", "PLAIN")]⟩, .string "")]

/-- A nested structure under the prefix `P_` with a separator override, an
absent and an empty `env` annotation:
`struct { Sub struct { Hosts string (env "a;b,c", env-separator ";");
NoEnv string (env-default x); Empty string (env "") } (env-prefix P_) }`. -/
def separatorConfig : Value :=
  .struct "main.Sep"
    [(⟨"Sub", "", [("env-prefix", "P_")]⟩,
      .struct "main.Sub"
        [(⟨"Hosts", "", [("env", "a;b,c"), ("env-separator", ";")]⟩, .string ""),
         (⟨"NoEnv", "", [("env-default", "x")]⟩, .string ""),
         (⟨"Empty", "", [("env", "")]⟩, .string "")])]

/-- The descriptors of the structure with the separator override. -/
def separatorMetas : List structMeta :=
  [⟨["P_a;b", "P_c"], "Hosts", [0, 0], none, none, ";", "", false, false⟩,
   ⟨[], "NoEnv", [0, 1], some "x", none, ",", "", false, false⟩,
   ⟨[], "Empty", [0, 2], none, none, ",", "", false, false⟩]

/-- The zero value of `time.Time`, with its unexported fields. -/
def zeroTime : Value :=
  .struct "time.Time"
    [(⟨"wall", "time", []⟩, .other .Uint64 true),
     (⟨"ext", "time", []⟩, .other .Int64 true),
     (⟨"loc", "time", []⟩, .ptr none)]

/-- A registered and an unregistered structure field:
`struct { At time.Time (env AT, env-layout 2006-01-02); DB struct { Host string (env HOST) } }`. -/
def timeConfig : Value :=
  .struct "main.Timed"
    [(⟨"At", "", [("env", "AT"), ("env-layout", "2006-01-02")]⟩, zeroTime),
     (⟨"DB", "", []⟩, .struct "main.DB" [(⟨"Host", "", [("env", "HOST")]⟩, .string "")])]

/-- The descriptors of the structure with the `time.Time` field. -/
def timeMetas : List structMeta :=
  [⟨["AT"], "At", [0], none, some "2006-01-02", ",", "", false, false⟩,
   ⟨["HOST"], "Host", [1, 0], none, none, ",", "", false, false⟩]

/-- An unexported nested structure next to an exported field:
`struct { inner struct { X int (env X) }; A int (env A) }`. -/
def hiddenSibling : Value :=
  .struct "main.HiddenSibling"
    [(⟨"inner", "main", []⟩, .struct "main.inner" [(⟨"X", "", [("env", "X")]⟩, .int 0)]),
     (⟨"A", "", [("env", "A")]⟩, .int 0)]

/-- The same structure without the unexported field: `struct { A int (env A) }`. -/
def hiddenSiblingRemoved : Value :=
  .struct "main.HiddenSibling" [(⟨"A", "", [("env", "A")]⟩, .int 0)]

/-- A default that converts to the zero value:
`struct { Level int (env LEVEL, default 0); Name string (env NAME) }`. -/
def levelConfig : Value :=
  .struct "main.Level"
    [(⟨"Level", "", [("env", "LEVEL"), ("env-default", "0")]⟩, .int 0),
     (⟨"Name", "", [("env", "NAME")]⟩, .string "")]

/-- The same structure after a pass with `NAME=svc`. -/
def levelBound : Value :=
  .struct "main.Level"
    [(⟨"Level", "", [("env", "LEVEL"), ("env-default", "0")]⟩, .int 0),
     (⟨"Name", "", [("env", "NAME")]⟩, .string "svc")]

/-- The descriptors of the structure with the zero default. -/
def levelMetas : List structMeta :=
  [⟨["LEVEL"], "Level", [0], some "0", none, ",", "", false, false⟩,
   ⟨["NAME"], "Name", [1], none, none, ",", "", false, false⟩]

/-- An environment with `NAME=svc`, the example conversion, no `Update` method. -/
def nameWorld : World :=
  ⟨fun name => if name = "NAME" then some "svc" else none, exampleParse, none⟩

/-! ## Values of one type -/

/-- The name of the type of a structure value; `none` for the other kinds. -/
def Value.typeName : Value → Option String
  | .struct typ _ => some typ
  | _ => none

/-- Two values of one type, as far as values tell their types: the same kind
and, for structures, the same type name. -/
def SameType (a b : Value) : Prop := a.Kind = b.Kind ∧ a.typeName = b.typeName

/-- Two field lists the reader cannot tell apart: the same fields in the same
order, where a field the reader does not descend into holds values of one
structure type or two values that are no structures, and a field of one
structure type on both sides holds field lists that are alike in turn. -/
inductive SameFields : List (StructField × Value) → List (StructField × Value) → Prop where
  | nil : SameFields [] []
  | leaf (f : StructField) (v v' : Value) (rest rest' : List (StructField × Value)) :
    v.nested = false → v.typeName = v'.typeName → SameFields rest rest' →
    SameFields ((f, v) :: rest) ((f, v') :: rest')
  | nested (f : StructField) (typ : String) (inner inner' rest rest' : List (StructField × Value)) :
    SameFields inner inner' → SameFields rest rest' →
    SameFields ((f, .struct typ inner) :: rest) ((f, .struct typ inner') :: rest')

/-- Two queue entries the reader cannot tell apart: the same prefix and location,
and pointers to structures with like field lists. -/
def SameNode (n n' : cfgNode) : Prop :=
  n.Prefix = n'.Prefix ∧ n.loc = n'.loc ∧
    ∃ t fs t' fs', n.Val = some (.ptr (some (.struct t fs))) ∧
      n'.Val = some (.ptr (some (.struct t' fs'))) ∧ SameFields fs fs'

/-! ## Locations -/

theorem Indep.symm {p q : Path} (h : Indep p q) : Indep q p := ⟨h.2, h.1⟩

theorem Indep.ne {p q : Path} (h : Indep p q) : p ≠ q := by
  intro e; subst e; exact h.1 (List.prefix_refl _)

theorem fieldAt_append (s : Value) (p q : Path) :
    s.fieldAt (p ++ q) = (s.fieldAt p).bind (fun v => v.fieldAt q) := by
  induction p generalizing s with
  | nil => simp [Value.fieldAt]
  | cons i p ih =>
    cases s with
    | struct t fs =>
      simp only [List.cons_append, Value.fieldAt]
      cases h : fs[i]? with
      | none => simp
      | some fv => obtain ⟨f, v⟩ := fv; simp [ih]
    | _ => simp [Value.fieldAt]

theorem fieldAt_setAt_same (s : Value) (p : Path) (v : Value)
    (h : (s.fieldAt p).isSome) : (s.setAt p v).fieldAt p = some v := by
  induction p generalizing s with
  | nil => simp [Value.fieldAt, Value.setAt]
  | cons i p ih =>
    cases s with
    | struct t fs =>
      simp only [Value.fieldAt, Value.setAt] at h ⊢
      cases hg : fs[i]? with
      | none => simp [hg] at h
      | some fv =>
        obtain ⟨f, v0⟩ := fv
        simp only [hg] at h ⊢
        have hi : i < fs.length := by
          rw [List.getElem?_eq_some] at hg; exact hg.1
        simp [Value.fieldAt, List.getElem?_set, hi, ih v0 h]
    | _ => simp [Value.fieldAt] at h

theorem fieldAt_setAt_indep (s : Value) (p q : Path) (v : Value)
    (h : Indep p q) : (s.setAt p v).fieldAt q = s.fieldAt q := by
  induction p generalizing s q with
  | nil => exact absurd (List.nil_prefix) h.1
  | cons i p ih =>
    cases q with
    | nil => exact absurd (List.nil_prefix) h.2
    | cons j q =>
      cases s with
      | struct t fs =>
        simp only [Value.setAt]
        cases hg : fs[i]? with
        | none => simp
        | some fv =>
          obtain ⟨f, v0⟩ := fv
          simp only [Value.fieldAt]
          by_cases hij : i = j
          · subst hij
            have hi : i < fs.length := by
              rw [List.getElem?_eq_some] at hg; exact hg.1
            have hind : Indep p q := by
              constructor
              · intro hp; exact h.1 ((List.prefix_cons_inj i).2 hp)
              · intro hp; exact h.2 ((List.prefix_cons_inj i).2 hp)
            simp [List.getElem?_set, hi, hg, ih v0 q hind]
          · simp [List.getElem?_set, hij]
      | _ => simp [Value.setAt]

theorem list_set_same {α : Type} : ∀ (l : List α) (i : Nat) (a : α), l[i]? = some a →
    l.set i a = l := by
  intro l
  induction l with
  | nil => intro i a h; simp at h
  | cons x l ih =>
    intro i a h
    cases i with
    | zero =>
      simp only [List.getElem?_cons_zero, Option.some.injEq] at h
      subst h; rfl
    | succ i =>
      simp only [List.getElem?_cons_succ] at h
      simp [List.set, ih i a h]

/-- Storing at a location the value that is there changes nothing. -/
theorem setAt_same (s : Value) (p : Path) (v : Value) (h : s.fieldAt p = some v) :
    s.setAt p v = s := by
  induction p generalizing s with
  | nil =>
    simp only [Value.fieldAt, Option.some.injEq] at h
    simp [Value.setAt, h]
  | cons i p ih =>
    cases s with
    | struct t fs =>
      simp only [Value.fieldAt] at h
      simp only [Value.setAt]
      cases hg : fs[i]? with
      | none => rfl
      | some fv =>
        obtain ⟨f, v0⟩ := fv
        simp only [hg] at h
        simp only [ih v0 h]
        rw [list_set_same fs i (f, v0) hg]
    | _ => simp [Value.setAt]

/-! ## The metadata reader -/

theorem readFields_ok (canAddr : Bool) (sPrefix : String) (loc : Path) :
    ∀ (fs : List (StructField × Value)) (idx : Nat) (cfgStack : List cfgNode)
      (metas : List structMeta) (cfgStack' : List cfgNode) (metas' : List structMeta),
      readFields canAddr sPrefix loc fs idx cfgStack metas = .ok (cfgStack', metas') →
      cfgStack' = cfgStack ++ childNodes sPrefix loc fs idx ∧
      metas' = metas ++ leafMetas canAddr sPrefix loc fs idx := by
  intro fs
  induction fs with
  | nil =>
    intro idx st ms st' ms' h
    simp only [readFields, Except.ok.injEq, Prod.mk.injEq] at h
    simp [childNodes, leafMetas, h.1, h.2]
  | cons x rest ih =>
    intro idx st ms st' ms' h
    obtain ⟨fType, fld⟩ := x
    cases fld with
    | struct typ fs' =>
      simp only [readFields] at h
      by_cases hv : validStructs.contains (TypeKey.named typ) = true
      · have hv' : TypeKey.named typ ∈ validStructs := by simpa using hv
        simp only [hv, Bool.not_true, Bool.false_eq_true, ↓reduceIte] at h
        by_cases hc : (canAddr && fType.PkgPath.isEmpty) = true
        · simp only [hc, Bool.not_true, Bool.false_eq_true, ↓reduceIte] at h
          obtain ⟨h1, h2⟩ := ih _ _ _ _ _ h
          simp [childNodes, leafMetas, Value.nested, hv', hc, h1, h2, leafLayout]
        · simp only [hc, Bool.not_false, ↓reduceIte] at h
          obtain ⟨h1, h2⟩ := ih _ _ _ _ _ h
          simp [childNodes, leafMetas, Value.nested, hv', hc, h1, h2]
      · have hv' : TypeKey.named typ ∉ validStructs := by simpa using hv
        simp only [hv, Bool.not_false, ↓reduceIte] at h
        cases canAddr with
        | true =>
          by_cases he : fType.PkgPath.isEmpty = true
          · simp only [he, Bool.not_true, Bool.false_eq_true, ↓reduceIte] at h
            obtain ⟨h1, h2⟩ := ih _ _ _ _ _ h
            simp [childNodes, leafMetas, Value.nested, hv', h1, h2]
          · simp [he] at h
        | false => simp at h
    | bool _ | int _ | string _ | ptr _ | other _ _ =>
      simp only [readFields] at h
      by_cases hc : (canAddr && fType.PkgPath.isEmpty) = true
      · simp only [hc, Bool.not_true, Bool.false_eq_true, ↓reduceIte] at h
        obtain ⟨h1, h2⟩ := ih _ _ _ _ _ h
        simp [childNodes, leafMetas, Value.nested, hc, h1, h2, leafLayout]
      · simp only [hc, Bool.not_false, ↓reduceIte] at h
        obtain ⟨h1, h2⟩ := ih _ _ _ _ _ h
        simp [childNodes, leafMetas, Value.nested, hc, h1, h2]

theorem mem_childNodes (sPrefix : String) (loc : Path) :
    ∀ (fs : List (StructField × Value)) (idx : Nat) (n : cfgNode),
      n ∈ childNodes sPrefix loc fs idx →
      ∃ k fType fld, fs[k]? = some (fType, fld) ∧ fld.nested = true ∧
        n = newNode sPrefix loc (idx + k) fType fld := by
  intro fs
  induction fs with
  | nil => intro idx n h; simp [childNodes] at h
  | cons x rest ih =>
    intro idx n h
    obtain ⟨fType, fld⟩ := x
    simp only [childNodes] at h
    by_cases hn : fld.nested = true
    · simp only [hn, ↓reduceIte, List.mem_cons] at h
      rcases h with rfl | h
      · exact ⟨0, fType, fld, by simp, hn, by simp⟩
      · obtain ⟨k, f, v, h1, h2, h3⟩ := ih _ _ h
        exact ⟨k + 1, f, v, by simpa using h1, h2, by rw [h3]; congr 1; omega⟩
    · simp only [hn, Bool.false_eq_true, ↓reduceIte] at h
      obtain ⟨k, f, v, h1, h2, h3⟩ := ih _ _ h
      exact ⟨k + 1, f, v, by simpa using h1, h2, by rw [h3]; congr 1; omega⟩

theorem mem_leafMetas (canAddr : Bool) (sPrefix : String) (loc : Path) :
    ∀ (fs : List (StructField × Value)) (idx : Nat) (m : structMeta),
      m ∈ leafMetas canAddr sPrefix loc fs idx →
      ∃ k fType fld, fs[k]? = some (fType, fld) ∧ fld.nested = false ∧
        canAddr = true ∧ fType.PkgPath.isEmpty = true ∧
        m = newMeta sPrefix loc (idx + k) fType (leafLayout fType fld) := by
  intro fs
  induction fs with
  | nil => intro idx n h; simp [leafMetas] at h
  | cons x rest ih =>
    intro idx m h
    obtain ⟨fType, fld⟩ := x
    simp only [leafMetas] at h
    by_cases hn : (!fld.nested && (canAddr && fType.PkgPath.isEmpty)) = true
    · simp only [hn, ↓reduceIte, List.mem_cons] at h
      rcases h with rfl | h
      · simp only [Bool.and_eq_true, Bool.not_eq_eq_eq_not, Bool.not_true] at hn
        exact ⟨0, fType, fld, by simp, hn.1, hn.2.1, hn.2.2, by simp⟩
      · obtain ⟨k, f, v, h1, h2, h3, h4, h5⟩ := ih _ _ h
        exact ⟨k + 1, f, v, by simpa using h1, h2, h3, h4, by rw [h5]; congr 1; omega⟩
    · simp only [hn, Bool.false_eq_true, ↓reduceIte] at h
      obtain ⟨k, f, v, h1, h2, h3, h4, h5⟩ := ih _ _ h
      exact ⟨k + 1, f, v, by simpa using h1, h2, h3, h4, by rw [h5]; congr 1; omega⟩

theorem readLoop_invariant (I : List cfgNode → Nat → List structMeta → Prop)
    (hstep : ∀ stack i metas node t fields canAddr, I stack i metas →
      stack[i]? = some node → unwrap node.Val = (some (.struct t fields), canAddr) →
      readFields canAddr node.Prefix node.loc fields 0 stack metas =
        .ok (stack ++ childNodes node.Prefix node.loc fields 0,
          metas ++ leafMetas canAddr node.Prefix node.loc fields 0) →
      I (stack ++ childNodes node.Prefix node.loc fields 0) (i + 1)
        (metas ++ leafMetas canAddr node.Prefix node.loc fields 0)) :
    ∀ (fuel : Nat) (stack : List cfgNode) (i : Nat) (metas res : List structMeta),
      I stack i metas → readLoop fuel stack i metas = .ok res →
      ∃ stack' i', I stack' i' res ∧ stack'.length ≤ i' := by
  intro fuel
  induction fuel with
  | zero => intro stack i metas res _ h; simp [readLoop] at h
  | succ fuel ih =>
    intro stack i metas res hI h
    unfold readLoop at h
    cases hg : stack[i]? with
    | none =>
      simp only [hg, MetaResult.ok.injEq] at h
      subst h
      exact ⟨stack, i, hI, by simpa using hg⟩
    | some node =>
      simp only [hg] at h
      split at h
      · rename_i t fields canAddr hu
        split at h
        · rename_i st' ms' hrf
          obtain ⟨h1, h2⟩ := readFields_ok _ _ _ _ _ _ _ _ _ hrf
          subst h1 h2
          exact ih _ _ _ _ (hstep stack i metas node t fields canAddr hI hg hu hrf) h
        · simp at h
      · simp at h

theorem accPrefix_append (s : Value) (loc : Path) (t : String)
    (fs : List (StructField × Value)) (k : Nat) (fType : StructField) (fld : Value)
    (h : s.fieldAt loc = some (.struct t fs)) (hk : fs[k]? = some (fType, fld)) :
    accPrefix s (loc ++ [k]) = accPrefix s loc ++ (fType.Lookup TagEnvPrefix).getD "" := by
  induction loc generalizing s with
  | nil =>
    simp only [Value.fieldAt, Option.some.injEq] at h
    subst h
    have h1 : accPrefix fld [] = "" := by cases fld <;> simp [accPrefix]
    have h2 : accPrefix (Value.struct t fs) [] = "" := by simp [accPrefix]
    simp [accPrefix, hk, h1]
  | cons i l ih =>
    cases s with
    | struct t' fs' =>
      simp only [Value.fieldAt] at h
      cases hg : fs'[i]? with
      | none => simp [hg] at h
      | some fv =>
        obtain ⟨f, v⟩ := fv
        simp only [hg] at h
        simp [accPrefix, hg, ih v h, String.append_assoc]
    | _ => simp [Value.fieldAt] at h

theorem fieldAt_concat (s : Value) (loc : Path) (t : String)
    (fs : List (StructField × Value)) (k : Nat)
    (h : s.fieldAt loc = some (.struct t fs)) :
    s.fieldAt (loc ++ [k]) = (fs[k]?).map Prod.snd := by
  rw [fieldAt_append, h]
  simp only [Option.some_bind, Value.fieldAt]
  cases fs[k]? with
  | none => rfl
  | some fv => obtain ⟨f, v⟩ := fv; simp [Value.fieldAt]

theorem NodePos.concat {s : Value} {loc : Path} {t : String}
    {fs : List (StructField × Value)} {k : Nat} {fType : StructField} {fld : Value}
    (hp : NodePos s loc) (h : s.fieldAt loc = some (.struct t fs))
    (hk : fs[k]? = some (fType, fld)) (hn : fld.nested = true) :
    NodePos s (loc ++ [k]) := by
  intro q' hq hne
  rcases List.prefix_concat_iff.1 hq with rfl | hq
  · exact ⟨fld, by rw [fieldAt_concat s loc t fs k h, hk]; rfl, hn⟩
  · exact hp q' hq hne

/-- Soundness of the traversal: every queue entry and every descriptor stand
for what lies at their location. -/
theorem readLoop_sound (s : Value) (fuel : Nat) (stack : List cfgNode) (i : Nat)
    (metas res : List structMeta)
    (hs : ∀ n ∈ stack, NodeOK s n) (hm : ∀ m ∈ metas, MetaOK s m)
    (h : readLoop fuel stack i metas = .ok res) : ∀ m ∈ res, MetaOK s m := by
  have := readLoop_invariant
    (fun stack _ metas => (∀ n ∈ stack, NodeOK s n) ∧ (∀ m ∈ metas, MetaOK s m))
    (by
      intro stack i metas node t fields canAddr hI hg hu _
      have hnode : NodeOK s node := hI.1 node (List.getElem?_mem hg)
      have hfa : s.fieldAt node.loc = some (.struct t fields) := by
        rw [← hnode.1, hu]
      constructor
      · intro n hn
        rcases List.mem_append.1 hn with hn | hn
        · exact hI.1 n hn
        · obtain ⟨k, fType, fld, hk, hnest, rfl⟩ := mem_childNodes _ _ _ _ _ hn
          simp only [Nat.zero_add]
          refine ⟨?_, ?_, ?_⟩
          · simp [newNode, unwrap, fieldAt_concat s node.loc t fields k hfa, hk]
          · simp [newNode, accPrefix_append s node.loc t fields k fType fld hfa hk, hnode.2.1]
          · exact hnode.2.2.concat hfa hk hnest
      · intro m hm
        rcases List.mem_append.1 hm with hm | hm
        · exact hI.2 m hm
        · obtain ⟨k, fType, fld, hk, hnest, _, hexp, rfl⟩ := mem_leafMetas _ _ _ _ _ _ hm
          simp only [Nat.zero_add]
          exact ⟨node.loc, k, t, fields, fType, fld, hfa, hnode.2.2, hk, hnest, hexp,
            by rw [hnode.2.1]⟩)
    fuel stack i metas res ⟨hs, hm⟩ h
  obtain ⟨_, _, hI, _⟩ := this
  exact hI.2

theorem lexBefore_trans : ∀ (p q r : Path), lexBefore p q = true → lexBefore q r = true →
    lexBefore p r = true := by
  intro p
  induction p with
  | nil => intro q r h; simp [lexBefore] at h
  | cons a p ih =>
    intro q r h1 h2
    cases q with
    | nil => simp [lexBefore] at h1
    | cons b q =>
      cases r with
      | nil => simp [lexBefore] at h2
      | cons c r =>
        simp only [lexBefore, Bool.or_eq_true, decide_eq_true_eq, Bool.and_eq_true,
          beq_iff_eq] at h1 h2 ⊢
        rcases h1 with h1 | ⟨rfl, h1⟩
        · rcases h2 with h2 | ⟨rfl, h2⟩
          · left; omega
          · left; exact h1
        · rcases h2 with h2 | ⟨rfl, h2⟩
          · left; exact h2
          · right; exact ⟨rfl, ih q r h1 h2⟩

theorem lexBefore_irrefl : ∀ (p : Path), lexBefore p p = false := by
  intro p
  induction p with
  | nil => simp [lexBefore]
  | cons a p ih => simp [lexBefore, ih]

theorem lexBefore_append : ∀ (p q x y : Path), lexBefore p q = true →
    lexBefore (p ++ x) (q ++ y) = true := by
  intro p
  induction p with
  | nil => intro q x y h; simp [lexBefore] at h
  | cons a p ih =>
    intro q x y h
    cases q with
    | nil => simp [lexBefore] at h
    | cons b q =>
      simp only [lexBefore, Bool.or_eq_true, decide_eq_true_eq, Bool.and_eq_true,
        beq_iff_eq, List.cons_append] at h ⊢
      rcases h with h | ⟨rfl, h⟩
      · left; exact h
      · right; exact ⟨rfl, ih q x y h⟩

theorem lexBefore_concat_same : ∀ (l : Path) (a b : Nat), a < b →
    lexBefore (l ++ [a]) (l ++ [b]) = true := by
  intro l
  induction l with
  | nil => intro a b h; simp [lexBefore, h]
  | cons c l ih => intro a b h; simp [lexBefore, ih a b h]

theorem bfsBefore_trans {p q r : Path} (h1 : bfsBefore p q = true) (h2 : bfsBefore q r = true) :
    bfsBefore p r = true := by
  simp only [bfsBefore, Bool.or_eq_true, decide_eq_true_eq, Bool.and_eq_true, beq_iff_eq]
    at h1 h2 ⊢
  rcases h1 with h1 | ⟨e1, h1⟩
  · rcases h2 with h2 | ⟨e2, _⟩
    · left; omega
    · left; omega
  · rcases h2 with h2 | ⟨e2, h2⟩
    · left; omega
    · right; exact ⟨by omega, lexBefore_trans p q r h1 h2⟩

theorem bfsBefore_irrefl (p : Path) : bfsBefore p p = false := by
  simp [bfsBefore, lexBefore_irrefl]

theorem bfsBefore_of_length_lt {p q : Path} (h : p.length < q.length) :
    bfsBefore p q = true := by
  simp [bfsBefore, h]

theorem bfsBefore_concat {p q : Path} (a b : Nat) (h : bfsBefore p q = true) :
    bfsBefore (p ++ [a]) (q ++ [b]) = true := by
  simp only [bfsBefore, Bool.or_eq_true, decide_eq_true_eq, Bool.and_eq_true, beq_iff_eq,
    List.length_append, List.length_singleton] at h ⊢
  rcases h with h | ⟨e, h⟩
  · left; omega
  · right; exact ⟨by omega, lexBefore_append p q _ _ h⟩

theorem bfsBefore_concat_same (l : Path) {a b : Nat} (h : a < b) :
    bfsBefore (l ++ [a]) (l ++ [b]) = true := by
  simp [bfsBefore, lexBefore_concat_same l a b h]

theorem childNodes_sorted (sPrefix : String) (loc : Path) :
    ∀ (fs : List (StructField × Value)) (idx : Nat),
      ((childNodes sPrefix loc fs idx).map (fun n => n.loc)).Pairwise
        (fun p q => bfsBefore p q = true) := by
  intro fs
  induction fs with
  | nil => intro idx; simp [childNodes]
  | cons x rest ih =>
    intro idx
    obtain ⟨fType, fld⟩ := x
    simp only [childNodes]
    split
    · simp only [List.map_cons, List.pairwise_cons]
      refine ⟨?_, ih _⟩
      intro q hq
      obtain ⟨n, hn, rfl⟩ := List.mem_map.1 hq
      obtain ⟨k, f, v, _, _, rfl⟩ := mem_childNodes _ _ _ _ _ hn
      exact bfsBefore_concat_same loc (by omega)
    · exact ih _

theorem leafMetas_sorted (canAddr : Bool) (sPrefix : String) (loc : Path) :
    ∀ (fs : List (StructField × Value)) (idx : Nat),
      ((leafMetas canAddr sPrefix loc fs idx).map (fun m => m.fieldValue)).Pairwise
        (fun p q => bfsBefore p q = true) := by
  intro fs
  induction fs with
  | nil => intro idx; simp [leafMetas]
  | cons x rest ih =>
    intro idx
    obtain ⟨fType, fld⟩ := x
    simp only [leafMetas]
    split
    · simp only [List.map_cons, List.pairwise_cons]
      refine ⟨?_, ih _⟩
      intro q hq
      obtain ⟨n, hn, rfl⟩ := List.mem_map.1 hq
      obtain ⟨k, f, v, _, _, _, _, rfl⟩ := mem_leafMetas _ _ _ _ _ _ hn
      exact bfsBefore_concat_same loc (by omega)
    · exact ih _

theorem orderInv_step (stack : List cfgNode) (i : Nat) (metas : List structMeta)
    (node : cfgNode) (fields : List (StructField × Value)) (canAddr : Bool)
    (hI : OrderInv stack i metas) (hg : stack[i]? = some node) :
    OrderInv (stack ++ childNodes node.Prefix node.loc fields 0) (i + 1)
      (metas ++ leafMetas canAddr node.Prefix node.loc fields 0) := by
  obtain ⟨o1, o2, o3, o4⟩ := hI
  have hi : i < stack.length := by
    rw [List.getElem?_eq_some] at hg; exact hg.1
  have hdrop : stack.drop i = node :: stack.drop (i + 1) := by
    rw [List.drop_eq_getElem_cons hi]
    rw [List.getElem?_eq_some] at hg
    obtain ⟨_, hg⟩ := hg
    rw [hg]
  have hnode : node ∈ stack.drop i := by rw [hdrop]; exact List.mem_cons_self _ _
  have hlater : ∀ n ∈ stack.drop (i + 1), n ∈ stack.drop i := by
    intro n hn; rw [hdrop]; exact List.mem_cons_of_mem _ hn
  have hbefore : ∀ n ∈ stack.drop (i + 1), bfsBefore node.loc n.loc = true := by
    intro n hn
    have hp : ((stack.drop i).map (fun n => n.loc)).Pairwise (fun p q => bfsBefore p q = true) :=
      o1.sublist ((List.drop_sublist i stack).map _)
    rw [hdrop, List.map_cons, List.pairwise_cons] at hp
    exact hp.1 _ (List.mem_map_of_mem _ hn)
  have hdrop' : (stack ++ childNodes node.Prefix node.loc fields 0).drop (i + 1) =
      stack.drop (i + 1) ++ childNodes node.Prefix node.loc fields 0 :=
    List.drop_append_of_le_length (by omega)
  have hchild : ∀ c ∈ childNodes node.Prefix node.loc fields 0, ∃ k, c.loc = node.loc ++ [k] := by
    intro c hc
    obtain ⟨k, f, v, _, _, rfl⟩ := mem_childNodes _ _ _ _ _ hc
    exact ⟨0 + k, rfl⟩
  have hleaf : ∀ m ∈ leafMetas canAddr node.Prefix node.loc fields 0,
      ∃ k, m.fieldValue = node.loc ++ [k] := by
    intro m hm
    obtain ⟨k, f, v, _, _, _, _, rfl⟩ := mem_leafMetas _ _ _ _ _ _ hm
    exact ⟨0 + k, rfl⟩
  refine ⟨?_, ?_, ?_, ?_⟩
  · rw [List.map_append, List.pairwise_append]
    refine ⟨o1, childNodes_sorted _ _ _ _, ?_⟩
    intro a ha b hb
    obtain ⟨e, he, rfl⟩ := List.mem_map.1 ha
    obtain ⟨c, hc, rfl⟩ := List.mem_map.1 hb
    obtain ⟨k, hk⟩ := hchild c hc
    rw [hk]; exact o3 node hnode e he k
  · rw [List.map_append, List.pairwise_append]
    refine ⟨o2, leafMetas_sorted _ _ _ _ _, ?_⟩
    intro a ha b hb
    obtain ⟨e, he, rfl⟩ := List.mem_map.1 ha
    obtain ⟨c, hc, rfl⟩ := List.mem_map.1 hb
    obtain ⟨k, hk⟩ := hleaf c hc
    rw [hk]; exact o4 node hnode e he k
  · intro n hn e he k
    rw [hdrop'] at hn
    rcases List.mem_append.1 hn with hn | hn
    · rcases List.mem_append.1 he with he | he
      · exact o3 n (hlater n hn) e he k
      · obtain ⟨k', hk'⟩ := hchild e he
        rw [hk']; exact bfsBefore_concat _ _ (hbefore n hn)
    · obtain ⟨k0, hk0⟩ := hchild n hn
      rcases List.mem_append.1 he with he | he
      · rw [hk0]
        exact bfsBefore_trans (o3 node hnode e he k0) (bfsBefore_of_length_lt (by simp))
      · obtain ⟨k', hk'⟩ := hchild e he
        rw [hk0, hk']; exact bfsBefore_of_length_lt (by simp)
  · intro n hn m hm k
    rw [hdrop'] at hn
    rcases List.mem_append.1 hn with hn | hn
    · rcases List.mem_append.1 hm with hm | hm
      · exact o4 n (hlater n hn) m hm k
      · obtain ⟨k', hk'⟩ := hleaf m hm
        rw [hk']; exact bfsBefore_concat _ _ (hbefore n hn)
    · obtain ⟨k0, hk0⟩ := hchild n hn
      rcases List.mem_append.1 hm with hm | hm
      · rw [hk0]
        exact bfsBefore_trans (o4 node hnode m hm k0) (bfsBefore_of_length_lt (by simp))
      · obtain ⟨k', hk'⟩ := hleaf m hm
        rw [hk0, hk']; exact bfsBefore_of_length_lt (by simp)

/-- The descriptors come out in breadth-first order of their locations. -/
theorem readStructMetadata_sorted (cfgRoot : Option Value) (metas : List structMeta)
    (h : readStructMetadata cfgRoot = .ok metas) :
    (metas.map (fun m => m.fieldValue)).Pairwise (fun p q => bfsBefore p q = true) := by
  have := readLoop_invariant OrderInv
    (fun stack i metas node _ fields canAddr hI hg _ _ =>
      orderInv_step stack i metas node fields canAddr hI hg)
    (metaFuel cfgRoot) [{ Val := cfgRoot, Prefix := "", loc := [] }] 0 [] metas
    ⟨by simp, by simp, by simp [bfsBefore], by simp⟩ h
  obtain ⟨_, _, hI, _⟩ := this
  exact hI.2.1

theorem metaFuel_pos (cfgRoot : Option Value) : ∃ n, metaFuel cfgRoot = n + 1 := by
  cases cfgRoot with
  | none => exact ⟨0, rfl⟩
  | some v => exact ⟨v.nodes, rfl⟩

/-- Descriptors are only returned for a root that is, behind at most one
pointer, a structure. -/
theorem readStructMetadata_root (cfgRoot : Option Value) (metas : List structMeta)
    (h : readStructMetadata cfgRoot = .ok metas) :
    ∃ t fs, (unwrap cfgRoot).1 = some (.struct t fs) := by
  obtain ⟨n, hn⟩ := metaFuel_pos cfgRoot
  unfold readStructMetadata at h
  rw [hn] at h
  unfold readLoop at h
  simp only [List.getElem?_cons_zero] at h
  split at h
  · rename_i t fields canAddr hu
    exact ⟨t, fields, by rw [hu]⟩
  · simp at h

/-- Every returned descriptor stands for a field of the root structure. -/
theorem readStructMetadata_sound (cfgRoot : Option Value) (metas : List structMeta) (s : Value)
    (h : readStructMetadata cfgRoot = .ok metas) (hs : (unwrap cfgRoot).1 = some s) :
    ∀ m ∈ metas, MetaOK s m := by
  refine readLoop_sound s _ _ _ _ _ ?_ (by simp) h
  intro n hn
  rw [List.mem_singleton] at hn
  subst hn
  refine ⟨by simp [hs, Value.fieldAt], ?_, ?_⟩
  · cases s <;> simp [accPrefix]
  · intro q' hq hne
    exact absurd (List.prefix_nil.1 hq) hne

theorem MetaOK.fieldAt {s : Value} {m : structMeta} (h : MetaOK s m) :
    ∃ v, s.fieldAt m.fieldValue = some v ∧ v.nested = false := by
  obtain ⟨parent, idx, t, fs, fType, fld, hfa, _, hk, hn, _, rfl⟩ := h
  exact ⟨fld, by simp [newMeta, fieldAt_concat s parent t fs idx hfa, hk], hn⟩

theorem MetaOK.not_prefix {s : Value} {m₁ m₂ : structMeta} (h₁ : MetaOK s m₁)
    (h₂ : MetaOK s m₂) (hne : m₁.fieldValue ≠ m₂.fieldValue) :
    ¬ m₁.fieldValue <+: m₂.fieldValue := by
  intro hp
  obtain ⟨v, hv, hvn⟩ := h₁.fieldAt
  obtain ⟨parent, idx, t, fs, fType, fld, hfa, hpos, hk, hn, _, rfl⟩ := h₂
  simp only [newMeta] at hp hne
  rcases List.prefix_concat_iff.1 hp with he | hp
  · exact hne he
  · have hne' : m₁.fieldValue ≠ [] := by
      obtain ⟨parent', idx', _, _, _, _, _, _, _, _, _, rfl⟩ := h₁
      simp [newMeta]
    obtain ⟨v', hv', hvn'⟩ := hpos _ hp hne'
    rw [hv] at hv'
    simp only [Option.some.injEq] at hv'
    subst hv'
    rw [hvn] at hvn'
    exact Bool.false_ne_true hvn'

theorem MetaOK.indep {s : Value} {m₁ m₂ : structMeta} (h₁ : MetaOK s m₁)
    (h₂ : MetaOK s m₂) (hne : m₁.fieldValue ≠ m₂.fieldValue) :
    Indep m₁.fieldValue m₂.fieldValue :=
  ⟨h₁.not_prefix h₂ hne, h₂.not_prefix h₁ (Ne.symm hne)⟩

/-- No two returned descriptors denote overlapping locations. -/
theorem readStructMetadata_indep (cfgRoot : Option Value) (metas : List structMeta)
    (h : readStructMetadata cfgRoot = .ok metas) :
    metas.Pairwise (fun a b => Indep a.fieldValue b.fieldValue) := by
  obtain ⟨t, fs, hs⟩ := readStructMetadata_root cfgRoot metas h
  have hsound := readStructMetadata_sound cfgRoot metas _ h hs
  have hsorted := readStructMetadata_sorted cfgRoot metas h
  rw [List.pairwise_map] at hsorted
  refine hsorted.imp_of_mem ?_
  intro a b ha hb hab
  refine (hsound a ha).indep (hsound b hb) ?_
  intro he
  rw [he, bfsBefore_irrefl] at hab
  exact Bool.false_ne_true hab

theorem pairwise_indep_of_ne {metas : List structMeta}
    (h : metas.Pairwise (fun a b => Indep a.fieldValue b.fieldValue))
    {a b : structMeta} (ha : a ∈ metas) (hb : b ∈ metas) (hne : a ≠ b) :
    Indep a.fieldValue b.fieldValue :=
  h.forall (fun _ _ hxy => hxy.symm) ha hb hne

theorem envNames_eq (sPrefix : String) (fType : StructField) :
    envNames sPrefix fType = (declaredNames fType).map (fun d => sPrefix ++ d) := by
  unfold envNames declaredNames
  cases fType.Lookup TagEnv with
  | none => rfl
  | some envs =>
    simp only
    by_cases hl : (envs.length != 0) = true
    · simp only [hl, ↓reduceIte]
      by_cases hp : (sPrefix != "") = true
      · simp [hp]
      · have : sPrefix = "" := by simpa using hp
        subst this
        simp
    · simp [hl]

theorem prefixed_ne (p d : String) (hp : p ≠ "") : p ++ d ≠ d := by
  intro h
  have hlen := congrArg String.length h
  rw [String.length_append] at hlen
  have h0 : p.data.length = 0 := by
    have : p.length = 0 := by omega
    exact this
  exact hp (String.ext (List.length_eq_zero.1 h0))

theorem mem_childNodes_of (sPrefix : String) (loc : Path) :
    ∀ (fs : List (StructField × Value)) (idx k : Nat) (fType : StructField) (fld : Value),
      fs[k]? = some (fType, fld) → fld.nested = true →
      newNode sPrefix loc (idx + k) fType fld ∈ childNodes sPrefix loc fs idx := by
  intro fs
  induction fs with
  | nil => intro idx k f v h; simp at h
  | cons x rest ih =>
    intro idx k f v h hn
    obtain ⟨fType, fld⟩ := x
    cases k with
    | zero =>
      simp only [List.getElem?_cons_zero, Option.some.injEq, Prod.mk.injEq] at h
      obtain ⟨rfl, rfl⟩ := h
      simp [childNodes, hn]
    | succ k =>
      simp only [List.getElem?_cons_succ] at h
      have := ih (idx + 1) k f v h hn
      have he : idx + 1 + k = idx + (k + 1) := by omega
      rw [he] at this
      simp only [childNodes]
      split
      · exact List.mem_cons_of_mem _ this
      · exact this

theorem mem_leafMetas_of (canAddr : Bool) (sPrefix : String) (loc : Path) :
    ∀ (fs : List (StructField × Value)) (idx k : Nat) (fType : StructField) (fld : Value),
      fs[k]? = some (fType, fld) → fld.nested = false → canAddr = true →
      fType.PkgPath.isEmpty = true →
      newMeta sPrefix loc (idx + k) fType (leafLayout fType fld) ∈
        leafMetas canAddr sPrefix loc fs idx := by
  intro fs
  induction fs with
  | nil => intro idx k f v h; simp at h
  | cons x rest ih =>
    intro idx k f v h hn hc he
    obtain ⟨fType, fld⟩ := x
    cases k with
    | zero =>
      simp only [List.getElem?_cons_zero, Option.some.injEq, Prod.mk.injEq] at h
      obtain ⟨rfl, rfl⟩ := h
      simp [leafMetas, hn, hc, he]
    | succ k =>
      simp only [List.getElem?_cons_succ] at h
      have := ih (idx + 1) k f v h hn hc he
      have hk : idx + 1 + k = idx + (k + 1) := by omega
      rw [hk] at this
      simp only [leafMetas]
      split
      · exact List.mem_cons_of_mem _ this
      · exact this

theorem NodeOK.child {s : Value} {node : cfgNode} {t : String}
    {fields : List (StructField × Value)} {k : Nat} {fType : StructField} {fld : Value}
    (hnode : NodeOK s node) (hfa : s.fieldAt node.loc = some (.struct t fields))
    (hk : fields[k]? = some (fType, fld)) (hn : fld.nested = true) :
    NodeOK s (newNode node.Prefix node.loc k fType fld) := by
  refine ⟨?_, ?_, ?_⟩
  · simp [newNode, unwrap, fieldAt_concat s node.loc t fields k hfa, hk]
  · simp [newNode, accPrefix_append s node.loc t fields k fType fld hfa hk, hnode.2.1]
  · exact hnode.2.2.concat hfa hk hn

/-- The completeness invariant of the traversal of a structure behind a
pointer: every queue entry is addressable, and every descriptor of a field of
the structure is listed or lies below an entry still to be processed. -/
theorem readLoop_complete (s : Value) (fuel : Nat) (stack : List cfgNode) (i : Nat)
    (metas res : List structMeta)
    (hs : ∀ n ∈ stack, NodeOK s n ∧ (unwrap n.Val).2 = true)
    (hm : ∀ m, MetaOK s m → m ∈ metas ∨ ∃ n ∈ stack.drop i, n.loc <+: m.fieldValue.dropLast)
    (h : readLoop fuel stack i metas = .ok res) : ∀ m, MetaOK s m → m ∈ res := by
  have := readLoop_invariant
    (fun stack i metas => (∀ n ∈ stack, NodeOK s n ∧ (unwrap n.Val).2 = true) ∧
      (∀ m, MetaOK s m → m ∈ metas ∨ ∃ n ∈ stack.drop i, n.loc <+: m.fieldValue.dropLast))
    (by
      intro stack i metas node t fields canAddr hI hg hu _
      have hmem : node ∈ stack := List.getElem?_mem hg
      have hnode : NodeOK s node := (hI.1 node hmem).1
      have hcan : canAddr = true := by
        have := (hI.1 node hmem).2
        rw [hu] at this; exact this
      have hfa : s.fieldAt node.loc = some (.struct t fields) := by
        rw [← hnode.1, hu]
      have hi : i < stack.length := by
        rw [List.getElem?_eq_some] at hg; exact hg.1
      have hdrop : stack.drop i = node :: stack.drop (i + 1) := by
        rw [List.drop_eq_getElem_cons hi]
        rw [List.getElem?_eq_some] at hg
        obtain ⟨_, hg⟩ := hg
        rw [hg]
      have hdrop' : (stack ++ childNodes node.Prefix node.loc fields 0).drop (i + 1) =
          stack.drop (i + 1) ++ childNodes node.Prefix node.loc fields 0 :=
        List.drop_append_of_le_length (by omega)
      constructor
      · intro n hn
        rcases List.mem_append.1 hn with hn | hn
        · exact hI.1 n hn
        · obtain ⟨k, fType, fld, hk, hnest, rfl⟩ := mem_childNodes _ _ _ _ _ hn
          simp only [Nat.zero_add]
          exact ⟨hnode.child hfa hk hnest, by simp [newNode, unwrap]⟩
      · intro m hm
        rcases hI.2 m hm with hin | ⟨n, hn, hpre⟩
        · exact Or.inl (List.mem_append_left _ hin)
        · rw [hdrop, List.mem_cons] at hn
          rcases hn with rfl | hn
          · obtain ⟨parent, idx, t', fs', fType, fld, hfa', hpos, hk, hnest, hexp, rfl⟩ := hm
            simp only [newMeta, List.dropLast_concat] at hpre
            obtain ⟨rest, hrest⟩ := hpre
            cases rest with
            | nil =>
              simp only [List.append_nil] at hrest
              subst hrest
              rw [hfa] at hfa'
              simp only [Option.some.injEq, Value.struct.injEq] at hfa'
              obtain ⟨rfl, rfl⟩ := hfa'
              left
              refine List.mem_append_right _ ?_
              have := mem_leafMetas_of canAddr n.Prefix n.loc fields 0 idx fType fld hk hnest
                hcan hexp
              rw [Nat.zero_add, hnode.2.1] at this
              rw [hnode.2.1]
              exact this
            | cons k rest' =>
              have hpk : n.loc ++ [k] <+: parent := ⟨rest', by rw [← hrest]; simp⟩
              obtain ⟨v, hv, hvn⟩ := hpos _ hpk (by simp)
              rw [fieldAt_concat s n.loc t fields k hfa] at hv
              cases hfk : fields[k]? with
              | none => simp [hfk] at hv
              | some fv =>
                obtain ⟨f, v'⟩ := fv
                simp only [hfk, Option.map_some', Option.some.injEq] at hv
                subst hv
                right
                refine ⟨newNode n.Prefix n.loc k f v', ?_, ?_⟩
                · rw [hdrop']
                  refine List.mem_append_right _ ?_
                  have := mem_childNodes_of n.Prefix n.loc fields 0 k f v' hfk hvn
                  rwa [Nat.zero_add] at this
                · simpa [newMeta, newNode] using hpk
          · right
            exact ⟨n, by rw [hdrop']; exact List.mem_append_left _ hn, hpre⟩)
    fuel stack i metas res ⟨hs, hm⟩ h
  obtain ⟨stack', i', hI, hle⟩ := this
  intro m hmok
  rcases hI.2 m hmok with hin | ⟨n, hn, _⟩
  · exact hin
  · rw [List.drop_eq_nil_of_le hle] at hn
    exact absurd hn (List.not_mem_nil n)

/-- For a pointer to a structure, every descriptor of a field of the structure
is returned. -/
theorem readStructMetadata_complete (s : Value) (metas : List structMeta)
    (h : readStructMetadata (some (.ptr (some s))) = .ok metas) :
    ∀ m, MetaOK s m → m ∈ metas := by
  refine readLoop_complete s _ _ _ _ _ ?_ ?_ h
  · intro n hn
    rw [List.mem_singleton] at hn
    subst hn
    refine ⟨⟨by simp [unwrap, Value.fieldAt], ?_, ?_⟩, by simp [unwrap]⟩
    · cases s <;> simp [accPrefix]
    · intro q' hq hne
      exact absurd (List.prefix_nil.1 hq) hne
  · intro m _
    right
    exact ⟨{ Val := some (.ptr (some s)), Prefix := "", loc := [] }, by simp, List.nil_prefix⟩

theorem childNodes_weight (sPrefix : String) (loc : Path) :
    ∀ (fs : List (StructField × Value)) (idx : Nat),
      ((childNodes sPrefix loc fs idx).map cfgNode.weight).sum ≤ Value.nodesList fs := by
  intro fs
  induction fs with
  | nil => intro idx; simp [childNodes]
  | cons x rest ih =>
    intro idx
    obtain ⟨fType, fld⟩ := x
    simp only [childNodes, Value.nodesList]
    have := ih (idx + 1)
    split
    · simp only [List.map_cons, List.sum_cons, cfgNode.weight, newNode, unwrap]
      omega
    · omega

/-- The loop of the reader ends within the iterations it is given. -/
theorem readLoop_fuel : ∀ (fuel : Nat) (stack : List cfgNode) (i : Nat) (metas : List structMeta),
    ((stack.drop i).map cfgNode.weight).sum < fuel →
    readLoop fuel stack i metas ≠ .outOfFuel := by
  intro fuel
  induction fuel with
  | zero => intro stack i metas h; omega
  | succ fuel ih =>
    intro stack i metas h
    unfold readLoop
    cases hg : stack[i]? with
    | none => simp
    | some node =>
      simp only []
      split
      · rename_i t fields canAddr hu
        split
        · rename_i st' ms' hrf
          obtain ⟨h1, h2⟩ := readFields_ok _ _ _ _ _ _ _ _ _ hrf
          subst h1 h2
          apply ih
          have hi : i < stack.length := by
            rw [List.getElem?_eq_some] at hg; exact hg.1
          have hdrop : stack.drop i = node :: stack.drop (i + 1) := by
            rw [List.drop_eq_getElem_cons hi]
            rw [List.getElem?_eq_some] at hg
            obtain ⟨_, hg⟩ := hg
            rw [hg]
          have hdrop' : (stack ++ childNodes node.Prefix node.loc fields 0).drop (i + 1) =
              stack.drop (i + 1) ++ childNodes node.Prefix node.loc fields 0 :=
            List.drop_append_of_le_length (by omega)
          have hw : node.weight = 1 + Value.nodesList fields := by
            simp [cfgNode.weight, hu, Value.nodes]
          have hc := childNodes_weight node.Prefix node.loc fields 0
          rw [hdrop, List.map_cons, List.sum_cons, hw] at h
          rw [hdrop', List.map_append, List.sum_append]
          omega
        · simp
      · simp

/-- The reader never stops for lack of iterations: on every root it returns
descriptors, returns an error, or panics. -/
theorem readStructMetadata_total (cfgRoot : Option Value) :
    readStructMetadata cfgRoot ≠ .outOfFuel := by
  apply readLoop_fuel
  simp only [List.drop_zero, List.map_cons, List.map_nil, List.sum_cons, List.sum_nil,
    Nat.add_zero, cfgNode.weight]
  cases cfgRoot with
  | none => simp [unwrap, metaFuel]
  | some v =>
    cases v with
    | ptr e =>
      cases e with
      | none => simp [unwrap, metaFuel]
      | some v' => simp only [unwrap, metaFuel, Value.nodes]; omega
    | _ => simp [unwrap, metaFuel]

theorem deepConfig_metas :
    readStructMetadata (some (.ptr (some deepConfig))) =
      .ok [⟨["A_B_X", "A_B_Y"], "X", [0, 0, 0], none, none, ",", "", false, false⟩] := by
  decide

theorem readLoop_queue_invariant (I : List cfgNode → Nat → List structMeta → Prop)
    (hstep : ∀ stack i metas node t fields canAddr, I stack i metas →
      stack[i]? = some node → unwrap node.Val = (some (.struct t fields), canAddr) →
      readFields canAddr node.Prefix node.loc fields 0 stack metas =
        .ok (stack ++ childNodes node.Prefix node.loc fields 0,
          metas ++ leafMetas canAddr node.Prefix node.loc fields 0) →
      I (stack ++ childNodes node.Prefix node.loc fields 0) (i + 1)
        (metas ++ leafMetas canAddr node.Prefix node.loc fields 0)) :
    ∀ (fuel : Nat) (stack : List cfgNode) (i : Nat) (metas res : List structMeta),
      I stack i metas → readLoop fuel stack i metas = .ok res →
      ∃ stack' i', I stack' i' res ∧ stack'.length ≤ i' ∧
        queueLoop fuel stack i metas = some stack' := by
  intro fuel
  induction fuel with
  | zero => intro stack i metas res _ h; simp [readLoop] at h
  | succ fuel ih =>
    intro stack i metas res hI h
    unfold readLoop at h
    unfold queueLoop
    cases hg : stack[i]? with
    | none =>
      simp only [hg, MetaResult.ok.injEq] at h
      subst h
      exact ⟨stack, i, hI, by simpa using hg, rfl⟩
    | some node =>
      simp only [hg] at h ⊢
      split at h
      · rename_i t fields canAddr hu
        split at h
        · rename_i st' ms' hrf
          obtain ⟨h1, h2⟩ := readFields_ok _ _ _ _ _ _ _ _ _ hrf
          subst h1 h2
          simp only [hu, hrf]
          exact ih _ _ _ _ (hstep stack i metas node t fields canAddr hI hg hu hrf) h
        · simp at h
      · simp at h

/-- A run of the reader that returns descriptors leaves a queue. -/
theorem readQueue_of_ok (cfgRoot : Option Value) (metas : List structMeta)
    (h : readStructMetadata cfgRoot = .ok metas) : ∃ queue, readQueue cfgRoot = some queue := by
  obtain ⟨q, _, _, _, hq⟩ := readLoop_queue_invariant (fun _ _ _ => True)
    (fun _ _ _ _ _ _ _ _ _ _ _ => trivial) _ _ _ _ metas trivial h
  exact ⟨q, hq⟩

/-- The queue is closed under the entries its entries add, and the descriptors
are those its entries add, entry by entry. -/
theorem readQueue_closure (cfgRoot : Option Value) (metas : List structMeta)
    (queue : List cfgNode)
    (h : readStructMetadata cfgRoot = .ok metas) (hq : readQueue cfgRoot = some queue) :
    queue = { Val := cfgRoot, Prefix := "", loc := [] } :: queue.flatMap cfgNode.children ∧
    metas = queue.flatMap cfgNode.leaves := by
  obtain ⟨q, i', hI, hle, hq'⟩ := readLoop_queue_invariant
    (fun stack i metas =>
      stack = { Val := cfgRoot, Prefix := "", loc := [] } ::
        (stack.take i).flatMap cfgNode.children ∧
      metas = (stack.take i).flatMap cfgNode.leaves)
    (by
      intro stack i metas node t fields canAddr hI hg hu _
      have hi : i < stack.length := by
        rw [List.getElem?_eq_some] at hg; exact hg.1
      have htake : (stack ++ childNodes node.Prefix node.loc fields 0).take (i + 1) =
          stack.take i ++ [node] := by
        rw [List.take_append_of_le_length (by omega), List.take_succ, hg]
        rfl
      have hc : node.children = childNodes node.Prefix node.loc fields 0 := by
        simp [cfgNode.children, hu]
      have hl : node.leaves = leafMetas canAddr node.Prefix node.loc fields 0 := by
        simp [cfgNode.leaves, hu]
      rw [htake]
      simp only [List.flatMap_append, List.flatMap_cons, List.flatMap_nil, List.append_nil,
        hc, hl]
      constructor
      · rw [← List.cons_append, ← hI.1]
      · rw [← hI.2])
    _ _ _ _ metas ⟨by simp, by simp⟩ h
  have : q = queue := by
    unfold readQueue at hq
    rw [hq'] at hq
    exact Option.some.inj hq
  subst this
  rw [List.take_of_length_le hle] at hI
  exact hI

/-- Every entry of the queue stands for the structure at its location. -/
theorem readQueue_sound (cfgRoot : Option Value) (metas : List structMeta)
    (queue : List cfgNode) (s : Value)
    (h : readStructMetadata cfgRoot = .ok metas) (hq : readQueue cfgRoot = some queue)
    (hs : (unwrap cfgRoot).1 = some s) : ∀ n ∈ queue, NodeOK s n := by
  obtain ⟨q, i', hI, _, hq'⟩ := readLoop_queue_invariant
    (fun stack _ _ => ∀ n ∈ stack, NodeOK s n)
    (by
      intro stack i metas node t fields canAddr hI hg hu _
      have hnode : NodeOK s node := hI node (List.getElem?_mem hg)
      have hfa : s.fieldAt node.loc = some (.struct t fields) := by
        rw [← hnode.1, hu]
      intro n hn
      rcases List.mem_append.1 hn with hn | hn
      · exact hI n hn
      · obtain ⟨k, fType, fld, hk, hnest, rfl⟩ := mem_childNodes _ _ _ _ _ hn
        simp only [Nat.zero_add]
        exact hnode.child hfa hk hnest)
    _ _ _ _ metas (by
      intro n hn
      rw [List.mem_singleton] at hn
      subst hn
      refine ⟨by simp [hs, Value.fieldAt], ?_, ?_⟩
      · cases s <;> simp [accPrefix]
      · intro q' hq hne
        exact absurd (List.prefix_nil.1 hq) hne) h
  have : q = queue := by
    unfold readQueue at hq
    rw [hq'] at hq
    exact Option.some.inj hq
  subst this
  exact hI

theorem nested_kind {v : Value} (h : v.nested = true) : v.Kind = .Struct := by
  cases v with
  | struct t fs => rfl
  | _ => simp [Value.nested] at h

theorem NodePos.init {s : Value} {p : Path} {k : Nat} (h : NodePos s (p ++ [k])) :
    NodePos s p :=
  fun q' hq hne => h q' (hq.trans (List.prefix_append p [k])) hne

/-- For a pointer to a structure, every structure the reader descends into
has its entry in the queue. -/
theorem readQueue_complete (s : Value) (metas : List structMeta) (queue : List cfgNode)
    (h : readStructMetadata (some (.ptr (some s))) = .ok metas)
    (hq : readQueue (some (.ptr (some s))) = some queue) :
    ∀ loc, NodePos s loc → (s.fieldAt loc).isSome →
      ∃ n ∈ queue, n.loc = loc ∧ n.Val = some (.ptr (s.fieldAt loc)) ∧
        n.Prefix = accPrefix s loc := by
  have hsound := readQueue_sound _ metas queue s h hq rfl
  have hclos := (readQueue_closure _ metas queue h hq).1
  intro loc
  induction loc using List.reverseRecOn with
  | nil =>
    intro _ _
    refine ⟨{ Val := some (.ptr (some s)), Prefix := "", loc := [] }, ?_, rfl, ?_, ?_⟩
    · rw [hclos]; exact List.mem_cons_self _ _
    · simp [Value.fieldAt]
    · cases s <;> simp [accPrefix]
  | append_singleton p k ih =>
    intro hpos hsome
    obtain ⟨v, hv⟩ := Option.isSome_iff_exists.1 hsome
    have hvn : v.nested = true := by
      obtain ⟨v', hv', hn⟩ := hpos (p ++ [k]) (List.prefix_refl _) (by simp)
      rw [hv] at hv'; cases hv'; exact hn
    rw [fieldAt_append] at hv
    cases hp : s.fieldAt p with
    | none => simp [hp] at hv
    | some w =>
      simp only [hp, Option.some_bind] at hv
      cases w with
      | struct t fs =>
        simp only [Value.fieldAt] at hv
        cases hk : fs[k]? with
        | none => simp [hk] at hv
        | some fv =>
          obtain ⟨f, v'⟩ := fv
          simp only [hk, Value.fieldAt, Option.some.injEq] at hv
          subst hv
          obtain ⟨n, hn, hloc, hval, hpre⟩ := ih hpos.init (by rw [hp]; rfl)
          have hnode := hsound n hn
          have hu : (unwrap n.Val).1 = some (.struct t fs) := by rw [hnode.1, hloc, hp]
          have hchild : newNode n.Prefix n.loc k f v' ∈ n.children := by
            have := mem_childNodes_of n.Prefix n.loc fs 0 k f v' hk hvn
            rw [Nat.zero_add] at this
            unfold cfgNode.children
            rw [hval, hp] at hu ⊢
            simpa [unwrap] using this
          refine ⟨newNode n.Prefix n.loc k f v', ?_, by simp [newNode, hloc], ?_, ?_⟩
          · rw [hclos]
            exact List.mem_cons_of_mem _ (List.mem_flatMap.2 ⟨n, hn, hchild⟩)
          · simp [newNode, fieldAt_concat s p t fs k hp, hk]
          · rw [accPrefix_append s p t fs k f v' hp hk, ← hpre]; rfl
      | _ => simp [Value.fieldAt] at hv

theorem childNodes_structFields (sPrefix : String) (loc : Path) :
    ∀ (fs : List (StructField × Value)) (idx : Nat),
      (childNodes sPrefix loc fs idx).length +
        ((childNodes sPrefix loc fs idx).map cfgNode.structFields).sum ≤
          Value.structFieldsList fs := by
  intro fs
  induction fs with
  | nil => intro idx; simp [childNodes, Value.structFieldsList]
  | cons x rest ih =>
    intro idx
    obtain ⟨fType, fld⟩ := x
    simp only [childNodes, Value.structFieldsList]
    have := ih (idx + 1)
    by_cases hn : fld.nested = true
    · simp only [hn, ↓reduceIte, List.length_cons, List.map_cons, List.sum_cons,
        cfgNode.structFields, newNode, unwrap, nested_kind hn]
      omega
    · simp only [hn, Bool.false_eq_true, ↓reduceIte]
      omega

/-- The queue never holds more entries than the root has structure-kind
fields held by value, plus one. -/
theorem readQueue_bound (cfgRoot : Option Value) (metas : List structMeta)
    (queue : List cfgNode)
    (h : readStructMetadata cfgRoot = .ok metas) (hq : readQueue cfgRoot = some queue) :
    queue.length ≤
      cfgNode.structFields { Val := cfgRoot, Prefix := "", loc := [] } + 1 := by
  obtain ⟨q, i', hI, hle, hq'⟩ := readLoop_queue_invariant
    (fun stack i _ =>
      stack.length + ((stack.drop i).map cfgNode.structFields).sum ≤
        cfgNode.structFields { Val := cfgRoot, Prefix := "", loc := [] } + 1)
    (by
      intro stack i metas node t fields canAddr hI hg hu _
      have hi : i < stack.length := by
        rw [List.getElem?_eq_some] at hg; exact hg.1
      have hdrop : stack.drop i = node :: stack.drop (i + 1) := by
        rw [List.drop_eq_getElem_cons hi]
        rw [List.getElem?_eq_some] at hg
        obtain ⟨_, hg⟩ := hg
        rw [hg]
      have hdrop' : (stack ++ childNodes node.Prefix node.loc fields 0).drop (i + 1) =
          stack.drop (i + 1) ++ childNodes node.Prefix node.loc fields 0 :=
        List.drop_append_of_le_length (by omega)
      have hw : node.structFields = Value.structFieldsList fields := by
        simp [cfgNode.structFields, hu, Value.structFields]
      have hc := childNodes_structFields node.Prefix node.loc fields 0
      rw [hdrop, List.map_cons, List.sum_cons, hw] at hI
      rw [hdrop', List.map_append, List.sum_append, List.length_append]
      omega)
    _ _ _ _ metas (by simp; omega) h
  have : q = queue := by
    unfold readQueue at hq
    rw [hq'] at hq
    exact Option.some.inj hq
  subst this
  omega

/-- No two returned descriptors denote the same field. -/
theorem readStructMetadata_unique (cfgRoot : Option Value) (metas : List structMeta)
    (h : readStructMetadata cfgRoot = .ok metas) {a b : structMeta}
    (ha : a ∈ metas) (hb : b ∈ metas) (he : a.fieldValue = b.fieldValue) : a = b := by
  by_contra hne
  exact (pairwise_indep_of_ne (readStructMetadata_indep cfgRoot metas h) ha hb hne).ne he

theorem bfsBefore_asymm {p q : Path} (h : bfsBefore p q = true) : bfsBefore q p = false := by
  cases hq : bfsBefore q p with
  | false => rfl
  | true =>
    have := bfsBefore_trans h hq
    rw [bfsBefore_irrefl] at this
    exact absurd this Bool.false_ne_true

/-- Of two returned descriptors, the one whose location comes first in
breadth-first order stands first in the list. -/
theorem readStructMetadata_precedes (cfgRoot : Option Value) (metas : List structMeta)
    (h : readStructMetadata cfgRoot = .ok metas) {a b : structMeta}
    (ha : a ∈ metas) (hb : b ∈ metas) (hab : bfsBefore a.fieldValue b.fieldValue = true) :
    Precedes metas a b := by
  have hsorted := readStructMetadata_sorted cfgRoot metas h
  rw [List.pairwise_map, List.pairwise_iff_getElem] at hsorted
  obtain ⟨i, hi, hia⟩ := List.getElem_of_mem ha
  obtain ⟨j, hj, hjb⟩ := List.getElem_of_mem hb
  have hlt : i < j := by
    rcases Nat.lt_trichotomy i j with hlt | heq | hgt
    · exact hlt
    · subst heq
      rw [hia] at hjb
      subst hjb
      rw [bfsBefore_irrefl] at hab
      exact absurd hab Bool.false_ne_true
    · have := hsorted j i hj hi hgt
      rw [hia, hjb, bfsBefore_asymm hab] at this
      exact absurd this Bool.false_ne_true
  exact ⟨i, j, hlt, by rw [List.getElem?_eq_getElem hi, hia],
    by rw [List.getElem?_eq_getElem hj, hjb]⟩

theorem lookup_isSome_iff (key : String) (tag : List (String × String)) :
    (tag.lookup key).isSome = true ↔ ∃ value, (key, value) ∈ tag := by
  induction tag with
  | nil => simp
  | cons kv tag ih =>
    obtain ⟨k, v⟩ := kv
    by_cases hk : key = k
    · subst hk
      simp [List.lookup]
    · have hbeq : (key == k) = false := by simpa using hk
      simp only [List.lookup, hbeq, ih, List.mem_cons, Prod.mk.injEq]
      constructor
      · rintro ⟨value, hv⟩; exact ⟨value, Or.inr hv⟩
      · rintro ⟨value, hv | hv⟩
        · exact absurd hv.1 hk
        · exact ⟨value, hv⟩

/-- For a pointer to a structure, a field that is exported and not descended
into, in a structure the reader reaches, has exactly one descriptor, the one
made from its annotations. -/
theorem readStructMetadata_at (s : Value) (metas : List structMeta)
    (h : readStructMetadata (some (.ptr (some s))) = .ok metas)
    (parent : Path) (idx : Nat) (t : String) (fs : List (StructField × Value))
    (fType : StructField) (fld : Value)
    (hpos : NodePos s parent) (hfa : s.fieldAt parent = some (.struct t fs))
    (hk : fs[idx]? = some (fType, fld)) (hn : fld.nested = false)
    (hexp : fType.PkgPath.isEmpty = true) :
    newMeta (accPrefix s parent) parent idx fType (leafLayout fType fld) ∈ metas ∧
    ∀ sm ∈ metas, sm.fieldValue = parent ++ [idx] →
      sm = newMeta (accPrefix s parent) parent idx fType (leafLayout fType fld) := by
  have hin := readStructMetadata_complete s metas h _
    ⟨parent, idx, t, fs, fType, fld, hfa, hpos, hk, hn, hexp, rfl⟩
  exact ⟨hin, fun sm hsm he => readStructMetadata_unique _ metas h hsm hin (by rw [he]; rfl)⟩

/-! ## The reader looks at types only -/

theorem nodes_pos (v : Value) : 0 < v.nodes := by
  cases v with
  | ptr e => cases e <;> simp [Value.nodes]
  | _ => simp [Value.nodes]

theorem sameFields_refl_aux : ∀ (n : Nat) (fs : List (StructField × Value)),
    Value.nodesList fs ≤ n → SameFields fs fs := by
  intro n
  induction n with
  | zero =>
    intro fs h
    cases fs with
    | nil => exact .nil
    | cons x rest =>
      obtain ⟨f, v⟩ := x
      have := nodes_pos v
      simp only [Value.nodesList] at h
      omega
  | succ n ih =>
    intro fs
    induction fs with
    | nil => intro _; exact .nil
    | cons x rest ihr =>
      intro h
      obtain ⟨f, v⟩ := x
      have hp := nodes_pos v
      simp only [Value.nodesList] at h
      have hrest : SameFields rest rest := ihr (by omega)
      cases v with
      | struct typ inner =>
        simp only [Value.nodes] at h
        exact .nested f typ inner inner rest rest (ih inner (by omega)) hrest
      | bool b => exact .leaf f _ _ rest rest rfl rfl hrest
      | int k => exact .leaf f _ _ rest rest rfl rfl hrest
      | string s => exact .leaf f _ _ rest rest rfl rfl hrest
      | ptr e => exact .leaf f _ _ rest rest rfl rfl hrest
      | other k z => exact .leaf f _ _ rest rest rfl rfl hrest

/-- A field list is like itself. -/
theorem SameFields.refl (fs : List (StructField × Value)) : SameFields fs fs :=
  sameFields_refl_aux _ fs (Nat.le_refl _)

/-- Whether the reader descends into a value depends on its type name. -/
theorem nested_typeName {v v' : Value} (h : v.typeName = v'.typeName) :
    v.nested = v'.nested := by
  cases v <;> cases v' <;> simp [Value.typeName] at h <;> simp [Value.nested, h]

theorem SameFields.trans {a b : List (StructField × Value)} (h₁ : SameFields a b) :
    ∀ {c : List (StructField × Value)}, SameFields b c → SameFields a c := by
  induction h₁ with
  | nil => intro c h₂; exact h₂
  | leaf f v v' rest rest' hn ht _ ih =>
    intro c h₂
    cases h₂ with
    | leaf _ _ v'' _ rest'' hn' ht' hr' =>
      exact .leaf f v v'' rest rest'' hn (ht.trans ht') (ih hr')
    | nested _ typ inner inner' _ rest'' hin hr' =>
      exact .leaf f v _ rest rest'' hn (by simpa [Value.typeName] using ht) (ih hr')
  | nested f typ inner inner' rest rest' _ _ ihin ihr =>
    intro c h₂
    cases h₂ with
    | leaf _ _ v'' _ rest'' hn' ht' hr' =>
      refine .leaf f _ v'' rest rest'' ?_ (by simpa [Value.typeName] using ht') (ihr hr')
      simpa [Value.nested] using hn'
    | nested _ _ _ inner'' _ rest'' hin hr' =>
      exact .nested f typ inner inner'' rest rest'' (ihin hin) (ihr hr')

/-- Replacing the value of a field the reader does not descend into by a value of
the same type name gives a like field list. -/
theorem SameFields.set_leaf : ∀ (fs : List (StructField × Value)) (i : Nat) (f : StructField)
    (v v' : Value), fs[i]? = some (f, v) → v.nested = false → v.typeName = v'.typeName →
    SameFields fs (fs.set i (f, v')) := by
  intro fs
  induction fs with
  | nil => intro i f v v' h; simp at h
  | cons x rest ih =>
    intro i f v v' h hn ht
    cases i with
    | zero =>
      simp only [List.getElem?_cons_zero, Option.some.injEq] at h
      subst h
      exact .leaf f v v' rest rest hn ht (SameFields.refl rest)
    | succ j =>
      simp only [List.getElem?_cons_succ] at h
      have hrest := ih j f v v' h hn ht
      have hx := SameFields.refl [x]
      simp only [List.set_cons_succ]
      cases hx with
      | leaf g u _ _ _ hn' ht' _ => exact .leaf g u u _ _ hn' ht' hrest
      | nested g typ inner _ _ _ hin _ => exact .nested g typ inner inner _ _ hin hrest

/-- Replacing the fields of a structure-kind field by a like field list gives a
like field list. -/
theorem SameFields.set_nested : ∀ (fs : List (StructField × Value)) (i : Nat) (f : StructField)
    (typ : String) (inner inner' : List (StructField × Value)),
    fs[i]? = some (f, .struct typ inner) → SameFields inner inner' →
    SameFields fs (fs.set i (f, .struct typ inner')) := by
  intro fs
  induction fs with
  | nil => intro i f typ inner inner' h; simp at h
  | cons x rest ih =>
    intro i f typ inner inner' h hin
    cases i with
    | zero =>
      simp only [List.getElem?_cons_zero, Option.some.injEq] at h
      subst h
      exact .nested f typ inner inner' rest rest hin (SameFields.refl rest)
    | succ j =>
      simp only [List.getElem?_cons_succ] at h
      have hrest := ih j f typ inner inner' h hin
      have hx := SameFields.refl [x]
      simp only [List.set_cons_succ]
      cases hx with
      | leaf g u _ _ _ hn' ht' _ => exact .leaf g u u _ _ hn' ht' hrest
      | nested g typ' inner₀ _ _ _ hin' _ => exact .nested g typ' inner₀ inner₀ _ _ hin' hrest

/-- Storing a value at the location of a field the reader does not descend into,
of the type name the field has, leaves a structure of the same type with a
like field list. -/
theorem setAt_sameFields : ∀ (p : Path) (t : String) (fs : List (StructField × Value))
    (old new : Value), p ≠ [] → (Value.struct t fs).fieldAt p = some old →
    old.nested = false → old.typeName = new.typeName →
    ∃ fs', (Value.struct t fs).setAt p new = .struct t fs' ∧ SameFields fs fs' := by
  intro p
  induction p with
  | nil => intro t fs old new h; exact absurd rfl h
  | cons i p ih =>
    intro t fs old new _ hf hn ht
    simp only [Value.fieldAt] at hf
    cases hg : fs[i]? with
    | none => simp [hg] at hf
    | some x =>
      obtain ⟨f, v⟩ := x
      simp only [hg] at hf
      simp only [Value.setAt, hg]
      cases p with
      | nil =>
        simp only [Value.fieldAt, Option.some.injEq] at hf
        subst hf
        have hs : v.setAt [] new = new := by cases v <;> rfl
        rw [hs]
        exact ⟨_, rfl, SameFields.set_leaf fs i f v new hg hn ht⟩
      | cons j q =>
        cases v with
        | struct typ inner =>
          obtain ⟨inner', hset, hsame⟩ := ih typ inner old new (by simp) hf hn ht
          rw [hset]
          exact ⟨_, rfl, SameFields.set_nested fs i f typ inner inner' hg hsame⟩
        | bool b => simp [Value.fieldAt] at hf
        | int k => simp [Value.fieldAt] at hf
        | string s => simp [Value.fieldAt] at hf
        | ptr e => simp [Value.fieldAt] at hf
        | other k z => simp [Value.fieldAt] at hf

theorem forall₂_getElem? {α β : Type} {R : α → β → Prop} {l : List α} {l' : List β}
    (h : List.Forall₂ R l l') :
    ∀ i : Nat, (l[i]? = none ∧ l'[i]? = none) ∨
      ∃ a b, l[i]? = some a ∧ l'[i]? = some b ∧ R a b := by
  induction h with
  | nil => intro i; left; simp
  | cons hab _ ih =>
    intro i
    cases i with
    | zero => right; exact ⟨_, _, by simp, by simp, hab⟩
    | succ j => simpa using ih j

/-- The loop over the fields of a structure does the same on like field lists and
like queues: the same panic, or the same descriptors and like queues. -/
theorem readFields_same (canAddr : Bool) (sPrefix : String) (loc : Path)
    {fs fs' : List (StructField × Value)} (h : SameFields fs fs') :
    ∀ (idx : Nat) (q q' : List cfgNode) (m : List structMeta), List.Forall₂ SameNode q q' →
      (∀ msg, readFields canAddr sPrefix loc fs idx q m = .error msg →
        readFields canAddr sPrefix loc fs' idx q' m = .error msg) ∧
      (∀ q₁ m₁, readFields canAddr sPrefix loc fs idx q m = .ok (q₁, m₁) →
        ∃ q₁', readFields canAddr sPrefix loc fs' idx q' m = .ok (q₁', m₁) ∧
          List.Forall₂ SameNode q₁ q₁') := by
  induction h with
  | nil =>
    intro idx q q' m hq
    refine ⟨fun msg hm => by simp [readFields] at hm, fun q₁ m₁ hm => ?_⟩
    simp only [readFields, Except.ok.injEq, Prod.mk.injEq] at hm
    obtain ⟨rfl, rfl⟩ := hm
    exact ⟨q', rfl, hq⟩
  | leaf f v v' rest rest' hn ht _ ih =>
    intro idx q q' m hq
    have hn' : v'.nested = false := (nested_typeName ht).symm.trans hn
    have hstep : ∀ (u : Value) (qq : List cfgNode) (rr : List (StructField × Value)),
        u.nested = false →
        readFields canAddr sPrefix loc ((f, u) :: rr) idx qq m =
          if !(canAddr && f.PkgPath.isEmpty) then
            readFields canAddr sPrefix loc rr (idx + 1) qq m
          else
            readFields canAddr sPrefix loc rr (idx + 1) qq
              (m ++ [newMeta sPrefix loc idx f (leafLayout f u)]) := by
      intro u qq rr hu
      cases u with
      | struct typ inner =>
        have hv : validStructs.contains (TypeKey.named typ) = true := by
          simpa [Value.nested] using hu
        simp only [readFields, hv, Bool.not_true, Bool.false_eq_true, if_false, leafLayout]
      | bool b => simp only [readFields, leafLayout]
      | int k => simp only [readFields, leafLayout]
      | string s => simp only [readFields, leafLayout]
      | ptr e => simp only [readFields, leafLayout]
      | other k z => simp only [readFields, leafLayout]
    have hlay : leafLayout f v = leafLayout f v' := by
      cases v <;> cases v' <;> simp [Value.typeName] at ht <;> rfl
    rw [hstep v q rest hn, hstep v' q' rest' hn', hlay]
    by_cases hc : (canAddr && f.PkgPath.isEmpty) = true
    · simp only [hc, Bool.not_true, Bool.false_eq_true, if_false]
      exact ih (idx + 1) q q' _ hq
    · simp only [hc, Bool.not_false, if_true]
      exact ih (idx + 1) q q' _ hq
  | nested f typ inner inner' rest rest' hin hrest _ ih =>
    intro idx q q' m hq
    by_cases hv : validStructs.contains (TypeKey.named typ) = true
    · simp only [readFields, hv, Bool.not_true, Bool.false_eq_true, if_false]
      by_cases hc : (canAddr && f.PkgPath.isEmpty) = true
      · simp only [hc, Bool.not_true, Bool.false_eq_true, if_false]
        exact ih (idx + 1) q q' _ hq
      · simp only [hc, Bool.not_false, if_true]
        exact ih (idx + 1) q q' _ hq
    · simp only [readFields, hv, Bool.not_false, if_true]
      cases canAddr with
      | false =>
        simp only [Bool.not_false, if_true]
        exact ⟨fun msg hm => hm, fun q₁ m₁ hm => by simp at hm⟩
      | true =>
        simp only [Bool.not_true, Bool.false_eq_true, if_false]
        by_cases hp : f.PkgPath.isEmpty = true
        · simp only [hp, Bool.not_true, Bool.false_eq_true, if_false]
          refine ih (idx + 1) _ _ m (List.rel_append hq ?_)
          exact .cons ⟨rfl, rfl, typ, inner, typ, inner', rfl, rfl, hin⟩ .nil
        · simp only [hp, Bool.not_false, if_true]
          exact ⟨fun msg hm => hm, fun q₁ m₁ hm => by simp at hm⟩

/-- The loop of the reader does the same on like queues, whatever the numbers of
iterations it is given, when these suffice. -/
theorem readLoop_same : ∀ (fuel fuel' : Nat) (q q' : List cfgNode) (i : Nat)
    (m : List structMeta), List.Forall₂ SameNode q q' →
    readLoop fuel q i m ≠ .outOfFuel → readLoop fuel' q' i m ≠ .outOfFuel →
    readLoop fuel q i m = readLoop fuel' q' i m := by
  intro fuel
  induction fuel with
  | zero => intro fuel' q q' i m _ h; exact absurd rfl h
  | succ fuel ih =>
    intro fuel' q q' i m hq h h'
    cases fuel' with
    | zero => exact absurd rfl h'
    | succ fuel' =>
      simp only [readLoop] at h h' ⊢
      rcases forall₂_getElem? hq i with ⟨h1, h2⟩ | ⟨n, n', h1, h2, hp, hl, t, fs, t', fs', hv, hv', hs⟩
      · simp only [h1, h2]
      · simp only [h1, h2, hv, hv', unwrap, Option.isSome_some] at h h' ⊢
        rw [← hp, ← hl] at h' ⊢
        obtain ⟨herr, hok⟩ := readFields_same true n.Prefix n.loc hs 0 q q' m hq
        cases hr : readFields true n.Prefix n.loc fs 0 q m with
        | error msg =>
          rw [herr msg hr]
        | ok r =>
          obtain ⟨q₁, m₁⟩ := r
          obtain ⟨q₁', hr', hq₁⟩ := hok q₁ m₁ hr
          rw [hr] at h
          rw [hr'] at h' ⊢
          exact ih fuel' q₁ q₁' (i + 1) m₁ hq₁ h h'

/-- The reader gives the same on pointers to structures with like field lists. -/
theorem readStructMetadata_same (t t' : String) {fs fs' : List (StructField × Value)}
    (h : SameFields fs fs') :
    readStructMetadata (some (.ptr (some (.struct t fs)))) =
      readStructMetadata (some (.ptr (some (.struct t' fs')))) :=
  readLoop_same _ _ _ _ 0 []
    (.cons ⟨rfl, rfl, t, fs, t', fs', rfl, rfl, h⟩ .nil)
    (readStructMetadata_total _) (readStructMetadata_total _)

/-! ## The binder -/

theorem bindField_spec (w : World) (update : Bool) (sm : structMeta) (s : Value)
    (calls : List Call) :
    bindField w update sm s calls = .next s calls
    ∨ (∃ e, bindField w update sm s calls = .stop ⟨some s, calls, e⟩ ∧ e ≠ .nil ∧
        sm.processed update)
    ∨ (∃ field raw, sm.processed update ∧ s.fieldAt sm.fieldValue = some field ∧
        sm.resolve w.LookupEnv s = .value raw ∧
        (((w.parseValue field raw sm.separator sm.layout).2 = none ∧
          bindField w update sm s calls =
            .next (s.setAt sm.fieldValue (w.parseValue field raw sm.separator sm.layout).1)
              (calls ++ [sm.call raw]))
        ∨ (∃ err, (w.parseValue field raw sm.separator sm.layout).2 = some err ∧
          bindField w update sm s calls =
            .stop ⟨some (s.setAt sm.fieldValue (w.parseValue field raw sm.separator sm.layout).1),
              calls ++ [sm.call raw], .error err⟩))) := by
  unfold bindField
  by_cases hu : (update && !sm.updatable) = true
  · left; simp [hu]
  · have hp : sm.processed update := by
      intro h1; cases hup : sm.updatable <;> simp_all
    simp only [hu, Bool.false_eq_true, ↓reduceIte]
    cases hr : sm.resolve w.LookupEnv s with
    | skip => left; rfl
    | required => right; left; exact ⟨_, rfl, by simp, hp⟩
    | invalid => right; left; exact ⟨_, rfl, by simp, hp⟩
    | value raw =>
      cases hf : s.fieldAt sm.fieldValue with
      | none => right; left; exact ⟨_, rfl, by simp, hp⟩
      | some field =>
        right; right
        refine ⟨field, raw, hp, rfl, rfl, ?_⟩
        cases he : (w.parseValue field raw sm.separator sm.layout).2 with
        | none => left; simp [he, structMeta.call]
        | some err => right; exact ⟨err, rfl, by simp [he, structMeta.call]⟩

/-- What a run of the loop over `metas` from `s` and `calls` leaves: its final
state, and its invocations beyond `calls`. -/
theorem bindFields_frame (w : World) (update : Bool) (metas : List structMeta) :
    ∀ (s : Value) (calls : List Call), ∃ s' extra,
      (bindFields w update metas s calls).cfg = some s' ∧
      (bindFields w update metas s calls).calls = calls ++ extra ∧
      (∀ c ∈ extra, ∃ sm ∈ metas, sm.processed update ∧ c.field = sm.fieldValue) ∧
      (∀ q, (∀ sm ∈ metas, sm.processed update → Indep sm.fieldValue q) →
        s'.fieldAt q = s.fieldAt q) := by
  induction metas with
  | nil => intro s calls; exact ⟨s, [], rfl, by simp [bindFields], by simp, fun _ _ => rfl⟩
  | cons sm rest ih =>
    intro s calls
    rcases bindField_spec w update sm s calls with h | ⟨e, h, _, _⟩ | ⟨field, raw, hp, hf, _, h | ⟨err, _, h⟩⟩
    · obtain ⟨s', extra, h1, h2, h3, h4⟩ := ih s calls
      refine ⟨s', extra, by simp [bindFields, h, h1], by simp [bindFields, h, h2], ?_, ?_⟩
      · intro c hc; obtain ⟨sm', hm, hx⟩ := h3 c hc; exact ⟨sm', List.mem_cons_of_mem _ hm, hx⟩
      · intro q hq; exact h4 q (fun sm' hm => hq sm' (List.mem_cons_of_mem _ hm))
    · exact ⟨s, [], by simp [bindFields, h], by simp [bindFields, h], by simp, fun _ _ => rfl⟩
    · obtain ⟨s', extra, h1, h2, h3, h4⟩ :=
        ih (s.setAt sm.fieldValue (w.parseValue field raw sm.separator sm.layout).1)
          (calls ++ [sm.call raw])
      refine ⟨s', sm.call raw :: extra, by simp [bindFields, h.2, h1],
        by simp [bindFields, h.2, h2], ?_, ?_⟩
      · intro c hc
        rcases List.mem_cons.1 hc with rfl | hc
        · exact ⟨sm, List.mem_cons_self _ _, hp, rfl⟩
        · obtain ⟨sm', hm, hx⟩ := h3 c hc; exact ⟨sm', List.mem_cons_of_mem _ hm, hx⟩
      · intro q hq
        rw [h4 q (fun sm' hm => hq sm' (List.mem_cons_of_mem _ hm))]
        exact fieldAt_setAt_indep _ _ _ _ (hq sm (List.mem_cons_self _ _) hp)
    · refine ⟨s.setAt sm.fieldValue (w.parseValue field raw sm.separator sm.layout).1,
        [sm.call raw], by simp [bindFields, h], by simp [bindFields, h], ?_, ?_⟩
      · intro c hc
        rw [List.mem_singleton] at hc; subst hc
        exact ⟨sm, List.mem_cons_self _ _, hp, rfl⟩
      · intro q hq
        exact fieldAt_setAt_indep _ _ _ _ (hq sm (List.mem_cons_self _ _) hp)


theorem lookupEnvList_eq_none {L : String → Option String} {l : List String} :
    lookupEnvList L l = none ↔ ∀ n ∈ l, L n = none := by
  induction l with
  | nil => simp [lookupEnvList]
  | cons a l ih =>
    simp only [lookupEnvList, List.mem_cons, forall_eq_or_imp]
    cases h : L a with
    | none => simp [ih]
    | some v => simp

theorem lookupEnvList_first {L : String → Option String} (pre post : List String)
    (name value : String) (hpre : ∀ n ∈ pre, L n = none) (hname : L name = some value) :
    lookupEnvList L (pre ++ name :: post) = some value := by
  induction pre with
  | nil => simp [lookupEnvList, hname]
  | cons a pre ih =>
    have ha : L a = none := hpre a (List.mem_cons_self _ _)
    simp only [List.cons_append, lookupEnvList, ha]
    exact ih (fun n hn => hpre n (List.mem_cons_of_mem _ hn))

theorem resolve_of_env {L : String → Option String} {sm : structMeta} {value : String}
    (s : Value) (h : lookupEnvList L sm.envList = some value) :
    sm.resolve L s = .value value := by
  simp [structMeta.resolve, h]

theorem resolve_of_unset {L : String → Option String} {sm : structMeta} {s v : Value}
    (h : lookupEnvList L sm.envList = none) (hf : s.fieldAt sm.fieldValue = some v) :
    sm.resolve L s =
      if sm.required && v.IsZero then .required
      else if v.IsZero then
        match sm.defValue with
        | some value => .value value
        | none => .skip
      else .skip := by
  simp [structMeta.resolve, h, structMeta.isFieldValueZero, hf]

theorem resolve_congr (L : String → Option String) (sm : structMeta) {s s' : Value}
    (h : s'.fieldAt sm.fieldValue = s.fieldAt sm.fieldValue) :
    sm.resolve L s' = sm.resolve L s := by
  simp [structMeta.resolve, structMeta.isFieldValueZero, h]

theorem bindField_passed (w : World) (sm : structMeta) (s : Value) (calls : List Call)
    (h : sm.updatable = false) : bindField w true sm s calls = .next s calls := by
  simp [bindField, h]

theorem bindField_skip (w : World) (update : Bool) (sm : structMeta) (s : Value)
    (calls : List Call) (h : sm.resolve w.LookupEnv s = .skip) :
    bindField w update sm s calls = .next s calls := by
  unfold bindField
  split
  · rfl
  · simp [h]

theorem bindField_required (w : World) (update : Bool) (sm : structMeta) (s : Value)
    (calls : List Call) (hp : sm.processed update)
    (h : sm.resolve w.LookupEnv s = .required) :
    bindField w update sm s calls =
      .stop ⟨some s, calls, .error (.requiredField sm.fieldName)⟩ := by
  have hu : (update && !sm.updatable) = false := by
    cases update with
    | false => rfl
    | true => simp [hp rfl]
  simp [bindField, hu, h]

theorem bindField_value (w : World) (update : Bool) (sm : structMeta) (s : Value)
    (calls : List Call) (raw : String) (field : Value) (hp : sm.processed update)
    (h : sm.resolve w.LookupEnv s = .value raw) (hf : s.fieldAt sm.fieldValue = some field) :
    bindField w update sm s calls =
      match (w.parseValue field raw sm.separator sm.layout).2 with
      | some err =>
        .stop ⟨some (s.setAt sm.fieldValue (w.parseValue field raw sm.separator sm.layout).1),
          calls ++ [sm.call raw], .error err⟩
      | none =>
        .next (s.setAt sm.fieldValue (w.parseValue field raw sm.separator sm.layout).1)
          (calls ++ [sm.call raw]) := by
  have hu : (update && !sm.updatable) = false := by
    cases update with
    | false => rfl
    | true => simp [hp rfl]
  simp only [bindField, hu, Bool.false_eq_true, ↓reduceIte, h, hf, structMeta.call]

theorem bindFields_eta (w : World) (update : Bool) (metas : List structMeta) (s : Value)
    (calls : List Call) :
    bindFields w update metas s calls =
      ⟨(bindFields w update metas s calls).cfg, (bindFields w update metas s calls).calls,
        (bindFields w update metas s calls).exit⟩ := rfl

/-- A run over descriptors that all lie off the location `p` leaves `p` and
makes no invocation on it. -/
theorem bindFields_away (w : World) (update : Bool) (metas : List structMeta) (p : Path)
    (h : ∀ x ∈ metas, x.processed update → Indep x.fieldValue p) (s : Value) (calls : List Call) :
    ∃ s' extra,
      bindFields w update metas s calls =
        ⟨some s', calls ++ extra, (bindFields w update metas s calls).exit⟩ ∧
      s'.fieldAt p = s.fieldAt p ∧ ∀ c ∈ extra, c.field ≠ p := by
  obtain ⟨s', extra, h1, h2, h3, h4⟩ := bindFields_frame w update metas s calls
  refine ⟨s', extra, ?_, h4 p h, ?_⟩
  · rw [← h1, ← h2]
  · intro c hc
    obtain ⟨x, hx, hxp, hxc⟩ := h3 c hc
    rw [hxc]; exact (h x hx hxp).ne

theorem bindFields_stop (w : World) (update : Bool) (a b : List structMeta) :
    ∀ (s : Value) (calls : List Call), (bindFields w update a s calls).exit ≠ .nil →
      bindFields w update (a ++ b) s calls = bindFields w update a s calls := by
  induction a with
  | nil => intro s calls h; simp [bindFields] at h
  | cons x a ih =>
    intro s calls h
    simp only [List.cons_append, bindFields] at h ⊢
    cases hx : bindField w update x s calls with
    | next s' calls' => simp only [hx] at h ⊢; exact ih s' calls' h
    | stop r => rfl

theorem bindFields_continue (w : World) (update : Bool) (a b : List structMeta) :
    ∀ (s : Value) (calls : List Call), (bindFields w update a s calls).exit = .nil →
      ∃ s' extra, bindFields w update a s calls = ⟨some s', calls ++ extra, .nil⟩ ∧
        bindFields w update (a ++ b) s calls = bindFields w update b s' (calls ++ extra) := by
  induction a with
  | nil => intro s calls _; exact ⟨s, [], by simp [bindFields], by simp⟩
  | cons x a ih =>
    intro s calls h
    simp only [List.cons_append, bindFields] at h ⊢
    rcases bindField_spec w update x s calls with hx | ⟨e, hx, he, _⟩ |
      ⟨field, raw, _, _, _, ⟨_, hx⟩ | ⟨err, _, hx⟩⟩
    · simp only [hx] at h ⊢; exact ih s calls h
    · simp only [hx] at h; exact absurd h he
    · simp only [hx] at h ⊢
      obtain ⟨s', extra, h1, h2⟩ := ih _ _ h
      exact ⟨s', x.call raw :: extra, by simpa using h1, by simpa using h2⟩
    · simp [hx] at h

theorem readEnvVars_eq (w : World) (cfg : Option Value) (update : Bool)
    (metas : List structMeta) (s : Value) (hmeta : readStructMetadata cfg = .ok metas)
    (hs : (unwrap cfg).1 = some s) :
    readEnvVars w cfg update =
      match (w.runUpdate s).2 with
      | some err => ⟨some (w.runUpdate s).1, [], .error err⟩
      | none => bindFields w update metas (w.runUpdate s).1 [] := by
  simp only [readEnvVars, hmeta, hs]

theorem pairwise_split {pre post : List structMeta} {sm : structMeta}
    (h : (pre ++ sm :: post).Pairwise (fun a b => Indep a.fieldValue b.fieldValue)) :
    (∀ x ∈ pre, Indep x.fieldValue sm.fieldValue) ∧
    (∀ x ∈ post, Indep x.fieldValue sm.fieldValue) := by
  rw [List.pairwise_append] at h
  obtain ⟨_, h2, h3⟩ := h
  rw [List.pairwise_cons] at h2
  exact ⟨fun x hx => h3 x hx sm (List.mem_cons_self _ _), fun x hx => (h2.1 x hx).symm⟩

/-- The run of the loop as seen from one descriptor `sm` of the list: either
the loop is left before `sm`, or `sm` is reached in a state in which its
field is as at the start and no invocation was made on it. -/
theorem bindFields_at (w : World) (update : Bool) (pre post : List structMeta)
    (sm : structMeta) (s : Value) (calls : List Call)
    (hind : (pre ++ sm :: post).Pairwise (fun a b => Indep a.fieldValue b.fieldValue)) :
    ∃ s₁ extra₁, s₁.fieldAt sm.fieldValue = s.fieldAt sm.fieldValue ∧
      (∀ c ∈ extra₁, c.field ≠ sm.fieldValue) ∧
      (((bindFields w update (pre ++ sm :: post) s calls).exit ≠ .nil ∧
          bindFields w update (pre ++ sm :: post) s calls =
            ⟨some s₁, calls ++ extra₁, (bindFields w update (pre ++ sm :: post) s calls).exit⟩)
       ∨ bindFields w update (pre ++ sm :: post) s calls =
          match bindField w update sm s₁ (calls ++ extra₁) with
          | .next s₂ calls₂ => bindFields w update post s₂ calls₂
          | .stop r => r) := by
  obtain ⟨hpre, _⟩ := pairwise_split hind
  obtain ⟨s₁, extra₁, h1, h2, h3⟩ :=
    bindFields_away w update pre sm.fieldValue (fun x hx _ => hpre x hx) s calls
  refine ⟨s₁, extra₁, h2, h3, ?_⟩
  by_cases he : (bindFields w update pre s calls).exit = .nil
  · right
    obtain ⟨s', extra, h4, h5⟩ := bindFields_continue w update pre (sm :: post) s calls he
    rw [h4] at h1
    simp only [Pass.mk.injEq, Option.some.injEq, List.append_cancel_left_eq] at h1
    obtain ⟨rfl, rfl, _⟩ := h1
    rw [h5]; rfl
  · left
    have := bindFields_stop w update pre (sm :: post) s calls he
    rw [this]
    exact ⟨he, h1⟩

/-- The part of the loop after a descriptor `sm`, on descriptors that lie off
the location of `sm`. -/
theorem bindFields_after (w : World) (update : Bool) (pre post : List structMeta)
    (sm : structMeta) (s : Value) (calls : List Call)
    (hind : (pre ++ sm :: post).Pairwise (fun a b => Indep a.fieldValue b.fieldValue)) :
    ∃ s' extra,
      bindFields w update post s calls =
        ⟨some s', calls ++ extra, (bindFields w update post s calls).exit⟩ ∧
      s'.fieldAt sm.fieldValue = s.fieldAt sm.fieldValue ∧
      ∀ c ∈ extra, c.field ≠ sm.fieldValue :=
  bindFields_away w update post sm.fieldValue (fun x hx _ => (pairwise_split hind).2 x hx) s calls

theorem resolve_required_iff (w : World) (sm : structMeta) (s : Value) :
    sm.resolve w.LookupEnv s = .required ↔ Missing w s sm := by
  constructor
  · intro h
    unfold structMeta.resolve at h
    cases hl : lookupEnvList w.LookupEnv sm.envList with
    | some value => simp [hl] at h
    | none =>
      simp only [hl, structMeta.isFieldValueZero] at h
      cases hf : s.fieldAt sm.fieldValue with
      | none => simp [hf] at h
      | some v =>
        simp only [hf, Option.map_some'] at h
        cases hr : sm.required <;> cases hz : v.IsZero <;> simp [hr, hz] at h
        · cases hd : sm.defValue <;> simp [hd] at h
        · exact ⟨hr, lookupEnvList_eq_none.1 hl, v, hf, hz⟩
  · rintro ⟨hr, henv, v, hf, hz⟩
    rw [resolve_of_unset (lookupEnvList_eq_none.2 henv) hf]
    simp [hr, hz]

theorem resolve_ne_invalid (L : String → Option String) (sm : structMeta) (s : Value)
    (h : (s.fieldAt sm.fieldValue).isSome) : sm.resolve L s ≠ .invalid := by
  unfold structMeta.resolve
  cases hl : lookupEnvList L sm.envList with
  | some value => simp
  | none =>
    cases hf : s.fieldAt sm.fieldValue with
    | none => simp [hf] at h
    | some v =>
      simp only [structMeta.isFieldValueZero, hf, Option.map_some']
      cases hr : sm.required <;> cases hz : v.IsZero <;> cases hd : sm.defValue <;> simp

theorem missing_congr (w : World) (sm : structMeta) {s s' : Value}
    (h : s'.fieldAt sm.fieldValue = s.fieldAt sm.fieldValue) :
    Missing w s' sm ↔ Missing w s sm := by
  simp [Missing, h]

/-- The exit of a full pass over descriptors of pairwise separate, existing
fields in which no conversion fails: the required-field error of the first
descriptor that is required, unset and zero, or nil when there is none. -/
theorem bindFields_required (w : World) :
    ∀ (metas : List structMeta) (s : Value) (calls : List Call),
      metas.Pairwise (fun a b => Indep a.fieldValue b.fieldValue) →
      (∀ sm ∈ metas, (s.fieldAt sm.fieldValue).isSome) →
      (∀ extra, (bindFields w false metas s calls).calls = calls ++ extra →
        ∀ c ∈ extra, ∀ v, s.fieldAt c.field = some v →
          (w.parseValue v c.value c.separator c.layout).2 = none) →
      ((bindFields w false metas s calls).exit = .nil ∧ ∀ sm ∈ metas, ¬ Missing w s sm) ∨
      (∃ pre sm post, metas = pre ++ sm :: post ∧ (∀ x ∈ pre, ¬ Missing w s x) ∧
        Missing w s sm ∧
        (bindFields w false metas s calls).exit = .error (.requiredField sm.fieldName) ∧
        (bindFields w false metas s calls).field sm.fieldValue = s.fieldAt sm.fieldValue ∧
        ∀ extra, (bindFields w false metas s calls).calls = calls ++ extra →
          ∀ c ∈ extra, c.field ≠ sm.fieldValue) := by
  intro metas
  induction metas with
  | nil => intro s calls _ _ _; left; simp [bindFields]
  | cons hd rest ih =>
    intro s calls hind hsome hconv
    have hproc : hd.processed false := by intro h; cases h
    rw [List.pairwise_cons] at hind
    by_cases hmiss : Missing w s hd
    · right
      refine ⟨[], hd, rest, rfl, by simp, hmiss, ?_, ?_, ?_⟩
      · simp [bindFields, bindField_required w false hd s calls hproc
          ((resolve_required_iff w hd s).2 hmiss)]
      · simp [bindFields, bindField_required w false hd s calls hproc
          ((resolve_required_iff w hd s).2 hmiss), Pass.field]
      · intro extra he
        simp only [bindFields, bindField_required w false hd s calls hproc
          ((resolve_required_iff w hd s).2 hmiss)] at he
        have : extra = [] := by simpa using he
        subst this; simp
    · cases hres : hd.resolve w.LookupEnv s with
      | required => exact absurd ((resolve_required_iff w hd s).1 hres) hmiss
      | invalid =>
        exact absurd hres (resolve_ne_invalid _ _ _ (hsome hd (List.mem_cons_self _ _)))
      | skip =>
        have hstep := bindField_skip w false hd s calls hres
        have hrw : bindFields w false (hd :: rest) s calls = bindFields w false rest s calls := by
          simp [bindFields, hstep]
        rw [hrw] at hconv ⊢
        rcases ih s calls hind.2 (fun sm hsm => hsome sm (List.mem_cons_of_mem _ hsm)) hconv with
          ⟨h1, h2⟩ | ⟨pre, sm, post, h1, h2, h3, h4, h5, h6⟩
        · left
          refine ⟨h1, ?_⟩
          intro sm hsm
          rcases List.mem_cons.1 hsm with rfl | hsm
          · exact hmiss
          · exact h2 sm hsm
        · right
          refine ⟨hd :: pre, sm, post, by simp [h1], ?_, h3, h4, h5, h6⟩
          intro x hx
          rcases List.mem_cons.1 hx with rfl | hx
          · exact hmiss
          · exact h2 x hx
      | value raw =>
        obtain ⟨field, hf⟩ := Option.isSome_iff_exists.1 (hsome hd (List.mem_cons_self _ _))
        have hstep := bindField_value w false hd s calls raw field hproc hres hf
        obtain ⟨s₂, extra₂, hfr, _, hfields⟩ := bindFields_away w false rest hd.fieldValue
          (fun x hx _ => (hind.1 x hx).symm)
          (s.setAt hd.fieldValue (w.parseValue field raw hd.separator hd.layout).1)
          (calls ++ [hd.call raw])
        have hok : (w.parseValue field raw hd.separator hd.layout).2 = none := by
          cases he : (w.parseValue field raw hd.separator hd.layout).2 with
          | none => rfl
          | some err =>
            have hrw : bindFields w false (hd :: rest) s calls =
                ⟨some (s.setAt hd.fieldValue (w.parseValue field raw hd.separator hd.layout).1),
                  calls ++ [hd.call raw], .error err⟩ := by
              simp [bindFields, hstep, he]
            have := hconv [hd.call raw] (by rw [hrw]) (hd.call raw) (by simp) field hf
            simp only [structMeta.call] at this
            rw [this] at he; cases he
        have hrw : bindFields w false (hd :: rest) s calls =
            bindFields w false rest
              (s.setAt hd.fieldValue (w.parseValue field raw hd.separator hd.layout).1)
              (calls ++ [hd.call raw]) := by
          simp [bindFields, hstep, hok]
        have hsame : ∀ x ∈ rest,
            (s.setAt hd.fieldValue (w.parseValue field raw hd.separator hd.layout).1).fieldAt
              x.fieldValue = s.fieldAt x.fieldValue :=
          fun x hx => fieldAt_setAt_indep _ _ _ _ (hind.1 x hx)
        rw [hrw] at hconv ⊢
        have hconv' : ∀ extra,
            (bindFields w false rest
              (s.setAt hd.fieldValue (w.parseValue field raw hd.separator hd.layout).1)
              (calls ++ [hd.call raw])).calls = calls ++ [hd.call raw] ++ extra →
            ∀ c ∈ extra, ∀ v,
              (s.setAt hd.fieldValue (w.parseValue field raw hd.separator hd.layout).1).fieldAt
                c.field = some v →
              (w.parseValue v c.value c.separator c.layout).2 = none := by
          intro extra he c hc v hv
          have hcf : c.field ≠ hd.fieldValue := by
            rw [hfr] at he
            have : extra₂ = extra := by simpa using he
            subst this
            exact hfields c hc
          obtain ⟨s₃, extra₃, h31, h32, h33, _⟩ := bindFields_frame w false rest
            (s.setAt hd.fieldValue (w.parseValue field raw hd.separator hd.layout).1)
            (calls ++ [hd.call raw])
          have hex : extra₃ = extra := by
            rw [h32] at he; simpa using he
          subst hex
          obtain ⟨x, hx, _, hxc⟩ := h33 c hc
          have hv' : s.fieldAt c.field = some v := by
            rw [← hv, hxc]; exact (hsame x hx).symm
          exact hconv ([hd.call raw] ++ extra₃) (by rw [he]; simp) c (by simp [hc]) v hv'
        rcases ih _ _ hind.2
            (fun sm hsm => by rw [hsame sm hsm]; exact hsome sm (List.mem_cons_of_mem _ hsm))
            hconv' with
          ⟨h1, h2⟩ | ⟨pre, sm, post, h1, h2, h3, h4, h5, h6⟩
        · left
          refine ⟨h1, ?_⟩
          intro sm hsm
          rcases List.mem_cons.1 hsm with rfl | hsm
          · exact hmiss
          · exact fun hm => h2 sm hsm ((missing_congr w sm (hsame sm hsm)).2 hm)
        · right
          have hsm : sm ∈ rest := by rw [h1]; simp
          refine ⟨hd :: pre, sm, post, by simp [h1], ?_,
            (missing_congr w sm (hsame sm hsm)).1 h3, h4, ?_, ?_⟩
          · intro x hx
            rcases List.mem_cons.1 hx with rfl | hx
            · exact hmiss
            · have hxr : x ∈ rest := by rw [h1]; simp [hx]
              exact fun hm => h2 x hx ((missing_congr w x (hsame x hxr)).2 hm)
          · rw [h5]; exact hsame sm hsm
          · intro extra he c hc
            rw [hfr] at he
            have hex : extra = hd.call raw :: extra₂ := by
              have : calls ++ (hd.call raw :: extra₂) = calls ++ extra := by simpa using he
              exact (List.append_cancel_left this).symm
            subst hex
            rcases List.mem_cons.1 hc with rfl | hc
            · exact (hind.1 sm hsm).ne
            · exact h6 extra₂ (by rw [hfr]) c hc

theorem resolve_value_origin {L : String → Option String} {sm : structMeta} {s : Value}
    {raw : String} (h : sm.resolve L s = .value raw) :
    lookupEnvList L sm.envList = some raw ∨
      (lookupEnvList L sm.envList = none ∧ sm.defValue = some raw) := by
  unfold structMeta.resolve at h
  cases hl : lookupEnvList L sm.envList with
  | some value =>
    simp only [hl, Resolved.value.injEq] at h
    exact Or.inl (by rw [h])
  | none =>
    right
    refine ⟨rfl, ?_⟩
    simp only [hl] at h
    cases hz : sm.isFieldValueZero s with
    | none => simp [hz] at h
    | some zero =>
      simp only [hz] at h
      cases hr : sm.required <;> cases zero <;> simp [hr] at h
      all_goals
        cases hd : sm.defValue with
        | none => simp [hd] at h
        | some d => simp only [hd, Resolved.value.injEq] at h; rw [h]

/-- Where the raw string of an invocation on the field of a descriptor comes
from: the first set name of the descriptor, or, when no name is set, its
default. -/
theorem bindFields_call_origin (w : World) (update : Bool) (pre post : List structMeta)
    (sm : structMeta) (s : Value) (calls : List Call)
    (hind : (pre ++ sm :: post).Pairwise (fun a b => Indep a.fieldValue b.fieldValue)) :
    ∀ c ∈ (bindFields w update (pre ++ sm :: post) s calls).calls, c.field = sm.fieldValue →
      c ∈ calls ∨ lookupEnvList w.LookupEnv sm.envList = some c.value ∨
        (lookupEnvList w.LookupEnv sm.envList = none ∧ sm.defValue = some c.value) := by
  intro c hc hfld
  obtain ⟨s₁, extra₁, _, hx1, hcase⟩ := bindFields_at w update pre post sm s calls hind
  rcases hcase with ⟨_, heq⟩ | heq
  · rw [heq] at hc
    rcases List.mem_append.1 hc with hc | hc
    · exact Or.inl hc
    · exact absurd hfld (hx1 c hc)
  · rw [heq] at hc
    have hafter : ∀ s₂ calls₂, c ∈ (bindFields w update post s₂ calls₂).calls → c ∈ calls₂ := by
      intro s₂ calls₂ hc2
      obtain ⟨s', extra, h1, _, h3⟩ := bindFields_after w update pre post sm s₂ calls₂ hind
      rw [h1] at hc2
      rcases List.mem_append.1 hc2 with hc2 | hc2
      · exact hc2
      · exact absurd hfld (h3 c hc2)
    have hbase : c ∈ calls ++ extra₁ → c ∈ calls := by
      intro h
      rcases List.mem_append.1 h with h | h
      · exact h
      · exact absurd hfld (hx1 c h)
    rcases bindField_spec w update sm s₁ (calls ++ extra₁) with hx | ⟨e, hx, _, _⟩ |
      ⟨field, raw, _, _, hres, ⟨_, hx⟩ | ⟨err, _, hx⟩⟩
    · rw [hx] at hc
      exact Or.inl (hbase (hafter _ _ hc))
    · rw [hx] at hc
      exact Or.inl (hbase hc)
    · rw [hx] at hc
      have := hafter _ _ hc
      rcases List.mem_append.1 this with h | h
      · exact Or.inl (hbase h)
      · rw [List.mem_singleton] at h
        subst h
        exact Or.inr (resolve_value_origin hres)
    · rw [hx] at hc
      rcases List.mem_append.1 hc with h | h
      · exact Or.inl (hbase h)
      · rw [List.mem_singleton] at h
        subst h
        exact Or.inr (resolve_value_origin hres)

/-- The same for a whole call of `readEnvVars`. -/
theorem readEnvVars_call_origin (w : World) (cfg : Option Value) (update : Bool)
    (metas : List structMeta) (sm : structMeta)
    (hmeta : readStructMetadata cfg = .ok metas) (hsm : sm ∈ metas) :
    ∀ c ∈ (readEnvVars w cfg update).calls, c.field = sm.fieldValue →
      lookupEnvList w.LookupEnv sm.envList = some c.value ∨
        (lookupEnvList w.LookupEnv sm.envList = none ∧ sm.defValue = some c.value) := by
  obtain ⟨t, fs, hs⟩ := readStructMetadata_root cfg metas hmeta
  have hind := readStructMetadata_indep cfg metas hmeta
  rw [readEnvVars_eq w cfg update metas _ hmeta hs]
  cases hu : (w.runUpdate (.struct t fs)).2 with
  | some err => simp
  | none =>
    simp only []
    obtain ⟨pre, post, rfl⟩ := List.append_of_mem hsm
    intro c hc hfld
    rcases bindFields_call_origin w update pre post sm _ [] hind c hc hfld with h | h
    · exact absurd h (List.not_mem_nil c)
    · exact h

/-- In an update pass the descriptors that are not marked updatable play no
part. -/
theorem bindFields_filter (w : World) (metas : List structMeta) :
    ∀ (s : Value) (calls : List Call),
      bindFields w true metas s calls =
        bindFields w true (metas.filter (fun sm => sm.updatable)) s calls := by
  induction metas with
  | nil => intro s calls; rfl
  | cons sm rest ih =>
    intro s calls
    cases hu : sm.updatable with
    | false =>
      simp only [List.filter, hu]
      rw [← ih]
      simp [bindFields, bindField_passed w sm s calls hu]
    | true =>
      simp only [List.filter, hu, bindFields]
      cases bindField w true sm s calls with
      | next s' calls' => exact ih s' calls'
      | stop r => rfl

/-- On descriptors that are all marked updatable an update pass is a full
pass. -/
theorem bindFields_mode (w : World) (metas : List structMeta)
    (h : ∀ sm ∈ metas, sm.updatable = true) :
    ∀ (s : Value) (calls : List Call),
      bindFields w true metas s calls = bindFields w false metas s calls := by
  induction metas with
  | nil => intro s calls; rfl
  | cons sm rest ih =>
    intro s calls
    have hstep : bindField w true sm s calls = bindField w false sm s calls := by
      simp [bindField, h sm (List.mem_cons_self _ _)]
    simp only [bindFields, hstep]
    cases bindField w false sm s calls with
    | next s' calls' => exact ih (fun x hx => h x (List.mem_cons_of_mem _ hx)) s' calls'
    | stop r => rfl

theorem resolve_again {L : String → Option String} {sm : structMeta} {a s₁ : Value}
    {raw : String} {v₁ : Value} (h : sm.resolve L a = .value raw)
    (h₁ : s₁.fieldAt sm.fieldValue = some v₁) :
    sm.resolve L s₁ = .value raw ∨ sm.resolve L s₁ = .skip := by
  rcases resolve_value_origin h with hl | ⟨hl, hd⟩
  · exact Or.inl (resolve_of_env s₁ hl)
  · have hreq : sm.required = false := by
      unfold structMeta.resolve at h
      simp only [hl] at h
      cases hz : sm.isFieldValueZero a with
      | none => simp [hz] at h
      | some zero =>
        simp only [hz] at h
        cases hr : sm.required with
        | false => rfl
        | true => cases zero <;> simp [hr] at h
    rw [resolve_of_unset hl h₁]
    cases hz : v₁.IsZero <;> simp [hreq, hd]

/-- A full pass that returned nil, run again from the structure it left, on
conversions that give the same when the same raw string is converted into
the field a second time: it returns nil again and leaves the structure as
it is. -/
theorem bindFields_again (w : World) (s₁ : Value) :
    ∀ (metas : List structMeta) (a : Value) (calls c₁ : List Call),
      metas.Pairwise (fun x y => Indep x.fieldValue y.fieldValue) →
      bindFields w false metas a calls = ⟨some s₁, c₁, .nil⟩ →
      (∀ sm ∈ metas, ∀ v raw, a.fieldAt sm.fieldValue = some v →
        w.parseValue (w.parseValue v raw sm.separator sm.layout).1 raw sm.separator sm.layout =
          w.parseValue v raw sm.separator sm.layout) →
      ∀ callsB, ∃ c₂, bindFields w false metas s₁ callsB = ⟨some s₁, c₂, .nil⟩ := by
  intro metas
  induction metas with
  | nil => intro a calls c₁ _ _ _ callsB; exact ⟨callsB, rfl⟩
  | cons sm rest ih =>
    intro a calls c₁ hind hrun hdet callsB
    have hproc : sm.processed false := by intro h; cases h
    rw [List.pairwise_cons] at hind
    have hframe : ∀ (a' : Value) (calls' : List Call),
        bindFields w false rest a' calls' = ⟨some s₁, c₁, .nil⟩ →
        s₁.fieldAt sm.fieldValue = a'.fieldAt sm.fieldValue := by
      intro a' calls' hr
      obtain ⟨s', extra, h1, h2, _⟩ := bindFields_away w false rest sm.fieldValue
        (fun x hx _ => (hind.1 x hx).symm) a' calls'
      rw [hr] at h1
      simp only [Pass.mk.injEq, Option.some.injEq] at h1
      rw [h1.1]; exact h2
    simp only [bindFields] at hrun ⊢
    cases hres : sm.resolve w.LookupEnv a with
    | skip =>
      rw [bindField_skip w false sm a calls hres] at hrun
      simp only at hrun
      have hsame := hframe a calls hrun
      rw [bindField_skip w false sm s₁ callsB ((resolve_congr _ sm hsame).trans hres)]
      exact ih a calls c₁ hind.2 hrun
        (fun x hx => hdet x (List.mem_cons_of_mem _ hx)) callsB
    | required =>
      rw [bindField_required w false sm a calls hproc hres] at hrun
      simp at hrun
    | invalid =>
      simp [bindField, hres] at hrun
    | value raw =>
      cases hf : a.fieldAt sm.fieldValue with
      | none => simp [bindField, hres, hf] at hrun
      | some v₀ =>
        rw [bindField_value w false sm a calls raw v₀ hproc hres hf] at hrun
        cases he : (w.parseValue v₀ raw sm.separator sm.layout).2 with
        | some err => simp [he] at hrun
        | none =>
          simp only [he] at hrun
          have hs1 : s₁.fieldAt sm.fieldValue =
              some (w.parseValue v₀ raw sm.separator sm.layout).1 := by
            rw [hframe _ _ hrun]
            exact fieldAt_setAt_same _ _ _ (by rw [hf]; rfl)
          have hrest := ih _ _ c₁ hind.2 hrun
            (fun x hx v raw' hv => hdet x (List.mem_cons_of_mem _ hx) v raw'
              (by rw [← hv]; exact (fieldAt_setAt_indep _ _ _ _ (hind.1 x hx)).symm))
          rcases resolve_again hres hs1 with h2 | h2
          · rw [bindField_value w false sm s₁ callsB raw _ hproc h2 hs1,
              hdet sm (List.mem_cons_self _ _) v₀ raw hf, he]
            simp only
            rw [setAt_same s₁ _ _ hs1]
            exact hrest _
          · rw [bindField_skip w false sm s₁ callsB h2]
            exact hrest _

/-! ## `Load` -/

/-- Two maps with the same values at the names of the fields make the loop of
`Load` do the same. -/
theorem loadFields_congr (config config' : String → Option String) :
    ∀ fields : List (StructField × Value),
      (∀ x ∈ fields, config' x.1.Name = config x.1.Name) →
      loadFields config' fields = loadFields config fields := by
  intro fields
  induction fields with
  | nil => intro _; rfl
  | cons x rest ih =>
    intro h
    obtain ⟨typeField, valueField⟩ := x
    have hx : config' typeField.Name = config typeField.Name :=
      h (typeField, valueField) (List.mem_cons_self _ _)
    have hrest := ih (fun y hy => h y (List.mem_cons_of_mem _ hy))
    simp only [loadFields, hx, hrest]

/-- The loop of `Load` keeps the number of fields. -/
theorem loadFields_length (config : String → Option String) :
    ∀ fields : List (StructField × Value),
      (loadFields config fields).1.length = fields.length := by
  intro fields
  induction fields with
  | nil => rfl
  | cons x rest ih =>
    obtain ⟨typeField, valueField⟩ := x
    simp only [loadFields]
    cases hc : config typeField.Name with
    | none => simp [ih]
    | some val =>
      cases valueField with
      | int n =>
        cases ha : Atoi val with
        | none => simp [ha]
        | some intVal =>
          by_cases hp : typeField.PkgPath.isEmpty = true
          · simp [ha, hp, ih]
          · simp [ha, hp]
      | string s =>
        by_cases hp : typeField.PkgPath.isEmpty = true
        · simp [hp, ih]
        · simp [hp]
      | bool b =>
        cases hb : ParseBool val with
        | none => simp [hb]
        | some boolVal =>
          by_cases hp : typeField.PkgPath.isEmpty = true
          · simp [hb, hp, ih]
          · simp [hb, hp]
      | struct t fs => simp
      | ptr p => simp
      | other k z => simp

/-- The loop of `Load` leaves a field alone when the map has no value for its
name. -/
theorem loadFields_untouched (config : String → Option String) :
    ∀ (fields : List (StructField × Value)) (i : Nat) (x : StructField × Value),
      fields[i]? = some x → config x.1.Name = none →
      (loadFields config fields).1[i]? = some x := by
  intro fields
  induction fields with
  | nil => intro i x h; simp at h
  | cons y rest ih =>
    intro i x h hx
    obtain ⟨typeField, valueField⟩ := y
    simp only [loadFields]
    cases hc : config typeField.Name with
    | none =>
      cases i with
      | zero => simpa using h
      | succ j => simpa using ih j x (by simpa using h) hx
    | some val =>
      have hne : i ≠ 0 := by
        rintro rfl
        simp at h
        subst h
        simp [hc] at hx
      obtain ⟨j, rfl⟩ := Nat.exists_eq_succ_of_ne_zero hne
      have hj : rest[j]? = some x := by simpa using h
      have hrec := ih j x hj hx
      cases valueField with
      | int n =>
        cases ha : Atoi val with
        | none => simpa [ha] using hj
        | some intVal =>
          by_cases hp : typeField.PkgPath.isEmpty = true
          · simpa [ha, hp] using hrec
          · simpa [ha, hp] using hj
      | string s =>
        by_cases hp : typeField.PkgPath.isEmpty = true
        · simpa [hp] using hrec
        · simpa [hp] using hj
      | bool b =>
        cases hb : ParseBool val with
        | none => simpa [hb] using hj
        | some boolVal =>
          by_cases hp : typeField.PkgPath.isEmpty = true
          · simpa [hb, hp] using hrec
          · simpa [hb, hp] using hj
      | struct t fs => simpa using hj
      | ptr p => simpa using hj
      | other k z => simpa using hj

/-- An uninspected kind is none of int, string and bool. -/
theorem other_kind (k : OtherKind) (z : Bool) :
    (Value.other k z).Kind ≠ .Int ∧ (Value.other k z).Kind ≠ .String ∧
      (Value.other k z).Kind ≠ .Bool := by
  cases k <;> simp [Value.Kind, OtherKind.toKind]

/-- When the fields named in the map are exported, a field the map has an
unusable value for makes the loop of `Load` end with an error. -/
theorem loadFields_error (config : String → Option String) :
    ∀ fields : List (StructField × Value),
      (∀ x ∈ fields, config x.1.Name ≠ none → x.1.PkgPath.isEmpty = true) →
      (∃ x ∈ fields, Unloadable config x) →
      ∃ e, (loadFields config fields).2 = .error e := by
  intro fields
  induction fields with
  | nil => rintro _ ⟨x, hx, _⟩; simp at hx
  | cons y rest ih =>
    intro hexp hbad
    obtain ⟨typeField, valueField⟩ := y
    have hexp' : ∀ x ∈ rest, config x.1.Name ≠ none → x.1.PkgPath.isEmpty = true :=
      fun x hx => hexp x (List.mem_cons_of_mem _ hx)
    have hrest : ¬ Unloadable config (typeField, valueField) →
        ∃ e, (loadFields config rest).2 = .error e := by
      intro hhead
      obtain ⟨x, hx, hux⟩ := hbad
      rcases List.mem_cons.1 hx with rfl | hx
      · exact absurd hux hhead
      · exact ih hexp' ⟨x, hx, hux⟩
    simp only [loadFields]
    cases hc : config typeField.Name with
    | none =>
      exact hrest (by rintro ⟨val, hval, _⟩; simp [hc] at hval)
    | some val =>
      have hp : typeField.PkgPath.isEmpty = true :=
        hexp (typeField, valueField) (List.mem_cons_self _ _) (by simp [hc])
      cases valueField with
      | int n =>
        cases ha : Atoi val with
        | none => exact ⟨.atoi val, by simp [ha]⟩
        | some intVal =>
          simp only [ha, hp, Bool.not_true, Bool.false_eq_true, if_false]
          apply hrest
          rintro ⟨val', hval, h⟩
          have : val' = val := by simpa [hc] using hval.symm
          subst this
          simp [Value.Kind, ha] at h
      | string s =>
        simp only [hp, Bool.not_true, Bool.false_eq_true, if_false]
        apply hrest
        rintro ⟨val', hval, h⟩
        simp [Value.Kind] at h
      | bool b =>
        cases hb : ParseBool val with
        | none => exact ⟨.parseBool val, by simp [hb]⟩
        | some boolVal =>
          simp only [hb, hp, Bool.not_true, Bool.false_eq_true, if_false]
          apply hrest
          rintro ⟨val', hval, h⟩
          have : val' = val := by simpa [hc] using hval.symm
          subst this
          simp [Value.Kind, hb] at h
      | struct t fs => exact ⟨_, rfl⟩
      | ptr p => exact ⟨_, rfl⟩
      | other k z => exact ⟨_, rfl⟩

/-- The loop of `Load` ends with an error only at a field the map has an
unusable value for. -/
theorem loadFields_error_origin (config : String → Option String) :
    ∀ (fields : List (StructField × Value)) (e : LoadError),
      (loadFields config fields).2 = .error e →
      ∃ x ∈ fields, Unloadable config x := by
  intro fields
  induction fields with
  | nil => intro e h; simp [loadFields] at h
  | cons y rest ih =>
    intro e h
    obtain ⟨typeField, valueField⟩ := y
    have hrest : (loadFields config rest).2 = .error e →
        ∃ x ∈ ((typeField, valueField) :: rest), Unloadable config x := by
      intro h'
      obtain ⟨x, hx, hux⟩ := ih e h'
      exact ⟨x, List.mem_cons_of_mem _ hx, hux⟩
    simp only [loadFields] at h
    cases hc : config typeField.Name with
    | none =>
      rw [hc] at h
      exact hrest h
    | some val =>
      rw [hc] at h
      cases valueField with
      | int n =>
        cases ha : Atoi val with
        | none =>
          exact ⟨_, List.mem_cons_self _ _, val, hc, Or.inr (Or.inl ⟨rfl, ha⟩)⟩
        | some intVal =>
          by_cases hp : typeField.PkgPath.isEmpty = true
          · simp only [ha, hp, Bool.not_true, Bool.false_eq_true, if_false] at h
            exact hrest h
          · simp [ha, hp] at h
      | string s =>
        by_cases hp : typeField.PkgPath.isEmpty = true
        · simp only [hp, Bool.not_true, Bool.false_eq_true, if_false] at h
          exact hrest h
        · simp [hp] at h
      | bool b =>
        cases hb : ParseBool val with
        | none =>
          exact ⟨_, List.mem_cons_self _ _, val, hc, Or.inr (Or.inr ⟨rfl, hb⟩)⟩
        | some boolVal =>
          by_cases hp : typeField.PkgPath.isEmpty = true
          · simp only [hb, hp, Bool.not_true, Bool.false_eq_true, if_false] at h
            exact hrest h
          · simp [hb, hp] at h
      | struct t fs =>
        exact ⟨_, List.mem_cons_self _ _, val, hc, Or.inl (by simp [Value.Kind])⟩
      | ptr p =>
        exact ⟨_, List.mem_cons_self _ _, val, hc, Or.inl (by simp [Value.Kind])⟩
      | other k z =>
        exact ⟨_, List.mem_cons_self _ _, val, hc, Or.inl (other_kind k z)⟩

/-- When the loop of `Load` ends without an error, every field the map has a
value for is of kind int, string or bool and holds the value converted from
the map: by `strconv.Atoi`, as it is, by `strconv.ParseBool`. -/
theorem loadFields_nil (config : String → Option String) :
    ∀ (fields : List (StructField × Value)),
      (loadFields config fields).2 = .nil →
      ∀ (i : Nat) (f : StructField) (v : Value) (val : String),
        fields[i]? = some (f, v) → config f.Name = some val →
        (v.Kind = .Int ∧ ∃ n, Atoi val = some n ∧
            (loadFields config fields).1[i]? = some (f, .int n)) ∨
          (v.Kind = .String ∧ (loadFields config fields).1[i]? = some (f, .string val)) ∨
          (v.Kind = .Bool ∧ ∃ b, ParseBool val = some b ∧
            (loadFields config fields).1[i]? = some (f, .bool b)) := by
  intro fields
  induction fields with
  | nil => intro _ i f v val h; simp at h
  | cons y rest ih =>
    intro h i f v val hi hval
    obtain ⟨typeField, valueField⟩ := y
    simp only [loadFields] at h ⊢
    cases hc : config typeField.Name with
    | none =>
      rw [hc] at h
      cases i with
      | zero =>
        simp at hi
        obtain ⟨rfl, rfl⟩ := hi
        simp [hc] at hval
      | succ j => simpa using ih h j f v val (by simpa using hi) hval
    | some val' =>
      rw [hc] at h
      cases valueField with
      | int n =>
        cases ha : Atoi val' with
        | none => simp [ha] at h
        | some intVal =>
          by_cases hp : typeField.PkgPath.isEmpty = true
          · simp only [ha, hp, Bool.not_true, Bool.false_eq_true, if_false] at h ⊢
            cases i with
            | zero =>
              simp at hi
              obtain ⟨rfl, rfl⟩ := hi
              have : val' = val := by simpa [hc] using hval
              subst this
              exact Or.inl ⟨rfl, intVal, ha, by simp⟩
            | succ j => simpa using ih h j f v val (by simpa using hi) hval
          · simp [ha, hp] at h
      | string s =>
        by_cases hp : typeField.PkgPath.isEmpty = true
        · simp only [hp, Bool.not_true, Bool.false_eq_true, if_false] at h ⊢
          cases i with
          | zero =>
            simp at hi
            obtain ⟨rfl, rfl⟩ := hi
            have : val' = val := by simpa [hc] using hval
            subst this
            exact Or.inr (Or.inl ⟨rfl, by simp⟩)
          | succ j => simpa using ih h j f v val (by simpa using hi) hval
        · simp [hp] at h
      | bool b =>
        cases hb : ParseBool val' with
        | none => simp [hb] at h
        | some boolVal =>
          by_cases hp : typeField.PkgPath.isEmpty = true
          · simp only [hb, hp, Bool.not_true, Bool.false_eq_true, if_false] at h ⊢
            cases i with
            | zero =>
              simp at hi
              obtain ⟨rfl, rfl⟩ := hi
              have : val' = val := by simpa [hc] using hval
              subst this
              exact Or.inr (Or.inr ⟨rfl, boolVal, hb, by simp⟩)
            | succ j => simpa using ih h j f v val (by simpa using hi) hval
          · simp [hb, hp] at h
      | struct t fs => simp at h
      | ptr p => simp at h
      | other k z => simp at h

/-- When the fields named in the map are exported, the loop of `Load` does not
panic. -/
theorem loadFields_no_panic (config : String → Option String) :
    ∀ fields : List (StructField × Value),
      (∀ x ∈ fields, config x.1.Name ≠ none → x.1.PkgPath.isEmpty = true) →
      ∀ msg, (loadFields config fields).2 ≠ .panic msg := by
  intro fields
  induction fields with
  | nil => intro _ msg h; simp [loadFields] at h
  | cons y rest ih =>
    intro hexp msg
    obtain ⟨typeField, valueField⟩ := y
    have hrest := ih (fun x hx => hexp x (List.mem_cons_of_mem _ hx)) msg
    simp only [loadFields]
    cases hc : config typeField.Name with
    | none => exact hrest
    | some val =>
      have hp : typeField.PkgPath.isEmpty = true :=
        hexp (typeField, valueField) (List.mem_cons_self _ _) (by simp [hc])
      cases valueField with
      | int n =>
        cases ha : Atoi val with
        | none => simp [ha]
        | some intVal => simpa [ha, hp] using hrest
      | string s => simpa [hp] using hrest
      | bool b =>
        cases hb : ParseBool val with
        | none => simp [hb]
        | some boolVal => simpa [hb, hp] using hrest
      | struct t fs => simp
      | ptr p => simp
      | other k z => simp

/-! ## The binder keeps the types -/

theorem MetaOK.ne_nil {s : Value} {m : structMeta} (h : MetaOK s m) : m.fieldValue ≠ [] := by
  obtain ⟨parent, idx, t, fs, fType, fld, _, _, _, _, _, rfl⟩ := h
  simp [newMeta]

/-- A run of the loop over descriptors of fields the reader does not descend into,
with a conversion that leaves a value of the type of the field, leaves a
structure of the same type with a like field list. -/
theorem bindFields_sameFields (w : World) (update : Bool) (t : String) :
    ∀ (metas : List structMeta) (fs : List (StructField × Value)) (calls : List Call),
      metas.Pairwise (fun x y => Indep x.fieldValue y.fieldValue) →
      (∀ sm ∈ metas, sm.fieldValue ≠ [] ∧
        ∃ v, (Value.struct t fs).fieldAt sm.fieldValue = some v ∧ v.nested = false ∧
          ∀ raw, SameType (w.parseValue v raw sm.separator sm.layout).1 v) →
      ∃ fs', (bindFields w update metas (.struct t fs) calls).cfg = some (.struct t fs') ∧
        SameFields fs fs' := by
  intro metas
  induction metas with
  | nil => intro fs calls _ _; exact ⟨fs, rfl, SameFields.refl fs⟩
  | cons sm rest ih =>
    intro fs calls hind hok
    rw [List.pairwise_cons] at hind
    have hrest : ∀ x ∈ rest, x.fieldValue ≠ [] ∧
        ∃ v, (Value.struct t fs).fieldAt x.fieldValue = some v ∧ v.nested = false ∧
          ∀ raw, SameType (w.parseValue v raw x.separator x.layout).1 v :=
      fun x hx => hok x (List.mem_cons_of_mem _ hx)
    obtain ⟨hne, v, hv, hvn, hty⟩ := hok sm (List.mem_cons_self _ _)
    have hset : ∀ raw, ∃ fs₁,
        (Value.struct t fs).setAt sm.fieldValue (w.parseValue v raw sm.separator sm.layout).1 =
          .struct t fs₁ ∧ SameFields fs fs₁ ∧
        ∀ x ∈ rest, x.fieldValue ≠ [] ∧
          ∃ u, (Value.struct t fs₁).fieldAt x.fieldValue = some u ∧ u.nested = false ∧
            ∀ raw', SameType (w.parseValue u raw' x.separator x.layout).1 u := by
      intro raw
      obtain ⟨fs₁, h1, h2⟩ := setAt_sameFields sm.fieldValue t fs v _ hne hv hvn
        (hty raw).2.symm
      refine ⟨fs₁, h1, h2, ?_⟩
      intro x hx
      obtain ⟨hxne, u, hu, hun, huty⟩ := hrest x hx
      refine ⟨hxne, u, ?_, hun, huty⟩
      rw [← h1, fieldAt_setAt_indep _ _ _ _ (hind.1 x hx)]
      exact hu
    rcases bindField_spec w update sm (.struct t fs) calls with
      h | ⟨e, h, _, _⟩ | ⟨field, raw, _, hf, _, ⟨_, h⟩ | ⟨err, _, h⟩⟩
    · simp only [bindFields, h]
      exact ih fs calls hind.2 hrest
    · simp only [bindFields, h]
      exact ⟨fs, rfl, SameFields.refl fs⟩
    · have hfv : field = v := by
        rw [hv] at hf
        exact (Option.some.inj hf).symm
      subst hfv
      obtain ⟨fs₁, h1, h2, h3⟩ := hset raw
      simp only [bindFields, h, h1]
      obtain ⟨fs', h4, h5⟩ := ih fs₁ (calls ++ [sm.call raw]) hind.2 h3
      exact ⟨fs', h4, h2.trans h5⟩
    · have hfv : field = v := by
        rw [hv] at hf
        exact (Option.some.inj hf).symm
      subst hfv
      obtain ⟨fs₁, h1, h2, _⟩ := hset raw
      simp only [bindFields, h, h1]
      exact ⟨fs₁, rfl, h2⟩

/-- The conversion of the examples leaves a value of the type of the field. -/
theorem exampleParse_sameType (v : Value) (raw sep : String) (lay : Option String) :
    SameType (exampleParse v raw sep lay).1 v := by
  cases v with
  | string x => exact ⟨rfl, rfl⟩
  | int n =>
    simp only [exampleParse]
    cases raw.data with
    | nil => exact ⟨rfl, rfl⟩
    | cons c cs =>
      simp only
      cases decimalFrom 0 (c :: cs) <;> exact ⟨rfl, rfl⟩
  | bool b => exact ⟨rfl, rfl⟩
  | struct t fs => exact ⟨rfl, rfl⟩
  | ptr e => exact ⟨rfl, rfl⟩
  | other k z => exact ⟨rfl, rfl⟩

/-! ## The binder: precedence and frame properties -/

theorem exampleRoot_metas :
    readStructMetadata exampleRoot = .ok [metaA, metaName, metaHost, metaPort] := by
  decide

/-- C1. For a descriptor the loop processes (every descriptor in a full pass, the
updatable ones in an update pass) one of whose names is set in the
environment, every invocation of `parseValue` on its field carries the value
of the first name of `envList` that is set (with the descriptor's separator
and layout), whatever its default, its required flag and the field's current
value are; a pass that returns nil has made that invocation; and whenever
the loop reaches the descriptor, the descriptors before it having been
processed without failure, that invocation is the next one made. -/
theorem readEnvVars_env_value_wins (w : World) (cfg : Option Value) (update : Bool)
    (metas : List structMeta) (s : Value) (sm : structMeta) (pre post : List String)
    (name value : String)
    (hmeta : readStructMetadata cfg = .ok metas) (hs : (unwrap cfg).1 = some s)
    (hsm : sm ∈ metas) (hproc : update = true → sm.updatable = true)
    (henv : sm.envList = pre ++ name :: post)
    (hpre : ∀ n ∈ pre, w.LookupEnv n = none) (hname : w.LookupEnv name = some value) :
    (∀ c ∈ (readEnvVars w cfg update).calls, c.field = sm.fieldValue →
        c = ⟨sm.fieldValue, value, sm.separator, sm.layout⟩) ∧
    ((readEnvVars w cfg update).exit = .nil →
        ⟨sm.fieldValue, value, sm.separator, sm.layout⟩ ∈ (readEnvVars w cfg update).calls) ∧
    (∀ before after sk ck, metas = before ++ sm :: after → (w.runUpdate s).2 = none →
        bindFields w update before (w.runUpdate s).1 [] = ⟨some sk, ck, .nil⟩ →
        (sk.fieldAt sm.fieldValue).isSome →
        ck ++ [⟨sm.fieldValue, value, sm.separator, sm.layout⟩] <+:
          (readEnvVars w cfg update).calls) := by
  have hind := readStructMetadata_indep cfg metas hmeta
  have hlook : lookupEnvList w.LookupEnv sm.envList = some value := by
    rw [henv]; exact lookupEnvList_first pre post name value hpre hname
  rw [readEnvVars_eq w cfg update metas _ hmeta hs]
  rw [← and_assoc]
  constructor
  swap
  · intro before after sk ck hsplit hupd hbefore hsome
    subst hsplit
    rw [hupd]
    simp only []
    obtain ⟨s', extra, h1, h2⟩ := bindFields_continue w update before (sm :: after)
      (w.runUpdate s).1 [] (by rw [hbefore])
    rw [hbefore] at h1
    simp only [List.nil_append, Pass.mk.injEq, Option.some.injEq, and_true] at h1
    obtain ⟨rfl, rfl⟩ := h1
    rw [h2]
    obtain ⟨field, hf⟩ := Option.isSome_iff_exists.1 hsome
    simp only [bindFields, List.nil_append]
    rw [bindField_value w update sm sk _ value field hproc (resolve_of_env sk hlook) hf]
    cases he : (w.parseValue field value sm.separator sm.layout).2 with
    | some err => exact List.prefix_refl _
    | none =>
      simp only []
      obtain ⟨s', extra', _, h4, _, _⟩ := bindFields_frame w update after
        (sk.setAt sm.fieldValue (w.parseValue field value sm.separator sm.layout).1)
        (ck ++ [sm.call value])
      rw [h4]
      exact List.prefix_append _ _
  cases hu : (w.runUpdate s).2 with
  | some err => simp
  | none =>
    simp only []
    obtain ⟨pre', post', rfl⟩ := List.append_of_mem hsm
    obtain ⟨s₁, extra₁, _, hx1, hcase⟩ :=
      bindFields_at w update pre' post' sm (w.runUpdate s).1 [] hind
    rcases hcase with ⟨hne, heq⟩ | heq
    · constructor
      · intro c hc hf
        rw [heq] at hc
        simp only [List.nil_append] at hc
        exact absurd hf (hx1 c hc)
      · intro h; exact absurd h hne
    · rw [heq]
      cases hf : s₁.fieldAt sm.fieldValue with
      | none =>
        have hstep : bindField w update sm s₁ ([] ++ extra₁) =
            .stop ⟨some s₁, [] ++ extra₁, .panic invalidValue⟩ := by
          have hu' : (update && !sm.updatable) = false := by
            cases update with
            | false => rfl
            | true => simp [hproc rfl]
          simp [bindField, hu', resolve_of_env s₁ hlook, hf]
        rw [hstep]
        exact ⟨fun c hc hfld => absurd hfld (hx1 c (by simpa using hc)), by simp⟩
      | some field =>
        rw [bindField_value w update sm s₁ _ value field hproc (resolve_of_env s₁ hlook) hf]
        cases he : (w.parseValue field value sm.separator sm.layout).2 with
        | some err =>
          simp only [List.nil_append, List.mem_append, List.mem_singleton]
          refine ⟨?_, by simp⟩
          rintro c (hc | hc) hfld
          · exact absurd hfld (hx1 c hc)
          · exact hc
        | none =>
          simp only []
          obtain ⟨s', extra, h1, _, h3⟩ := bindFields_after w update pre' post' sm
            (s₁.setAt sm.fieldValue (w.parseValue field value sm.separator sm.layout).1)
            ([] ++ extra₁ ++ [sm.call value]) hind
          rw [h1]
          simp only [List.nil_append, List.append_assoc, List.singleton_append, List.mem_append,
            List.mem_cons]
          refine ⟨?_, fun _ => Or.inr (Or.inl rfl)⟩
          rintro c (hc | hc | hc) hfld
          · exact absurd hfld (hx1 c hc)
          · exact hc
          · exact absurd hfld (h3 c hc)

/-- C1 at the example: `Name` declares `NAME,APP_NAME`; only `APP_NAME` is set, and
`parseValue` is invoked on `Name` with its value, first of all since `A`
before it is left alone. -/
theorem readEnvVars_env_value_wins_witness :
    (∀ c ∈ (readEnvVars exampleWorld exampleRoot false).calls, c.field = [2] →
        c = ⟨[2], "svc", ",", none⟩) ∧
    ⟨[2], "svc", ",", none⟩ ∈ (readEnvVars exampleWorld exampleRoot false).calls ∧
    [⟨[2], "svc", ",", none⟩] <+: (readEnvVars exampleWorld exampleRoot false).calls :=
  have h := readEnvVars_env_value_wins exampleWorld exampleRoot false
    [metaA, metaName, metaHost, metaPort] exampleConfig metaName ["NAME"] [] "APP_NAME" "svc"
    (by decide) rfl (by decide) (by decide) rfl (by decide) (by decide)
  ⟨h.1, h.2.1 (by decide),
    h.2.2 [metaA] [metaHost, metaPort] exampleConfig [] rfl rfl rfl rfl⟩

/-- C2. A descriptor none of whose names is set in the environment and whose
field holds a non-zero value when the loop over the descriptors starts: no
invocation of `parseValue` is made on the field and the call leaves the
field as it was, whatever the default and the required flag of the
descriptor are, in a full pass and in an update pass. -/
theorem readEnvVars_keeps_nonzero_field (w : World) (cfg : Option Value) (update : Bool)
    (metas : List structMeta) (s : Value) (sm : structMeta) (v : Value)
    (hmeta : readStructMetadata cfg = .ok metas) (hs : (unwrap cfg).1 = some s)
    (hsm : sm ∈ metas) (henv : ∀ n ∈ sm.envList, w.LookupEnv n = none)
    (hcur : (w.runUpdate s).1.fieldAt sm.fieldValue = some v) (hnz : v.IsZero = false) :
    (∀ c ∈ (readEnvVars w cfg update).calls, c.field ≠ sm.fieldValue) ∧
    (readEnvVars w cfg update).field sm.fieldValue = some v := by
  have hind := readStructMetadata_indep cfg metas hmeta
  rw [readEnvVars_eq w cfg update metas s hmeta hs]
  cases hu : (w.runUpdate s).2 with
  | some err => simp [Pass.field, hcur]
  | none =>
    simp only []
    obtain ⟨pre', post', rfl⟩ := List.append_of_mem hsm
    obtain ⟨s₁, extra₁, hf1, hx1, hcase⟩ :=
      bindFields_at w update pre' post' sm (w.runUpdate s).1 [] hind
    rcases hcase with ⟨_, heq⟩ | heq
    · rw [heq]
      exact ⟨fun c hc => hx1 c (by simpa using hc), by simp [Pass.field, hf1, hcur]⟩
    · have hskip : sm.resolve w.LookupEnv s₁ = .skip := by
        rw [resolve_of_unset (lookupEnvList_eq_none.2 henv) (hf1.trans hcur)]
        simp [hnz]
      rw [heq, bindField_skip w update sm s₁ _ hskip]
      simp only []
      obtain ⟨s', extra, h1, h2, h3⟩ :=
        bindFields_after w update pre' post' sm s₁ ([] ++ extra₁) hind
      rw [h1]
      refine ⟨?_, by simp [Pass.field, h2, hf1, hcur]⟩
      intro c hc
      simp only [List.nil_append, List.mem_append] at hc
      rcases hc with hc | hc
      · exact hx1 c hc
      · exact h3 c hc

/-- C2 at the example: `A` holds 5, has the default `"10"`, and no variable `A`
is set; after the pass `A` still holds 5. -/
theorem readEnvVars_keeps_nonzero_field_witness :
    (∀ c ∈ (readEnvVars exampleWorld exampleRoot false).calls, c.field ≠ [1]) ∧
    (readEnvVars exampleWorld exampleRoot false).field [1] = some (.int 5) :=
  readEnvVars_keeps_nonzero_field exampleWorld exampleRoot false
    [metaA, metaName, metaHost, metaPort] exampleConfig metaA (.int 5)
    (by decide) rfl (by decide) (by decide) rfl rfl

/-- C3. A pass of `ReadEnv` that returns nil, with no variable set in the
environment and no required descriptor: a field that was zero when the loop
started and has a default holds what `parseValue` made of that zero value, the
default string, the separator and the layout of its descriptor, and
`parseValue` was invoked with exactly these; a field that was not zero or has
no default holds the value it had and was not passed to `parseValue`; and
every location off all descriptors is as it was. -/
theorem ReadEnv_applies_defaults (w : World) (cfg : Option Value)
    (metas : List structMeta) (s : Value)
    (hmeta : readStructMetadata cfg = .ok metas) (hs : (unwrap cfg).1 = some s)
    (henv : ∀ n, w.LookupEnv n = none) (hreq : ∀ sm ∈ metas, sm.required = false)
    (hexit : (ReadEnv w cfg).exit = .nil) :
    (∀ sm ∈ metas, ∀ v d, (w.runUpdate s).1.fieldAt sm.fieldValue = some v →
        v.IsZero = true → sm.defValue = some d →
        (ReadEnv w cfg).field sm.fieldValue =
          some (w.parseValue v d sm.separator sm.layout).1 ∧
        ⟨sm.fieldValue, d, sm.separator, sm.layout⟩ ∈ (ReadEnv w cfg).calls) ∧
    (∀ sm ∈ metas, ∀ v, (w.runUpdate s).1.fieldAt sm.fieldValue = some v →
        (v.IsZero = false ∨ sm.defValue = none) →
        (ReadEnv w cfg).field sm.fieldValue = some v ∧
        ∀ c ∈ (ReadEnv w cfg).calls, c.field ≠ sm.fieldValue) ∧
    (∀ q, (∀ sm ∈ metas, Indep sm.fieldValue q) →
        (ReadEnv w cfg).field q = (w.runUpdate s).1.fieldAt q) := by
  have hind := readStructMetadata_indep cfg metas hmeta
  unfold ReadEnv at hexit ⊢
  rw [readEnvVars_eq w cfg false metas s hmeta hs] at hexit ⊢
  cases hu : (w.runUpdate s).2 with
  | some err => simp [hu] at hexit
  | none =>
    simp only [hu] at hexit ⊢
    refine ⟨?_, ?_, ?_⟩
    · intro sm hsm v d hcur hz hd
      obtain ⟨pre', post', rfl⟩ := List.append_of_mem hsm
      obtain ⟨s₁, extra₁, hf1, hx1, hcase⟩ :=
        bindFields_at w false pre' post' sm (w.runUpdate s).1 [] hind
      rcases hcase with ⟨hne, _⟩ | heq
      · exact absurd hexit hne
      · have hres : sm.resolve w.LookupEnv s₁ = .value d := by
          rw [resolve_of_unset (lookupEnvList_eq_none.2 (fun n _ => henv n)) (hf1.trans hcur)]
          simp [hz, hd, hreq sm hsm]
        rw [heq, bindField_value w false sm s₁ _ d v (by intro h; cases h) hres
          (hf1.trans hcur)] at hexit ⊢
        cases he : (w.parseValue v d sm.separator sm.layout).2 with
        | some err => simp [he] at hexit
        | none =>
          simp only [he] at hexit ⊢
          obtain ⟨s', extra, h1, h2, _⟩ := bindFields_after w false pre' post' sm
            (s₁.setAt sm.fieldValue (w.parseValue v d sm.separator sm.layout).1)
            ([] ++ extra₁ ++ [sm.call d]) hind
          rw [h1]
          refine ⟨?_, by simp [structMeta.call]⟩
          simp only [Pass.field, Option.some_bind, h2]
          exact fieldAt_setAt_same _ _ _ (by rw [hf1, hcur]; rfl)
    · intro sm hsm v hcur hor
      obtain ⟨pre', post', rfl⟩ := List.append_of_mem hsm
      obtain ⟨s₁, extra₁, hf1, hx1, hcase⟩ :=
        bindFields_at w false pre' post' sm (w.runUpdate s).1 [] hind
      rcases hcase with ⟨hne, _⟩ | heq
      · exact absurd hexit hne
      · have hskip : sm.resolve w.LookupEnv s₁ = .skip := by
          rw [resolve_of_unset (lookupEnvList_eq_none.2 (fun n _ => henv n)) (hf1.trans hcur)]
          rcases hor with hnz | hnd
          · simp [hnz]
          · cases hz : v.IsZero <;> simp [hnd, hreq sm hsm]
        rw [heq, bindField_skip w false sm s₁ _ hskip]
        simp only []
        obtain ⟨s', extra, h1, h2, h3⟩ :=
          bindFields_after w false pre' post' sm s₁ ([] ++ extra₁) hind
        rw [h1]
        refine ⟨by simp [Pass.field, h2, hf1, hcur], ?_⟩
        intro c hc
        simp only [List.nil_append, List.mem_append] at hc
        rcases hc with hc | hc
        · exact hx1 c hc
        · exact h3 c hc
    · intro q hq
      obtain ⟨s', extra, h1, _, _, h4⟩ := bindFields_frame w false metas (w.runUpdate s).1 []
      simp only [Pass.field, h1, Option.some_bind]
      exact h4 q (fun sm hsm _ => hq sm hsm)

/-- C3 at an example: with nothing set in the environment, the empty `Host` takes
its default, `A` keeps 5 although its default is 10, and `Port`, zero and
without default, stays zero. -/
theorem ReadEnv_applies_defaults_witness :
    (ReadEnv emptyWorld defaultsRoot).field [0] = some (.string "localhost") ∧
    (ReadEnv emptyWorld defaultsRoot).field [1] = some (.int 5) ∧
    (ReadEnv emptyWorld defaultsRoot).field [2] = some (.int 0) :=
  have h := ReadEnv_applies_defaults emptyWorld defaultsRoot defaultsMetas defaultsConfig
    (by decide) rfl (fun _ => rfl) (by decide) (by decide)
  ⟨(h.1 ⟨["HOST"], "Host", [0], some "localhost", none, ",", "", false, false⟩ (by decide)
      (.string "") "localhost" rfl rfl rfl).1,
   (h.2.1 ⟨["A"], "A", [1], some "10", none, ",", "", false, false⟩ (by decide)
      (.int 5) rfl (Or.inl rfl)).1,
   (h.2.1 ⟨["PORT"], "Port", [2], none, none, ",", "", false, false⟩ (by decide)
      (.int 0) rfl (Or.inr rfl)).1⟩

/-- C5. In the loop of `UpdateEnv`, every invocation of `parseValue` is on the
field of a descriptor marked updatable; a descriptor not marked updatable gets
no invocation and its field is left as it was when the loop started, whatever
the environment holds; and a location off all updatable descriptors is left as
it was. -/
theorem UpdateEnv_only_updatable (w : World) (cfg : Option Value)
    (metas : List structMeta) (s : Value)
    (hmeta : readStructMetadata cfg = .ok metas) (hs : (unwrap cfg).1 = some s) :
    (∀ c ∈ (UpdateEnv w cfg).calls, ∃ sm ∈ metas, sm.updatable = true ∧
        c.field = sm.fieldValue) ∧
    (∀ sm ∈ metas, sm.updatable = false →
        (∀ c ∈ (UpdateEnv w cfg).calls, c.field ≠ sm.fieldValue) ∧
        (UpdateEnv w cfg).field sm.fieldValue = (w.runUpdate s).1.fieldAt sm.fieldValue) ∧
    (∀ q, (∀ sm ∈ metas, sm.updatable = true → Indep sm.fieldValue q) →
        (UpdateEnv w cfg).field q = (w.runUpdate s).1.fieldAt q) := by
  have hind := readStructMetadata_indep cfg metas hmeta
  unfold UpdateEnv
  rw [readEnvVars_eq w cfg true metas s hmeta hs]
  cases hu : (w.runUpdate s).2 with
  | some err => simp [Pass.field]
  | none =>
    simp only []
    obtain ⟨s', extra, h1, h2, h3, h4⟩ := bindFields_frame w true metas (w.runUpdate s).1 []
    have hcalls : ∀ c ∈ (bindFields w true metas (w.runUpdate s).1 []).calls,
        ∃ sm ∈ metas, sm.updatable = true ∧ c.field = sm.fieldValue := by
      intro c hc
      rw [h2] at hc
      obtain ⟨sm, hsm, hp, hc'⟩ := h3 c (by simpa using hc)
      exact ⟨sm, hsm, hp rfl, hc'⟩
    have hoff : ∀ sm ∈ metas, sm.updatable = false →
        ∀ x ∈ metas, x.updatable = true → Indep x.fieldValue sm.fieldValue := by
      intro sm hsm hnu x hx hxu
      refine pairwise_indep_of_ne hind hx hsm ?_
      intro he; rw [he, hnu] at hxu; exact Bool.false_ne_true hxu
    refine ⟨hcalls, ?_, ?_⟩
    · intro sm hsm hnu
      constructor
      · intro c hc
        obtain ⟨x, hx, hxu, hcx⟩ := hcalls c hc
        rw [hcx]; exact (hoff sm hsm hnu x hx hxu).ne
      · simp only [Pass.field, h1, Option.some_bind]
        exact h4 _ (fun x hx hp => hoff sm hsm hnu x hx (hp rfl))
    · intro q hq
      simp only [Pass.field, h1, Option.some_bind]
      exact h4 q (fun x hx hp => hq x hx (hp rfl))

/-- C5 at the example: `DB_PORT` and `APP_NAME` are both set; `UpdateEnv` binds
the updatable `Port` and leaves `Name`, which is not updatable, empty. -/
theorem UpdateEnv_only_updatable_witness :
    (UpdateEnv exampleWorld exampleRoot).field [2] = some (.string "") ∧
    (∀ c ∈ (UpdateEnv exampleWorld exampleRoot).calls, c.field ≠ [2]) ∧
    (UpdateEnv exampleWorld exampleRoot).field [0, 1] = some (.int 5432) :=
  have h := UpdateEnv_only_updatable exampleWorld exampleRoot
    [metaA, metaName, metaHost, metaPort] exampleConfig (by decide) rfl
  ⟨(h.2.1 metaName (by decide) rfl).2, (h.2.1 metaName (by decide) rfl).1, rfl⟩

/-! ## The binder: failures -/

/-- C4. A full pass in which `Update`, if there is one, returns nil and leaves
every field of the structure in place, and in which no conversion that is
made fails: the pass returns a required-field error if and only if some
descriptor is required, has no name set in the environment and a field that
is zero when the loop starts; the error names the first such descriptor by
its `fieldName`, whether or not it has a default, and that field gets no
invocation of `parseValue` and stays as it was; when there is no such
descriptor the pass returns nil. -/
theorem readEnvVars_required_error_iff (w : World) (cfg : Option Value)
    (metas : List structMeta) (s : Value)
    (hmeta : readStructMetadata cfg = .ok metas) (hs : (unwrap cfg).1 = some s)
    (hupd : (w.runUpdate s).2 = none)
    (hkeep : ∀ p, (s.fieldAt p).isSome → ((w.runUpdate s).1.fieldAt p).isSome)
    (hconv : ∀ c ∈ (readEnvVars w cfg false).calls, ∀ v,
      (w.runUpdate s).1.fieldAt c.field = some v →
      (w.parseValue v c.value c.separator c.layout).2 = none) :
    ((∃ name, (readEnvVars w cfg false).exit = .error (.requiredField name)) ↔
      ∃ sm ∈ metas, Missing w (w.runUpdate s).1 sm) ∧
    (∀ name, (readEnvVars w cfg false).exit = .error (.requiredField name) →
      ∃ pre sm post, metas = pre ++ sm :: post ∧
        (∀ x ∈ pre, ¬ Missing w (w.runUpdate s).1 x) ∧ Missing w (w.runUpdate s).1 sm ∧
        name = sm.fieldName ∧
        (∀ c ∈ (readEnvVars w cfg false).calls, c.field ≠ sm.fieldValue) ∧
        (readEnvVars w cfg false).field sm.fieldValue =
          (w.runUpdate s).1.fieldAt sm.fieldValue) ∧
    ((∀ sm ∈ metas, ¬ Missing w (w.runUpdate s).1 sm) →
      (readEnvVars w cfg false).exit = .nil) := by
  have hind := readStructMetadata_indep cfg metas hmeta
  have hsound := readStructMetadata_sound cfg metas s hmeta hs
  have hsome : ∀ sm ∈ metas, ((w.runUpdate s).1.fieldAt sm.fieldValue).isSome := by
    intro sm hsm
    obtain ⟨v, hv, _⟩ := (hsound sm hsm).fieldAt
    exact hkeep _ (by rw [hv]; rfl)
  have heq : readEnvVars w cfg false = bindFields w false metas (w.runUpdate s).1 [] := by
    rw [readEnvVars_eq w cfg false metas s hmeta hs, hupd]
  rw [heq] at hconv ⊢
  have hcore := bindFields_required w metas (w.runUpdate s).1 [] hind hsome
    (fun extra he c hc v hv => hconv c (by rw [he]; simpa using hc) v hv)
  rcases hcore with ⟨h1, h2⟩ | ⟨pre, sm, post, h1, h2, h3, h4, h5, h6⟩
  · refine ⟨⟨?_, ?_⟩, ?_, fun _ => h1⟩
    · rintro ⟨name, hn⟩; rw [h1] at hn; cases hn
    · rintro ⟨sm, hsm, hm⟩; exact absurd hm (h2 sm hsm)
    · intro name hn; rw [h1] at hn; cases hn
  · have hsm : sm ∈ metas := by rw [h1]; simp
    refine ⟨⟨fun _ => ⟨sm, hsm, h3⟩, fun _ => ⟨sm.fieldName, h4⟩⟩, ?_, ?_⟩
    · intro name hn
      rw [h4] at hn
      simp only [Exit.error.injEq, Error.requiredField.injEq] at hn
      exact ⟨pre, sm, post, h1, h2, h3, hn.symm,
        fun c hc => h6 _ (List.nil_append _).symm c hc, h5⟩
    · intro hnone; exact absurd h3 (hnone sm hsm)

/-- C4 at an example: with nothing set in the environment the pass fails on
`Token`, required and empty, although `Token` has a default; `Mode`, required
and already set, does not make it fail. -/
theorem readEnvVars_required_error_iff_witness :
    (∃ name, (readEnvVars emptyWorld requiredRoot false).exit = .error (.requiredField name)) ∧
    ¬ Missing emptyWorld requiredConfig metaMode :=
  have h := readEnvVars_required_error_iff emptyWorld requiredRoot [metaToken, metaMode]
    requiredConfig (by decide) rfl rfl (fun _ hp => hp)
    (fun c hc => absurd hc (by
      rw [show (readEnvVars emptyWorld requiredRoot false).calls = [] from by decide]
      exact List.not_mem_nil c))
  ⟨h.1.2 ⟨metaToken, by decide, rfl, by decide, .string "", rfl, rfl⟩,
   fun hm => by
    obtain ⟨_, _, v, hv, hz⟩ := hm
    have : v = .string "fast" := by
      have : some (Value.string "fast") = some v := hv
      exact (Option.some.inj this).symm
    subst this
    exact absurd hz (by decide)⟩

/-- C6. When the descriptors before `sm` are processed without failure, leaving the
structure in the state `sk`, and `parseValue` is invoked for `sm` and returns
the error `err`, `readEnvVars` returns exactly `err`; the structure is `sk`
with only the field of `sm` overwritten by what `parseValue` left there, so
every field bound before keeps its value from `sk`; the invocation for `sm`
is the last one, and the fields of the descriptors after `sm` are as they
were and get no invocation. -/
theorem readEnvVars_parse_failure_aborts (w : World) (cfg : Option Value) (update : Bool)
    (pre post : List structMeta) (sm : structMeta) (s sk : Value) (ck : List Call)
    (raw : String) (field v' : Value) (err : Error)
    (hmeta : readStructMetadata cfg = .ok (pre ++ sm :: post))
    (hs : (unwrap cfg).1 = some s) (hupd : (w.runUpdate s).2 = none)
    (hpre : bindFields w update pre (w.runUpdate s).1 [] = ⟨some sk, ck, .nil⟩)
    (hproc : update = true → sm.updatable = true)
    (hraw : sm.resolve w.LookupEnv sk = .value raw)
    (hfield : sk.fieldAt sm.fieldValue = some field)
    (hfail : w.parseValue field raw sm.separator sm.layout = (v', some err)) :
    readEnvVars w cfg update =
      ⟨some (sk.setAt sm.fieldValue v'),
        ck ++ [⟨sm.fieldValue, raw, sm.separator, sm.layout⟩], .error err⟩ ∧
    (∀ x ∈ pre, (readEnvVars w cfg update).field x.fieldValue = sk.fieldAt x.fieldValue) ∧
    (∀ x ∈ post,
      (readEnvVars w cfg update).field x.fieldValue =
        (w.runUpdate s).1.fieldAt x.fieldValue ∧
      ∀ c ∈ (readEnvVars w cfg update).calls, c.field ≠ x.fieldValue) := by
  have hind := readStructMetadata_indep cfg _ hmeta
  have hrun : readEnvVars w cfg update =
      ⟨some (sk.setAt sm.fieldValue v'),
        ck ++ [⟨sm.fieldValue, raw, sm.separator, sm.layout⟩], .error err⟩ := by
    rw [readEnvVars_eq w cfg update _ s hmeta hs, hupd]
    simp only []
    obtain ⟨s', extra, h1, h2⟩ := bindFields_continue w update pre (sm :: post)
      (w.runUpdate s).1 [] (by rw [hpre])
    rw [hpre] at h1
    simp only [List.nil_append, Pass.mk.injEq, Option.some.injEq, and_true] at h1
    obtain ⟨rfl, rfl⟩ := h1
    rw [h2]
    simp [bindFields, bindField_value w update sm sk _ raw field hproc hraw hfield, hfail,
      structMeta.call]
  refine ⟨hrun, ?_, ?_⟩
  · intro x hx
    rw [hrun]
    simp only [Pass.field, Option.some_bind]
    exact fieldAt_setAt_indep _ _ _ _ ((pairwise_split hind).1 x hx).symm
  · intro x hx
    have hxs : Indep x.fieldValue sm.fieldValue := (pairwise_split hind).2 x hx
    have hpx : ∀ y ∈ pre, Indep y.fieldValue x.fieldValue := by
      intro y hy
      rw [List.pairwise_append] at hind
      exact hind.2.2 y hy x (List.mem_cons_of_mem _ hx)
    obtain ⟨s', extra, h1, h2, h3⟩ := bindFields_away w update pre x.fieldValue
      (fun y hy _ => hpx y hy) (w.runUpdate s).1 []
    rw [hpre] at h1
    simp only [List.nil_append, Pass.mk.injEq, Option.some.injEq, and_true] at h1
    obtain ⟨rfl, rfl⟩ := h1
    rw [hrun]
    constructor
    · simp only [Pass.field, Option.some_bind]
      rw [fieldAt_setAt_indep _ _ _ _ hxs.symm, h2]
    · intro c hc
      simp only [List.mem_append, List.mem_singleton] at hc
      rcases hc with hc | rfl
      · exact h3 c hc
      · exact hxs.symm.ne

/-- C6 at an example: `Host` takes its default, then the conversion of `PORT=x1`
fails; the error of the conversion is returned and `Host` keeps the default
it was bound to. -/
theorem readEnvVars_parse_failure_aborts_witness :
    (readEnvVars badPortWorld defaultsRoot false).exit =
      .error (.foreign "strconv.Atoi: invalid syntax") ∧
    (readEnvVars badPortWorld defaultsRoot false).field [0] = some (.string "localhost") :=
  have h := readEnvVars_parse_failure_aborts badPortWorld defaultsRoot false
    [⟨["HOST"], "Host", [0], some "localhost", none, ",", "", false, false⟩,
     ⟨["A"], "A", [1], some "10", none, ",", "", false, false⟩] []
    ⟨["PORT"], "Port", [2], none, none, ",", "", false, false⟩
    defaultsConfig defaultsBound [⟨[0], "localhost", ",", none⟩] "x1" (.int 0) (.int 0)
    (.foreign "strconv.Atoi: invalid syntax")
    (by decide) rfl rfl rfl (by decide) (by decide) rfl rfl
  ⟨by rw [h.1], by rw [h.1]; rfl⟩

/-- C7. When the root has an `Update` method, `readEnvVars` runs it after the
descriptors are read and before the loop over them: if `Update` returns an
error, `readEnvVars` returns that error, having made no invocation of
`parseValue` and no required-field check, and the structure is as `Update`
left it; if `Update` returns nil, the loop runs on the structure as `Update`
left it. -/
theorem readEnvVars_update_first (w : World) (cfg : Option Value) (update : Bool)
    (metas : List structMeta) (s : Value) (upd : Value → Value × Option Error)
    (hmeta : readStructMetadata cfg = .ok metas) (hs : (unwrap cfg).1 = some s)
    (hw : w.Update = some upd) :
    (∀ err, (upd s).2 = some err →
      readEnvVars w cfg update = ⟨some (upd s).1, [], .error err⟩) ∧
    ((upd s).2 = none →
      readEnvVars w cfg update = bindFields w update metas (upd s).1 []) := by
  have hrun : w.runUpdate s = upd s := by simp [World.runUpdate, hw]
  rw [readEnvVars_eq w cfg update metas s hmeta hs, hrun]
  constructor
  · intro err he; simp [he]
  · intro he; simp [he]

/-- C7 at the example: the `Update` method of the root fails; its error is
returned and `parseValue` is not invoked, although `APP_NAME` and `DB_PORT`
are set. -/
theorem readEnvVars_update_first_witness :
    (readEnvVars hookWorld exampleRoot false).exit = .error (.foreign "update failed") ∧
    (readEnvVars hookWorld exampleRoot false).calls = [] :=
  have h := (readEnvVars_update_first hookWorld exampleRoot false
    [metaA, metaName, metaHost, metaPort] exampleConfig failingUpdate
    (by decide) rfl rfl).1 (.foreign "update failed") rfl
  ⟨by rw [h], by rw [h]⟩

/-! ## The metadata reader -/

/-- C8 (amended). The descriptor of a field, reached from the root through
nested structure fields whose `env-prefix` annotations concatenate to the
accumulated prefix `accPrefix s parent` (an absent annotation counting as the
empty string), has as `envList` the names declared in the field's `env`
annotation, in order, each with the accumulated prefix put before it: every
entry is such a prefixed name, and under a non-empty accumulated prefix the
entry made for a declared name is never that name itself. -/
theorem readStructMetadata_envList_prefixed (cfg : Option Value) (metas : List structMeta)
    (s : Value) (sm : structMeta)
    (hmeta : readStructMetadata cfg = .ok metas) (hs : (unwrap cfg).1 = some s)
    (hsm : sm ∈ metas) :
    ∃ parent idx t fs fType fld,
      sm.fieldValue = parent ++ [idx] ∧ NodePos s parent ∧
      s.fieldAt parent = some (.struct t fs) ∧ fs[idx]? = some (fType, fld) ∧
      sm.envList = (declaredNames fType).map (fun d => accPrefix s parent ++ d) ∧
      (∀ d, d ∈ sm.envList → ∃ d' ∈ declaredNames fType, d = accPrefix s parent ++ d') ∧
      (accPrefix s parent ≠ "" → ∀ d ∈ declaredNames fType, accPrefix s parent ++ d ≠ d) := by
  obtain ⟨parent, idx, t, fs, fType, fld, hfa, hpos, hk, _, _, rfl⟩ :=
    readStructMetadata_sound cfg metas s hmeta hs sm hsm
  refine ⟨parent, idx, t, fs, fType, fld, rfl, hpos, hfa, hk, ?_, ?_, ?_⟩
  · simp only [newMeta]; exact envNames_eq _ _
  · intro d hd
    simp only [newMeta, envNames_eq, List.mem_map] at hd
    obtain ⟨d', hd', rfl⟩ := hd
    exact ⟨d', hd', rfl⟩
  · intro hp d _
    exact prefixed_ne _ d hp

/-- C8 (amended) at the example of the specification: under the prefix `DB_`, the
name `HOST` gives the list `["DB_HOST"]`. -/
theorem readStructMetadata_envList_prefixed_witness :
    metaHost.envList = ["DB_HOST"] ∧ accPrefix exampleConfig [0] = "DB_" ∧
    ∃ parent idx t fs fType fld,
      metaHost.fieldValue = parent ++ [idx] ∧ NodePos exampleConfig parent ∧
      exampleConfig.fieldAt parent = some (.struct t fs) ∧ fs[idx]? = some (fType, fld) ∧
      metaHost.envList =
        (declaredNames fType).map (fun d => accPrefix exampleConfig parent ++ d) ∧
      (∀ d, d ∈ metaHost.envList →
        ∃ d' ∈ declaredNames fType, d = accPrefix exampleConfig parent ++ d') ∧
      (accPrefix exampleConfig parent ≠ "" →
        ∀ d ∈ declaredNames fType, accPrefix exampleConfig parent ++ d ≠ d) :=
  ⟨rfl, by decide,
    readStructMetadata_envList_prefixed exampleRoot [metaA, metaName, metaHost, metaPort]
      exampleConfig metaHost (by decide) rfl (by decide)⟩

/-- C8, as stated, fails: under the non-empty prefix `A`, the field declaring
`B,AB` gets the list `["AB", "AAB"]`, which contains the unprefixed declared
name `AB`. -/
theorem envList_contains_unprefixed_name :
    ∃ sm, readStructMetadata (some (.ptr (some clashConfig))) = .ok [sm] ∧
      sm.envList = ["AB", "AAB"] ∧ accPrefix clashConfig [0] ≠ "" ∧
      ∃ d ∈ declaredNames ⟨"F", "", [("env", "B,AB")]⟩, d ∈ sm.envList :=
  ⟨⟨["AB", "AAB"], "F", [0, 0], none, none, ",", "", false, false⟩,
    by decide, rfl, by decide, "AB", by decide, by decide⟩

/-- C9 (amended). For a pointer to a structure, the descriptors returned are
exactly those of the bindable fields (exported, not descended into, reached
through nested structure fields), and they come in breadth-first order:
a shallower field before a deeper one, fields of one depth in declaration
order; so the descriptors of the fields of a nested structure come after
the descriptors of all fields of the enclosing structure. -/
theorem readStructMetadata_breadth_first (s : Value) (metas : List structMeta)
    (hmeta : readStructMetadata (some (.ptr (some s))) = .ok metas) :
    BreadthFirst (metas.map (fun m => m.fieldValue)) ∧ (∀ m, m ∈ metas ↔ MetaOK s m) :=
  ⟨readStructMetadata_sorted _ metas hmeta,
    fun m => ⟨readStructMetadata_sound _ metas s hmeta rfl m,
      readStructMetadata_complete s metas hmeta m⟩⟩

/-- C9 (amended) at the example: `A` and `Name` of the root come before `Host` and
`Port` of the nested `DB`. -/
theorem readStructMetadata_breadth_first_witness :
    BreadthFirst ([metaA, metaName, metaHost, metaPort].map (fun m => m.fieldValue)) ∧
    (∀ m, m ∈ [metaA, metaName, metaHost, metaPort] ↔ MetaOK exampleConfig m) :=
  readStructMetadata_breadth_first exampleConfig [metaA, metaName, metaHost, metaPort]
    (by decide)

/-- C9, as stated, fails: in the example the nested `DB` is declared before `A`
and `Name`, yet the descriptors of `DB.Host` and `DB.Port` come after those
of `A` and `Name`; the list is not in depth-first order. -/
theorem readStructMetadata_not_depth_first :
    ∃ metas, readStructMetadata exampleRoot = .ok metas ∧
      metas.map (fun m => m.fieldValue) = [[1], [2], [0, 0], [0, 1]] ∧
      ¬ DepthFirst (metas.map (fun m => m.fieldValue)) :=
  ⟨[metaA, metaName, metaHost, metaPort], by decide, rfl, by
    unfold DepthFirst
    decide⟩

/-- C10, at the failing input: for a pointer to a structure with an unexported
field of a structure type that is no key of `validStructs`,
`readStructMetadata` neither returns descriptors nor an error; it panics in
`fld.Addr().Interface()`. -/
theorem readStructMetadata_panics_on_unexported_struct :
    readStructMetadata (some (.ptr (some hiddenConfig))) = .panic interfacePanic := by
  decide

/-! ## The metadata reader: fields and their descriptors -/

/-- C11, at the failing input: an unexported field of a structure type that is no
key of `validStructs` is not skipped. With it the reader panics in
`fld.Addr().Interface()`; for the same structure without the field the
reader returns the descriptor of the other field. -/
theorem readStructMetadata_unexported_struct_not_skipped :
    readStructMetadata (some (.ptr (some hiddenSibling))) = .panic interfacePanic ∧
    readStructMetadata (some (.ptr (some hiddenSiblingRemoved))) =
      .ok [⟨["A"], "A", [0], none, none, ",", "", false, false⟩] := by
  decide

/-- C12. For a pointer to a structure and a settable field of structure kind in a
structure the reader reaches: when the type of the field is a key of
`validStructs`, the list holds exactly one descriptor for the field, with the
layout of its `env-layout` annotation (none when absent), no descriptor for
anything inside the field, and the field is not put in the queue; when the
type is no key of `validStructs`, the list holds no descriptor for the field
itself, the field is put in the queue with the prefix grown by its
`env-prefix` annotation, and its own settable fields that are not descended
into get their descriptors. -/
theorem readStructMetadata_struct_field (s : Value) (metas : List structMeta)
    (parent : Path) (idx : Nat) (t : String) (fs : List (StructField × Value))
    (fType : StructField) (typ : String) (inner : List (StructField × Value))
    (h : readStructMetadata (some (.ptr (some s))) = .ok metas)
    (hpos : NodePos s parent) (hfa : s.fieldAt parent = some (.struct t fs))
    (hk : fs[idx]? = some (fType, .struct typ inner))
    (hexp : fType.PkgPath.isEmpty = true) :
    ∃ queue, readQueue (some (.ptr (some s))) = some queue ∧
      (.named typ ∈ validStructs →
        metas.count (newMeta (accPrefix s parent) parent idx fType
          (fType.Lookup TagEnvLayout)) = 1 ∧
        (∀ sm ∈ metas, sm.fieldValue = parent ++ [idx] →
          sm = newMeta (accPrefix s parent) parent idx fType (fType.Lookup TagEnvLayout)) ∧
        (∀ sm ∈ metas, parent ++ [idx] <+: sm.fieldValue → sm.fieldValue = parent ++ [idx]) ∧
        (∀ n ∈ queue, n.loc ≠ parent ++ [idx])) ∧
      (.named typ ∉ validStructs →
        (∀ sm ∈ metas, sm.fieldValue ≠ parent ++ [idx]) ∧
        newNode (accPrefix s parent) parent idx fType (.struct typ inner) ∈ queue ∧
        (∀ j f v, inner[j]? = some (f, v) → v.nested = false → f.PkgPath.isEmpty = true →
          newMeta (accPrefix s parent ++ (fType.Lookup TagEnvPrefix).getD "")
            (parent ++ [idx]) j f (leafLayout f v) ∈ metas)) := by
  obtain ⟨queue, hq⟩ := readQueue_of_ok _ metas h
  have hsound := readStructMetadata_sound _ metas s h rfl
  have hqsound := readQueue_sound _ metas queue s h hq rfl
  have hfld : s.fieldAt (parent ++ [idx]) = some (.struct typ inner) := by
    rw [fieldAt_concat s parent t fs idx hfa, hk]; rfl
  refine ⟨queue, hq, ?_, ?_⟩
  · intro hreg
    have hn : (Value.struct typ inner).nested = false := by
      simp [Value.nested, hreg]
    obtain ⟨hin, huniq⟩ := readStructMetadata_at s metas h parent idx t fs fType _
      hpos hfa hk hn hexp
    have hnodup : metas.Nodup :=
      (readStructMetadata_indep _ metas h).imp (fun hab he => hab.ne (by rw [he]))
    refine ⟨List.count_eq_one_of_mem hnodup hin, huniq, ?_, ?_⟩
    · intro sm hsm hpre
      by_contra hne
      obtain ⟨parent', idx', _, _, _, _, _, hpos', _, _, _, rfl⟩ := hsound sm hsm
      simp only [newMeta] at hpre hne
      rcases List.prefix_concat_iff.1 hpre with he | hp
      · exact hne he.symm
      · obtain ⟨v, hv, hvn⟩ := hpos' _ hp (by simp)
        rw [hfld] at hv
        cases hv
        rw [hn] at hvn
        exact Bool.false_ne_true hvn
    · intro n hn' hloc
      obtain ⟨v, hv, hvn⟩ := (hqsound n hn').2.2 _ (List.prefix_refl _) (by rw [hloc]; simp)
      rw [hloc, hfld] at hv
      cases hv
      rw [hn] at hvn
      exact Bool.false_ne_true hvn
  · intro hreg
    have hn : (Value.struct typ inner).nested = true := by
      simp [Value.nested, hreg]
    have hpos' : NodePos s (parent ++ [idx]) := hpos.concat hfa hk hn
    refine ⟨?_, ?_, ?_⟩
    · intro sm hsm he
      obtain ⟨v, hv, hvn⟩ := (hsound sm hsm).fieldAt
      rw [he, hfld] at hv
      cases hv
      rw [hn] at hvn
      exact Bool.false_ne_true hvn.symm
    · obtain ⟨n, hnq, hloc, hval, hpre⟩ := readQueue_complete s metas queue h hq _ hpos'
        (by rw [hfld]; rfl)
      have : n = newNode (accPrefix s parent) parent idx fType (.struct typ inner) := by
        obtain ⟨v, p, l⟩ := n
        simp only at hloc hval hpre
        simp only [newNode, cfgNode.mk.injEq]
        refine ⟨by rw [hval, hfld], ?_, hloc⟩
        rw [hpre, accPrefix_append s parent t fs idx fType _ hfa hk]
      rw [← this]; exact hnq
    · intro j f v hj hvn hfe
      have := readStructMetadata_complete s metas h _
        ⟨parent ++ [idx], j, typ, inner, f, v, hfld, hpos', hj, hvn, hfe, rfl⟩
      rwa [accPrefix_append s parent t fs idx fType _ hfa hk] at this

/-- C12 at an example: the `time.Time` field `At` gets one descriptor, with its
layout, and nothing inside it is described; the field `DB` gets none and its
field `Host` is described. -/
theorem readStructMetadata_struct_field_witness :
    timeMetas.count ⟨["AT"], "At", [0], none, some "2006-01-02", ",", "", false, false⟩ = 1 ∧
    (∀ sm ∈ timeMetas, [0] <+: sm.fieldValue → sm.fieldValue = [0]) ∧
    (∀ sm ∈ timeMetas, sm.fieldValue ≠ [1]) ∧
    (⟨["HOST"], "Host", [1, 0], none, none, ",", "", false, false⟩ : structMeta) ∈ timeMetas := by
  obtain ⟨_, _, hreg, _⟩ := readStructMetadata_struct_field timeConfig timeMetas [] 0
    "main.Timed" _ ⟨"At", "", [("env", "AT"), ("env-layout", "2006-01-02")]⟩ "time.Time" _
    (by decide) (fun q hq hne => absurd (List.prefix_nil.1 hq) hne) rfl rfl rfl
  obtain ⟨_, _, _, hun⟩ := readStructMetadata_struct_field timeConfig timeMetas [] 1
    "main.Timed" _ ⟨"DB", "", []⟩ "main.DB" _
    (by decide) (fun q hq hne => absurd (List.prefix_nil.1 hq) hne) rfl rfl rfl
  have h1 := hreg (by decide)
  have h2 := hun (by decide)
  exact ⟨h1.1, h1.2.2.1, h2.1, h2.2.2 0 ⟨"Host", "", [("env", "HOST")]⟩ (.string "") rfl rfl rfl⟩

/-- C13. For a pointer to a structure, a bindable field (exported, not descended
into, in a structure the reader reaches) has exactly one descriptor; its
`updatable` flag is true if and only if the tag of the field has the key
`env-upd`, and its `required` flag is true if and only if the tag has the
key `env-required`, whatever value stands under the key. -/
theorem readStructMetadata_flags (s : Value) (metas : List structMeta)
    (parent : Path) (idx : Nat) (t : String) (fs : List (StructField × Value))
    (fType : StructField) (fld : Value)
    (h : readStructMetadata (some (.ptr (some s))) = .ok metas)
    (hpos : NodePos s parent) (hfa : s.fieldAt parent = some (.struct t fs))
    (hk : fs[idx]? = some (fType, fld)) (hn : fld.nested = false)
    (hexp : fType.PkgPath.isEmpty = true) :
    ∃ sm ∈ metas, sm.fieldValue = parent ++ [idx] ∧
      (∀ sm' ∈ metas, sm'.fieldValue = parent ++ [idx] → sm' = sm) ∧
      (sm.updatable = true ↔ ∃ value, (TagEnvUpd, value) ∈ fType.Tag) ∧
      (sm.required = true ↔ ∃ value, (TagEnvRequired, value) ∈ fType.Tag) := by
  obtain ⟨hin, huniq⟩ := readStructMetadata_at s metas h parent idx t fs fType fld
    hpos hfa hk hn hexp
  exact ⟨_, hin, rfl, huniq, lookup_isSome_iff _ _, lookup_isSome_iff _ _⟩

/-- C13 at an example: `Debug` carries `env-upd:"false"` and `env-required:""`; both
flags of its descriptor are true. -/
theorem readStructMetadata_flags_witness :
    ∃ sm ∈ ([⟨["DEBUG"], "Debug", [0], none, none, ",", "", true, true⟩,
        ⟨["PLAIN"], "Plain", [1], none, none, ",", "", false, false⟩] : List structMeta),
      sm.fieldValue = [0] ∧ sm.updatable = true ∧ sm.required = true := by
  obtain ⟨sm, hsm, hf, _, hu, hr⟩ := readStructMetadata_flags flagsConfig
    [⟨["DEBUG"], "Debug", [0], none, none, ",", "", true, true⟩,
      ⟨["PLAIN"], "Plain", [1], none, none, ",", "", false, false⟩]
    [] 0 "main.Flags" _
    ⟨"Debug", "", [("env", "DEBUG"), ("env-upd", "false"), ("env-required", "")]⟩ (.bool false)
    (by decide) (fun q hq hne => absurd (List.prefix_nil.1 hq) hne) rfl rfl rfl rfl
  exact ⟨sm, hsm, hf, hu.2 ⟨"false", by decide⟩, hr.2 ⟨"", by decide⟩⟩

/-- C14. For a pointer to a structure, the one descriptor of a bindable field has as
`envList` the value of the `env` annotation split on `","`, each segment with
the accumulated prefix before it, whatever the `env-separator` annotation of
the field is; when the `env` annotation is absent or empty the list is empty,
also under a non-empty prefix, no environment gives the field a value, and
every invocation of `parseValue` on the field carries the default of the
descriptor. -/
theorem readStructMetadata_envList_split (s : Value) (metas : List structMeta)
    (parent : Path) (idx : Nat) (t : String) (fs : List (StructField × Value))
    (fType : StructField) (fld : Value)
    (h : readStructMetadata (some (.ptr (some s))) = .ok metas)
    (hpos : NodePos s parent) (hfa : s.fieldAt parent = some (.struct t fs))
    (hk : fs[idx]? = some (fType, fld)) (hn : fld.nested = false)
    (hexp : fType.PkgPath.isEmpty = true) :
    ∃ sm ∈ metas, sm.fieldValue = parent ++ [idx] ∧
      (∀ sm' ∈ metas, sm'.fieldValue = parent ++ [idx] → sm' = sm) ∧
      sm.envList =
        (match fType.Lookup TagEnv with
          | some envs => if envs = "" then [] else stringsSplit envs ","
          | none => []).map (fun seg => accPrefix s parent ++ seg) ∧
      ((fType.Lookup TagEnv = none ∨ fType.Lookup TagEnv = some "") →
        sm.envList = [] ∧
        (∀ w : World, lookupEnvList w.LookupEnv sm.envList = none) ∧
        ∀ (w : World) (update : Bool),
          ∀ c ∈ (readEnvVars w (some (.ptr (some s))) update).calls,
            c.field = sm.fieldValue → sm.defValue = some c.value) := by
  obtain ⟨hin, huniq⟩ := readStructMetadata_at s metas h parent idx t fs fType fld
    hpos hfa hk hn hexp
  have hlist : (newMeta (accPrefix s parent) parent idx fType (leafLayout fType fld)).envList =
      (match fType.Lookup TagEnv with
        | some envs => if envs = "" then [] else stringsSplit envs ","
        | none => []).map (fun seg => accPrefix s parent ++ seg) := by
    simp only [newMeta, envNames_eq, declaredNames, DefaultSeparator]
    cases fType.Lookup TagEnv with
    | none => rfl
    | some envs =>
      by_cases he : envs = ""
      · subst he; simp
      · have : envs.length ≠ 0 := by
          intro h0
          exact he (String.ext (List.length_eq_zero.1 h0))
        simp [he, this]
  refine ⟨_, hin, rfl, huniq, hlist, ?_⟩
  intro habs
  have hempty : (newMeta (accPrefix s parent) parent idx fType
      (leafLayout fType fld)).envList = [] := by
    rw [hlist]
    rcases habs with h0 | h0 <;> simp [h0]
  refine ⟨hempty, fun w => by rw [hempty]; rfl, ?_⟩
  intro w update c hc hfld
  rcases readEnvVars_call_origin w _ update metas _ h hin c hc hfld with hl | ⟨_, hd⟩
  · rw [hempty] at hl
    simp [lookupEnvList] at hl
  · exact hd

/-- C14 at an example: under the prefix `P_`, the field with `env:"a;b,c"` and the
separator override `";"` gets the names `P_a;b` and `P_c`, and the field
without `env` annotation gets none. -/
theorem readStructMetadata_envList_split_witness :
    (∃ sm ∈ separatorMetas, sm.fieldValue = [0, 0] ∧ sm.separator = ";" ∧
      sm.envList = ["P_a;b", "P_c"]) ∧
    (∃ sm ∈ separatorMetas, sm.fieldValue = [0, 1] ∧ sm.envList = []) := by
  have hpos : NodePos separatorConfig [0] := by
    intro q hq hne
    rcases List.prefix_concat_iff.1 (show q <+: [] ++ [0] from hq) with rfl | hq
    · exact ⟨_, rfl, by decide⟩
    · exact absurd (List.prefix_nil.1 hq) hne
  obtain ⟨sm, hsm, hf, huniq, hl, _⟩ := readStructMetadata_envList_split separatorConfig
    separatorMetas [0] 0 "main.Sub" _
    ⟨"Hosts", "", [("env", "a;b,c"), ("env-separator", ";")]⟩ (.string "")
    (by decide) hpos rfl rfl rfl rfl
  obtain ⟨sm', hsm', hf', _, _, hnone⟩ := readStructMetadata_envList_split separatorConfig
    separatorMetas [0] 1 "main.Sub" _ ⟨"NoEnv", "", [("env-default", "x")]⟩ (.string "")
    (by decide) hpos rfl rfl rfl rfl
  refine ⟨⟨sm, hsm, hf, ?_, ?_⟩, ⟨sm', hsm', hf', (hnone (Or.inl rfl)).1⟩⟩
  · have := huniq ⟨["P_a;b", "P_c"], "Hosts", [0, 0], none, none, ";", "", false, false⟩
      (by decide) rfl
    rw [← this]
  · rw [hl]; decide

/-- C17. The descriptors come out in the order of the queue: the queue starts with
the root and holds after it, entry by entry, the entries its entries add; the
list is, entry by entry in queue order, what each entry adds, first the
root's own fields in declaration order; so a descriptor of a shallower field
stands before a descriptor of a deeper one, in particular a field of a
structure before everything inside a nested structure declared earlier, and
fields of one structure stand in declaration order. -/
theorem readStructMetadata_queue_order (cfgRoot : Option Value) (metas : List structMeta)
    (h : readStructMetadata cfgRoot = .ok metas) :
    ∃ queue, readQueue cfgRoot = some queue ∧
      queue = { Val := cfgRoot, Prefix := "", loc := [] } :: queue.flatMap cfgNode.children ∧
      metas = queue.flatMap cfgNode.leaves ∧
      (∀ m₁ ∈ metas, ∀ m₂ ∈ metas, m₁.fieldValue.length < m₂.fieldValue.length →
        Precedes metas m₁ m₂) ∧
      (∀ m₁ ∈ metas, ∀ m₂ ∈ metas, ∀ parent i j, m₁.fieldValue = parent ++ [i] →
        m₂.fieldValue = parent ++ [j] → i < j → Precedes metas m₁ m₂) := by
  obtain ⟨queue, hq⟩ := readQueue_of_ok cfgRoot metas h
  obtain ⟨hc, hl⟩ := readQueue_closure cfgRoot metas queue h hq
  refine ⟨queue, hq, hc, hl, ?_, ?_⟩
  · intro m₁ h₁ m₂ h₂ hlt
    exact readStructMetadata_precedes cfgRoot metas h h₁ h₂ (bfsBefore_of_length_lt hlt)
  · intro m₁ h₁ m₂ h₂ parent i j e₁ e₂ hij
    exact readStructMetadata_precedes cfgRoot metas h h₁ h₂
      (by rw [e₁, e₂]; exact bfsBefore_concat_same parent hij)

/-- C17 at the example: `A` and `Name`, declared after the nested `DB`, stand before
`Host`, which lies inside `DB`. -/
theorem readStructMetadata_queue_order_witness :
    Precedes [metaA, metaName, metaHost, metaPort] metaA metaHost ∧
    Precedes [metaA, metaName, metaHost, metaPort] metaName metaHost ∧
    Precedes [metaA, metaName, metaHost, metaPort] metaHost metaPort := by
  obtain ⟨_, _, _, _, hdepth, hdecl⟩ := readStructMetadata_queue_order exampleRoot
    [metaA, metaName, metaHost, metaPort] (by decide)
  exact ⟨hdepth metaA (by decide) metaHost (by decide) (by decide),
    hdepth metaName (by decide) metaHost (by decide) (by decide),
    hdecl metaHost (by decide) metaPort (by decide) [0] 0 1 rfl rfl (by decide)⟩

/-- C19. The loop of the reader ends on every root: the reader returns descriptors,
returns an error or panics, and is never still running after the iterations
it is given. When it returns descriptors, the queue holds at most one entry
more than the root has structure-kind fields held by value, and every entry
but the root's stands for such a field: pointers are not followed. -/
theorem readStructMetadata_terminates (cfgRoot : Option Value) :
    readStructMetadata cfgRoot ≠ .outOfFuel ∧
    ∀ metas, readStructMetadata cfgRoot = .ok metas →
      ∃ queue, readQueue cfgRoot = some queue ∧
        queue.length ≤ cfgNode.structFields { Val := cfgRoot, Prefix := "", loc := [] } + 1 ∧
        ∀ s, (unwrap cfgRoot).1 = some s →
          ∀ n ∈ queue, n.loc = [] ∨ ∃ v, s.fieldAt n.loc = some v ∧ v.Kind = .Struct := by
  refine ⟨readStructMetadata_total cfgRoot, ?_⟩
  intro metas h
  obtain ⟨queue, hq⟩ := readQueue_of_ok cfgRoot metas h
  refine ⟨queue, hq, readQueue_bound cfgRoot metas queue h hq, ?_⟩
  intro s hs n hn
  by_cases hl : n.loc = []
  · exact Or.inl hl
  · right
    obtain ⟨v, hv, hvn⟩ := (readQueue_sound cfgRoot metas queue s h hq hs n hn).2.2 _
      (List.prefix_refl _) hl
    exact ⟨v, hv, nested_kind hvn⟩

/-! ## The binder: update passes and repeated passes -/

/-- C18. An update pass in which `Update`, if there is one, returns nil and leaves
every field in place, and in which no conversion that is made fails: the
pass is the full pass over the updatable descriptors alone, so a descriptor
that is not marked updatable never makes it return the required-field error,
be it required, zero and unset. The error is returned if and only if an
updatable descriptor is required, unset and zero, and names such a one;
when there is none, the pass returns nil. -/
theorem UpdateEnv_skips_required_check (w : World) (cfg : Option Value)
    (metas : List structMeta) (s : Value)
    (hmeta : readStructMetadata cfg = .ok metas) (hs : (unwrap cfg).1 = some s)
    (hupd : (w.runUpdate s).2 = none)
    (hkeep : ∀ p, (s.fieldAt p).isSome → ((w.runUpdate s).1.fieldAt p).isSome)
    (hconv : ∀ c ∈ (UpdateEnv w cfg).calls, ∀ v,
      (w.runUpdate s).1.fieldAt c.field = some v →
      (w.parseValue v c.value c.separator c.layout).2 = none) :
    UpdateEnv w cfg =
      bindFields w false (metas.filter (fun sm => sm.updatable)) (w.runUpdate s).1 [] ∧
    ((∃ name, (UpdateEnv w cfg).exit = .error (.requiredField name)) ↔
      ∃ sm ∈ metas, sm.updatable = true ∧ Missing w (w.runUpdate s).1 sm) ∧
    (∀ name, (UpdateEnv w cfg).exit = .error (.requiredField name) →
      ∃ sm ∈ metas, sm.updatable = true ∧ Missing w (w.runUpdate s).1 sm ∧
        name = sm.fieldName) ∧
    ((∀ sm ∈ metas, sm.updatable = true → ¬ Missing w (w.runUpdate s).1 sm) →
      (UpdateEnv w cfg).exit = .nil) := by
  have hind := readStructMetadata_indep cfg metas hmeta
  have hsound := readStructMetadata_sound cfg metas s hmeta hs
  have hfilter : ∀ sm, sm ∈ metas.filter (fun sm => sm.updatable) ↔
      sm ∈ metas ∧ sm.updatable = true := fun sm => List.mem_filter
  have heq : UpdateEnv w cfg =
      bindFields w false (metas.filter (fun sm => sm.updatable)) (w.runUpdate s).1 [] := by
    unfold UpdateEnv
    rw [readEnvVars_eq w cfg true metas s hmeta hs, hupd]
    simp only
    rw [bindFields_filter, bindFields_mode w _ (fun sm hsm => ((hfilter sm).1 hsm).2)]
  rw [heq] at hconv ⊢
  refine ⟨rfl, ?_⟩
  have hcore := bindFields_required w (metas.filter (fun sm => sm.updatable))
    (w.runUpdate s).1 [] (hind.sublist (List.filter_sublist _))
    (fun sm hsm => by
      obtain ⟨v, hv, _⟩ := (hsound sm ((hfilter sm).1 hsm).1).fieldAt
      exact hkeep _ (by rw [hv]; rfl))
    (fun extra he c hc v hv => hconv c (by rw [he]; simpa using hc) v hv)
  rcases hcore with ⟨h1, h2⟩ | ⟨pre, sm, post, h1, _, h3, h4, _, _⟩
  · refine ⟨⟨?_, ?_⟩, ?_, fun _ => h1⟩
    · rintro ⟨name, hn⟩; rw [h1] at hn; cases hn
    · rintro ⟨sm, hsm, hu, hm⟩; exact absurd hm (h2 sm ((hfilter sm).2 ⟨hsm, hu⟩))
    · intro name hn; rw [h1] at hn; cases hn
  · have hsm : sm ∈ metas.filter (fun sm => sm.updatable) := by rw [h1]; simp
    obtain ⟨hsm', hu⟩ := (hfilter sm).1 hsm
    refine ⟨⟨fun _ => ⟨sm, hsm', hu, h3⟩, fun _ => ⟨sm.fieldName, h4⟩⟩, ?_, ?_⟩
    · intro name hn
      rw [h4] at hn
      simp only [Exit.error.injEq, Error.requiredField.injEq] at hn
      exact ⟨sm, hsm', hu, h3, hn.symm⟩
    · intro hnone; exact absurd h3 (hnone sm hsm' hu)

/-- C18 at the example: with nothing set in the environment, `Name` is required,
empty and not updatable; `UpdateEnv` returns nil all the same. -/
theorem UpdateEnv_skips_required_check_witness :
    (UpdateEnv emptyWorld exampleRoot).exit = .nil ∧
    Missing emptyWorld exampleConfig metaName ∧ metaName.updatable = false := by
  have h := UpdateEnv_skips_required_check emptyWorld exampleRoot
    [metaA, metaName, metaHost, metaPort] exampleConfig (by decide) rfl rfl (fun _ hp => hp)
    (fun c hc => absurd hc (by
      rw [show (UpdateEnv emptyWorld exampleRoot).calls = [] from by decide]
      exact List.not_mem_nil c))
  refine ⟨h.2.2.2 ?_, ⟨rfl, by decide, .string "", rfl, rfl⟩, rfl⟩
  intro sm hsm hu hm
  simp only [List.mem_cons, List.mem_singleton, List.not_mem_nil, or_false] at hsm
  rcases hsm with rfl | rfl | rfl | rfl
  · exact absurd hu (by decide)
  · exact absurd hu (by decide)
  · exact absurd hu (by decide)
  · exact absurd hm.1 (by decide)

theorem exampleParse_again (v : Value) (raw sep : String) (lay : Option String) :
    exampleParse (exampleParse v raw sep lay).1 raw sep lay = exampleParse v raw sep lay := by
  cases v with
  | string x => rfl
  | int n =>
    simp only [exampleParse]
    cases hd : raw.data with
    | nil => simp [exampleParse, hd]
    | cons c cs =>
      simp only
      cases hk : decimalFrom 0 (c :: cs) with
      | none => simp [exampleParse, hd, hk]
      | some k => simp [exampleParse, hd, hk]
  | bool b => rfl
  | struct t fs => rfl
  | ptr e => rfl
  | other k z => rfl

/-- C20. A structure without `Update` method on which a pass of `ReadEnv` returns nil,
with a conversion that leaves in a field a value of the type of the field and
gives the same when the same raw string is converted into the field a second
time: a second pass of `ReadEnv` from the structure the first left, in the
same environment, reads the same descriptors, returns nil and leaves every
field as the first pass left it, those included whose default converts to the
zero value. -/
theorem ReadEnv_idempotent (w : World) (s s₁ : Value) (metas : List structMeta)
    (hw : w.Update = none)
    (hmeta : readStructMetadata (some (.ptr (some s))) = .ok metas)
    (hty : ∀ sm ∈ metas, ∀ v raw, s.fieldAt sm.fieldValue = some v →
      SameType (w.parseValue v raw sm.separator sm.layout).1 v)
    (hdet : ∀ sm ∈ metas, ∀ v raw, s.fieldAt sm.fieldValue = some v →
      w.parseValue (w.parseValue v raw sm.separator sm.layout).1 raw sm.separator sm.layout =
        w.parseValue v raw sm.separator sm.layout)
    (hexit : (ReadEnv w (some (.ptr (some s)))).exit = .nil)
    (hcfg : (ReadEnv w (some (.ptr (some s)))).cfg = some s₁) :
    readStructMetadata (some (.ptr (some s₁))) = .ok metas ∧
    (ReadEnv w (some (.ptr (some s₁)))).exit = .nil ∧
    (ReadEnv w (some (.ptr (some s₁)))).cfg = some s₁ ∧
    ∀ p, (ReadEnv w (some (.ptr (some s₁)))).field p =
      (ReadEnv w (some (.ptr (some s)))).field p := by
  have hind := readStructMetadata_indep _ metas hmeta
  have hrun : ∀ x : Value, w.runUpdate x = (x, none) := by
    intro x; simp [World.runUpdate, hw]
  have h1 : ReadEnv w (some (.ptr (some s))) = bindFields w false metas s [] := by
    unfold ReadEnv
    rw [readEnvVars_eq w _ false metas s hmeta rfl, hrun]
  have hmeta' : readStructMetadata (some (.ptr (some s₁))) = .ok metas := by
    obtain ⟨t, fs, hroot⟩ := readStructMetadata_root _ metas hmeta
    have hst : s = .struct t fs := Option.some.inj hroot
    subst hst
    obtain ⟨fs', hfs, hsame⟩ := bindFields_sameFields w false t metas fs [] hind
      (fun sm hsm => by
        have hok := readStructMetadata_sound _ metas _ hmeta rfl sm hsm
        obtain ⟨v, hv, hvn⟩ := hok.fieldAt
        exact ⟨hok.ne_nil, v, hv, hvn, fun raw => hty sm hsm v raw hv⟩)
    rw [← h1, hcfg] at hfs
    rw [Option.some.inj hfs, ← readStructMetadata_same t t hsame]
    exact hmeta
  have h2 : ReadEnv w (some (.ptr (some s₁))) = bindFields w false metas s₁ [] := by
    unfold ReadEnv
    rw [readEnvVars_eq w _ false metas s₁ hmeta' rfl, hrun]
  rw [h1] at hexit hcfg
  have hfirst : bindFields w false metas s [] =
      ⟨some s₁, (bindFields w false metas s []).calls, .nil⟩ := by
    rw [← hexit, ← hcfg]
  obtain ⟨c₂, hsecond⟩ := bindFields_again w s₁ metas s [] _ hind hfirst hdet []
  rw [h2, hsecond, h1]
  refine ⟨hmeta', rfl, rfl, ?_⟩
  intro p
  simp [Pass.field, hcfg]

/-- C20 at an example: `Level` is zero and takes its default `"0"`, which converts to
zero; the second pass applies the default again and leaves `Level` at 0 and
`Name` at `svc`. -/
theorem ReadEnv_idempotent_witness :
    (ReadEnv nameWorld (some (.ptr (some levelConfig)))).cfg = some levelBound ∧
    (ReadEnv nameWorld (some (.ptr (some levelBound)))).exit = .nil ∧
    (ReadEnv nameWorld (some (.ptr (some levelBound)))).cfg = some levelBound ∧
    (ReadEnv nameWorld (some (.ptr (some levelBound)))).calls =
      [⟨[0], "0", ",", none⟩, ⟨[1], "svc", ",", none⟩] :=
  have h := ReadEnv_idempotent nameWorld levelConfig levelBound levelMetas rfl
    (by decide) (fun _ _ v raw _ => exampleParse_sameType v raw _ _)
    (fun _ _ v raw _ => exampleParse_again v raw _ _) (by decide) rfl
  ⟨rfl, h.2.1, h.2.2.1, by decide⟩

/-! ## Claims C15 and C16: `Load` -/

/-- C15. For every map and destination, `Load` does the same as on the map
restricted to the names of the top-level fields of the destination, and the
same on every map with the same values at those names: keys that are no field
name change neither the structure nor how the call ends. On a pointer to a
structure the call leaves a structure of the same type with as many fields,
and every field whose name is no key of the map is as it was, however the
call ends. -/
theorem Load_ignores_unmatched (config : String → Option String) (des : Option Value) :
    Load (restrictTo config (topNames des)) des = Load config des ∧
    (∀ config' : String → Option String,
      (∀ name ∈ topNames des, config' name = config name) →
      Load config' des = Load config des) ∧
    (∀ (t : String) (fields : List (StructField × Value)),
      des = some (.ptr (some (.struct t fields))) →
      ∃ fields', (Load config des).des = some (.struct t fields') ∧
        fields'.length = fields.length ∧
        ∀ (i : Nat) (x : StructField × Value),
          fields[i]? = some x → config x.1.Name = none → fields'[i]? = some x) := by
  have hcongr : ∀ config' : String → Option String,
      (∀ name ∈ topNames des, config' name = config name) →
      Load config' des = Load config des := by
    intro config' h
    match des, h with
    | none, _ => rfl
    | some (.bool _), _ => rfl
    | some (.int _), _ => rfl
    | some (.string _), _ => rfl
    | some (.struct _ _), _ => rfl
    | some (.other _ _), _ => rfl
    | some (.ptr none), _ => rfl
    | some (.ptr (some (.bool _))), _ => rfl
    | some (.ptr (some (.int _))), _ => rfl
    | some (.ptr (some (.string _))), _ => rfl
    | some (.ptr (some (.ptr _))), _ => rfl
    | some (.ptr (some (.other _ _))), _ => rfl
    | some (.ptr (some (.struct t fields))), h =>
      have hf : loadFields config' fields = loadFields config fields :=
        loadFields_congr config config' fields
          (fun x hx => h x.1.Name (List.mem_map_of_mem (fun y => y.1.Name) hx))
      simp only [Load, hf]
  refine ⟨hcongr _ ?_, hcongr, ?_⟩
  · intro name hname
    simp [restrictTo, hname]
  · rintro t fields rfl
    exact ⟨(loadFields config fields).1, rfl, loadFields_length config fields,
      loadFields_untouched config fields⟩

/-- C15 at an example: with the key `Other`, which names no field, the call ends
as without it and leaves the same structure; `Ratio`, whose name is no key,
keeps its value, and the call returns nil. -/
theorem Load_ignores_unmatched_witness :
    Load ratioMap (some (.ptr (some ratioConfig))) =
      Load ratioMapKnown (some (.ptr (some ratioConfig))) ∧
    (Load ratioMap (some (.ptr (some ratioConfig)))).exit = .nil ∧
    ∃ fields', (Load ratioMap (some (.ptr (some ratioConfig)))).des =
        some (.struct "main.Ratio" fields') ∧
      fields'[0]? = some (⟨"Ratio", "", []⟩, .other .Float64 true) := by
  obtain ⟨_, hcongr, hkeep⟩ := Load_ignores_unmatched ratioMapKnown
    (some (.ptr (some ratioConfig)))
  obtain ⟨fields', hdes, _, hsame⟩ := hkeep "main.Ratio" ratioFields rfl
  have heq := hcongr ratioMap (by decide)
  refine ⟨heq, by decide, fields', ?_, hsame 0 _ rfl (by decide)⟩
  rw [heq]
  exact hdes

/-- C16, the claim as written fails: `struct { Ratio float64; N int; On bool; S string }`
has a field of kind float64, and `Load` returns nil on it, both with the empty
map and with a map that has values for the three other fields, which it
sets. -/
theorem Load_passes_over_unsupported_kind :
    (∃ x ∈ ratioFields, x.2.Kind ≠ .Int ∧ x.2.Kind ≠ .String ∧ x.2.Kind ≠ .Bool) ∧
    (Load (fun _ => none) (some (.ptr (some ratioConfig)))).exit = .nil ∧
    (Load ratioMap (some (.ptr (some ratioConfig)))).exit = .nil ∧
    (Load ratioMap (some (.ptr (some ratioConfig)))).des =
      some (.struct "main.Ratio"
        [(⟨"Ratio", "", []⟩, .other .Float64 true),
         (⟨"N", "", []⟩, .int 42),
         (⟨"On", "", []⟩, .bool true),
         (⟨"S", "", []⟩, .string " x ")]) := by
  refine ⟨⟨(⟨"Ratio", "", []⟩, .other .Float64 true), List.mem_cons_self _ _, by decide,
    by decide, by decide⟩, by decide, by decide, rfl⟩

/-- C16 as amended. On a pointer to a structure whose fields named in the map are
exported, `Load` returns an error exactly when some top-level field has a
value in the map and either is of a kind other than int, string and bool, or
is of kind int with a value `strconv.Atoi` rejects, or of kind bool with a
value `strconv.ParseBool` rejects; otherwise it returns nil. When it returns
nil, every field with a value in the map is of kind int and holds the result
of `strconv.Atoi`, or of kind string and holds the value itself, or of kind
bool and holds the result of `strconv.ParseBool`. -/
theorem Load_kinds (config : String → Option String) (t : String)
    (fields : List (StructField × Value))
    (hexp : ∀ x ∈ fields, config x.1.Name ≠ none → x.1.PkgPath.isEmpty = true) :
    ((∃ e, (Load config (some (.ptr (some (.struct t fields))))).exit = .error e) ↔
      ∃ x ∈ fields, Unloadable config x) ∧
    ((Load config (some (.ptr (some (.struct t fields))))).exit = .nil ↔
      ¬ ∃ x ∈ fields, Unloadable config x) ∧
    ((Load config (some (.ptr (some (.struct t fields))))).exit = .nil →
      ∃ fields', (Load config (some (.ptr (some (.struct t fields))))).des =
          some (.struct t fields') ∧
        ∀ (i : Nat) (f : StructField) (v : Value) (val : String),
          fields[i]? = some (f, v) → config f.Name = some val →
          (v.Kind = .Int ∧ ∃ n, Atoi val = some n ∧ fields'[i]? = some (f, .int n)) ∨
          (v.Kind = .String ∧ fields'[i]? = some (f, .string val)) ∨
          (v.Kind = .Bool ∧ ∃ b, ParseBool val = some b ∧
            fields'[i]? = some (f, .bool b))) := by
  have hiff : (∃ e, (loadFields config fields).2 = .error e) ↔
      ∃ x ∈ fields, Unloadable config x :=
    ⟨fun ⟨e, he⟩ => loadFields_error_origin config fields e he,
      loadFields_error config fields hexp⟩
  refine ⟨hiff, ?_, ?_⟩
  · show (loadFields config fields).2 = .nil ↔ _
    rw [← hiff]
    constructor
    · rintro h ⟨e, he⟩
      rw [h] at he
      exact LoadExit.noConfusion he
    · intro h
      cases hx : (loadFields config fields).2 with
      | nil => rfl
      | error e => exact absurd ⟨e, hx⟩ h
      | panic msg => exact absurd hx (loadFields_no_panic config fields hexp msg)
  · intro h
    exact ⟨(loadFields config fields).1, rfl, loadFields_nil config fields h⟩

/-- C16 as amended, at an example: with the value `"0.5"` for the float64 field
`Ratio` the call returns the `none supported value type` error; `strconv.Atoi`
takes `"42"` and `"-7"` and rejects `"4x2"`, and `strconv.ParseBool` takes
`"T"` and rejects `"yes"`. -/
theorem Load_kinds_witness :
    (∃ e, (Load floatMap (some (.ptr (some (.struct "main.Ratio" ratioFields))))).exit =
      .error e) ∧
    (Load floatMap (some (.ptr (some ratioConfig)))).exit =
      .error (.unsupported .Float64 "Ratio") ∧
    (Load badIntMap (some (.ptr (some ratioConfig)))).exit = .error (.atoi "4x2") ∧
    Atoi "42" = some 42 ∧ Atoi "-7" = some (-7) ∧ Atoi "4x2" = none ∧
    ParseBool "T" = some true ∧ ParseBool "yes" = none := by
  refine ⟨(Load_kinds floatMap "main.Ratio" ratioFields (by decide)).1.2
      ⟨(⟨"Ratio", "", []⟩, .other .Float64 true), List.mem_cons_self _ _, "0.5", by decide,
        Or.inl (by decide)⟩,
    by decide, by decide, by decide, by decide, by decide, by decide, by decide⟩

end config
